import Mathlib

/-!
# MCHEAP and HEAPS: a shallow embedding

The development follows `src/test/mcheap.c` (the fixed-buffer allocator) and
`src/heaps.h` (the allocation tracker) function by function.

## Memory model

* Memory is byte addressed: `Mem = Nat → Nat`, one byte per address (a cell is
  read modulo 256).
* The target is LP64: `size_t` and pointers are 8 bytes, little endian, and all
  `size_t` / pointer arithmetic is reduced modulo `2 ^ 64` (`add64`, `sub64`).
* A null pointer is the address `0`.
* `struct used_struct` is `{ size_t size; uint8_t content[] }` and
  `struct free_struct` is `{ size_t size; free_struct* next_ptr; uint8_t content[] }`:
  `size` lives at offset 0, `next_ptr` at offset 8, and `content` at offset
  `sizeof` of the structure (`Cfg.U`, `Cfg.F`), which the `aligned` attribute
  pads to the configured alignment.
* Loops of the C code are written with an explicit iteration budget; a result
  of `none` means that the budget was exhausted or that the C code dereferenced
  a null pointer.
-/

namespace Mcheap

/-- Build configuration of `mcheap.c`: the macros `MCHEAP_SIZE` and
`MCHEAP_ALIGNMENT`, the two structure sizes that follow from the alignment, and
the address at which `heap_space` was placed. -/
structure Cfg where
  /-- The macro `MCHEAP_SIZE`. -/
  SIZE : Nat
  /-- The macro `MCHEAP_ALIGNMENT`. -/
  ALIGN : Nat
  /-- The value `sizeof(struct used_struct)`, also `offsetof(used_struct, content)`. -/
  U : Nat
  /-- The value `sizeof(struct free_struct)`, also `offsetof(free_struct, content)`. -/
  F : Nat
  /-- The address `&heap_space[0]`. -/
  base : Nat
deriving DecidableEq, Repr

/-- What every build satisfies: the headers hold their fields (8 bytes of
`size`, 16 with `next_ptr`), the used header is not larger than the free header,
the region holds at least one free header, it does not start at the null
address, and it ends at least one free header below the top of the 64-bit
address space (so that the size of a section plus a header does not wrap). -/
def Cfg.Valid (c : Cfg) : Prop :=
  0 < c.ALIGN ∧ 8 ≤ c.U ∧ 16 ≤ c.F ∧ c.U ≤ c.F ∧ c.F ≤ c.SIZE ∧ 0 < c.base ∧
    c.base + c.SIZE + c.F < 2 ^ 64

instance (c : Cfg) : Decidable c.Valid := by
  unfold Cfg.Valid
  infer_instance

/-- Byte-addressed memory. -/
abbrev Mem : Type := Nat → Nat

/-- Addition of `size_t` values (and of a pointer and an offset). -/
def add64 (a b : Nat) : Nat := (a + b) % 2 ^ 64

/-- Subtraction of `size_t` values. -/
def sub64 (a b : Nat) : Nat := (a + (2 ^ 64 - b % 2 ^ 64)) % 2 ^ 64

/-- Load of an 8-byte little-endian word. -/
def rd64 (m : Mem) (p : Nat) : Nat :=
  m p % 256 + 256 * (m (p + 1) % 256) + 65536 * (m (p + 2) % 256)
    + 16777216 * (m (p + 3) % 256) + 4294967296 * (m (p + 4) % 256)
    + 1099511627776 * (m (p + 5) % 256) + 281474976710656 * (m (p + 6) % 256)
    + 72057594037927936 * (m (p + 7) % 256)

/-- Store of an 8-byte little-endian word. -/
def wr64 (m : Mem) (p v : Nat) : Mem :=
  fun a => if p ≤ a ∧ a < p + 8 then v / 256 ^ (a - p) % 256 else m a

/-- The library calls `memcpy` / `memmove`: `n` bytes from `src` to `dst`, the
source bytes being those before the call. -/
def memmove (m : Mem) (dst src n : Nat) : Mem :=
  fun a => if dst ≤ a ∧ a < dst + n then m (src + (a - dst)) else m a

/-- The private variables of `mcheap.c` together with the memory. -/
structure Heap where
  /-- The memory, `heap_space` included. -/
  mem : Mem
  /-- The variable `first_free`. -/
  first_free : Nat
  /-- The variable `initialized`. -/
  initialized : Bool

/-- A `struct free_struct **`: either `&first_free` or `&p->next_ptr`. -/
inductive Link where
  | root : Link
  | next (p : Nat) : Link
deriving DecidableEq, Repr

/-- Iteration budget given to every list walk by the public functions. -/
def Cfg.fuel (c : Cfg) : Nat := c.SIZE + 1

/-- The macro `END_OF_HEAP`. -/
def END_OF_HEAP (c : Cfg) : Nat := add64 c.base c.SIZE

/-- The field `p->size`. -/
def size_of (m : Mem) (p : Nat) : Nat := rd64 m p

/-- The field `p->next_ptr` of a free section. -/
def next_ptr (m : Mem) (p : Nat) : Nat := rd64 m (p + 8)

/-- The macro `SECTION_SIZE` on a `struct free_struct *`. -/
def SECTION_SIZE_free (c : Cfg) (m : Mem) (p : Nat) : Nat := add64 c.F (size_of m p)

/-- The macro `SECTION_SIZE` on a `struct used_struct *`. -/
def SECTION_SIZE_used (c : Cfg) (m : Mem) (p : Nat) : Nat := add64 c.U (size_of m p)

/-- The macro `SECTION_AFTER` on a `struct free_struct *`. -/
def SECTION_AFTER_free (c : Cfg) (m : Mem) (p : Nat) : Nat :=
  add64 (add64 p c.F) (size_of m p)

/-- The macro `SECTION_AFTER` on a `struct used_struct *`. -/
def SECTION_AFTER_used (c : Cfg) (m : Mem) (p : Nat) : Nat :=
  add64 (add64 p c.U) (size_of m p)

/-- Dereference of a link. -/
def Link.read (h : Heap) : Link → Nat
  | Link.root => h.first_free
  | Link.next p => next_ptr h.mem p

/-- Assignment through a link. -/
def Link.write (h : Heap) (v : Nat) : Link → Heap
  | Link.root => { h with first_free := v }
  | Link.next p => { h with mem := wr64 h.mem (p + 8) v }

/-- The function `align_size`. -/
def align_size (c : Cfg) (sz : Nat) : Nat :=
  if sz % c.ALIGN ≠ 0 then add64 sz (c.ALIGN - sz % c.ALIGN) else sz

/-- The function `enforce_minimum_allocation_size`. -/
def enforce_minimum_allocation_size (c : Cfg) (sz : Nat) : Nat :=
  let sz := align_size c sz
  if add64 c.U sz < c.F then sub64 c.F c.U else sz

/-- The function `initialize` of the source (the word is reserved here). -/
def initialise (c : Cfg) (h : Heap) : Heap :=
  { mem := wr64 (wr64 h.mem c.base (sub64 c.SIZE c.F)) (c.base + 8) 0
    first_free := c.base
    initialized := true }

/-- The guard `if(!initialized)` with its call of `initialize` that opens the three internal
entry points. -/
def ensure_init (c : Cfg) (h : Heap) : Heap :=
  if h.initialized then h else initialise c h

/-- The loop of `free_walk`. -/
def free_walk_loop (c : Cfg) (m : Mem) (size : Nat) : Nat → Nat → Option Nat
  | 0, _ => none
  | fuel + 1, free_ptr =>
    if free_ptr ≠ 0 ∧ SECTION_SIZE_free c m free_ptr < add64 c.U size then
      free_walk_loop c m size fuel (next_ptr m free_ptr)
    else some free_ptr

/-- The function `free_walk`. -/
def free_walk (c : Cfg) (h : Heap) (size : Nat) : Option Nat :=
  free_walk_loop c h.mem size c.fuel h.first_free

/-- The loop of `find_free_below`. -/
def find_free_below_loop (m : Mem) (target : Nat) : Nat → Nat → Nat → Option Nat
  | 0, _, _ => none
  | fuel + 1, free_ptr, retval =>
    if free_ptr ≠ 0 ∧ free_ptr < target then
      find_free_below_loop m target fuel (next_ptr m free_ptr) free_ptr
    else some retval

/-- The function `find_free_below`. -/
def find_free_below (c : Cfg) (h : Heap) (target : Nat) : Option Nat :=
  find_free_below_loop h.mem target c.fuel h.first_free 0

/-- The loop of `in_free_list`. -/
def in_free_list_loop (m : Mem) (sect : Nat) : Nat → Nat → Bool → Option Bool
  | 0, _, _ => none
  | fuel + 1, free_ptr, retval =>
    if free_ptr ≠ 0 ∧ retval = false then
      in_free_list_loop m sect fuel (next_ptr m free_ptr) (decide (free_ptr = sect))
    else some retval

/-- The function `in_free_list`. -/
def in_free_list (c : Cfg) (h : Heap) (sect : Nat) : Option Bool :=
  in_free_list_loop h.mem sect c.fuel h.first_free false

/-- The loop of `free_insert`: the link at which the walk stops. -/
def free_insert_loop (h : Heap) (new_free : Nat) : Nat → Link → Option Link
  | 0, _ => none
  | fuel + 1, link_ptr =>
    if link_ptr.read h ≠ 0 ∧ link_ptr.read h < new_free then
      free_insert_loop h new_free fuel (Link.next (link_ptr.read h))
    else some link_ptr

/-- The function `free_insert`. -/
def free_insert (c : Cfg) (h : Heap) (new_free : Nat) : Option Heap :=
  (free_insert_loop h new_free c.fuel Link.root).map fun link_ptr =>
    let h1 : Heap := { h with mem := wr64 h.mem (new_free + 8) (link_ptr.read h) }
    link_ptr.write h1 new_free

/-- The loop of `free_remove`: the link that points to `free_ptr`. Walking off
the end of the list dereferences a null pointer. -/
def free_remove_loop (h : Heap) (free_ptr : Nat) : Nat → Link → Option Link
  | 0, _ => none
  | fuel + 1, link_ptr =>
    if link_ptr.read h ≠ free_ptr then
      if link_ptr.read h = 0 then none
      else free_remove_loop h free_ptr fuel (Link.next (link_ptr.read h))
    else some link_ptr

/-- The function `free_remove`. -/
def free_remove (c : Cfg) (h : Heap) (free_ptr : Nat) : Option Heap :=
  (free_remove_loop h free_ptr c.fuel Link.root).map fun link_ptr =>
    link_ptr.write h (next_ptr h.mem free_ptr)

/-- The function `free_merge_up`. -/
def free_merge_up (c : Cfg) (h : Heap) (free_ptr : Nat) : Heap :=
  if next_ptr h.mem free_ptr ≠ 0 then
    if next_ptr h.mem free_ptr = SECTION_AFTER_free c h.mem free_ptr then
      let m1 := wr64 h.mem free_ptr
        (add64 (size_of h.mem free_ptr) (SECTION_SIZE_free c h.mem (next_ptr h.mem free_ptr)))
      let m2 := wr64 m1 (free_ptr + 8) (next_ptr m1 (next_ptr m1 free_ptr))
      { h with mem := m2 }
    else h
  else h

/-- The function `free_merge`. -/
def free_merge (c : Cfg) (h : Heap) (free_ptr : Nat) : Option Heap :=
  let h1 := free_merge_up c h free_ptr
  (find_free_below c h1 free_ptr).map fun below =>
    if below ≠ 0 then free_merge_up c h1 below else h1

/-- The function `used_to_free`; the section keeps its address. -/
def used_to_free (c : Cfg) (h : Heap) (used_ptr : Nat) : Heap :=
  { h with mem := wr64 h.mem used_ptr (sub64 (SECTION_SIZE_used c h.mem used_ptr) c.F) }

/-- The function `free_to_used`; the section keeps its address. -/
def free_to_used (c : Cfg) (h : Heap) (free_ptr : Nat) : Heap :=
  { h with mem := wr64 h.mem free_ptr (sub64 (SECTION_SIZE_free c h.mem free_ptr) c.U) }

/-- The function `used_shrink`. -/
def used_shrink (c : Cfg) (h : Heap) (used_ptr new_size : Nat) : Option Heap :=
  if new_size < size_of h.mem used_ptr then
    if add64 (add64 c.U new_size) c.F ≤ SECTION_SIZE_used c h.mem used_ptr then
      let free_ptr := add64 (add64 used_ptr c.U) new_size
      let m1 := wr64 h.mem free_ptr (sub64 (sub64 (size_of h.mem used_ptr) new_size) c.F)
      let m2 := wr64 m1 used_ptr new_size
      (free_insert c { h with mem := m2 } free_ptr).map fun h3 => free_merge_up c h3 free_ptr
    else some h
  else some h

/-- The function `used_section_can_extend_down`. -/
def used_section_can_extend_down (c : Cfg) (h : Heap) (free_ptr used_ptr desired_size : Nat) :
    Bool :=
  decide (free_ptr ≠ 0) && decide (SECTION_AFTER_free c h.mem free_ptr = used_ptr)
    && decide (desired_size ≤ add64 (size_of h.mem used_ptr) (SECTION_SIZE_free c h.mem free_ptr))

/-- The function `used_section_can_extend_up`. -/
def used_section_can_extend_up (c : Cfg) (h : Heap) (used_ptr desired_size : Nat) :
    Option Bool :=
  let free_ptr := SECTION_AFTER_used c h.mem used_ptr
  (in_free_list c h free_ptr).map fun listed =>
    listed && decide (desired_size ≤
      add64 (size_of h.mem used_ptr) (SECTION_SIZE_free c h.mem free_ptr))

/-- The function `used_extend_down`; the resulting used section is at `free_ptr`. -/
def used_extend_down (c : Cfg) (h : Heap) (free_ptr used_ptr preserve_size : Nat) : Heap :=
  let extra_size := SECTION_SIZE_free c h.mem free_ptr
  let move_size :=
    if add64 preserve_size c.U < SECTION_SIZE_used c h.mem used_ptr then add64 preserve_size c.U
    else SECTION_SIZE_used c h.mem used_ptr
  let m1 := memmove h.mem free_ptr used_ptr move_size
  { h with mem := wr64 m1 free_ptr (add64 (size_of m1 free_ptr) extra_size) }

/-- The function `used_extend_up`; the used section keeps its address. -/
def used_extend_up (c : Cfg) (h : Heap) (used_ptr : Nat) : Heap :=
  let free_ptr := SECTION_AFTER_used c h.mem used_ptr
  let ext_size := SECTION_SIZE_free c h.mem free_ptr
  { h with mem := wr64 h.mem used_ptr (add64 (size_of h.mem used_ptr) ext_size) }

/-- The function `relocate`; the new used section is at `dest_ptr`. -/
def relocate (c : Cfg) (h : Heap) (dest_ptr src_ptr new_size : Nat) : Option Heap := do
  let h1 ← free_remove c h dest_ptr
  let h2 := free_to_used c h1 dest_ptr
  let n := min new_size (size_of h2.mem src_ptr)
  let h3 : Heap := { h2 with mem := memmove h2.mem (dest_ptr + c.U) (src_ptr + c.U) n }
  let h4 := used_to_free c h3 src_ptr
  let h5 ← free_insert c h4 src_ptr
  free_merge c h5 src_ptr

/-- The function `allocate`: the new state and the returned pointer. -/
def allocate (c : Cfg) (h : Heap) (size : Nat) : Option (Heap × Nat) := do
  let h0 := ensure_init c h
  let size := enforce_minimum_allocation_size c size
  let free_ptr ← free_walk c h0 size
  if free_ptr ≠ 0 then
    let h1 ← free_remove c h0 free_ptr
    let h2 := free_to_used c h1 free_ptr
    let h3 ← used_shrink c h2 free_ptr size
    pure (h3, free_ptr + c.U)
  else pure (h0, 0)

/-- The function `internal_free`: the new state and the returned pointer. -/
def internal_free (c : Cfg) (h : Heap) (sect : Nat) : Option (Heap × Nat) := do
  let h0 := ensure_init c h
  if sect ≠ 0 then
    let used_ptr := sub64 sect c.U
    let h1 := used_to_free c h0 used_ptr
    let h2 ← free_insert c h1 used_ptr
    let h3 ← free_merge c h2 used_ptr
    pure (h3, 0)
  else pure (h0, 0)

/-- The resizing branch of `reallocate` up to the final shrink: the new state
and `new_used_ptr` (null when no preference applies). -/
def reallocate_move (c : Cfg) (h0 : Heap) (used_ptr new_size : Nat) :
    Option (Heap × Nat) := do
  let relocation_ptr ← free_walk c h0 new_size
  if relocation_ptr ≠ 0 ∧ relocation_ptr < used_ptr then
    let h1 ← relocate c h0 relocation_ptr used_ptr new_size
    pure (h1, relocation_ptr)
  else
    let free_ptr ← find_free_below c h0 used_ptr
    if used_section_can_extend_down c h0 free_ptr used_ptr new_size then
      let h1 ← free_remove c h0 free_ptr
      pure (used_extend_down c h1 free_ptr used_ptr new_size, free_ptr)
    else if new_size ≤ size_of h0.mem used_ptr then
      pure (h0, used_ptr)
    else
      let up ← used_section_can_extend_up c h0 used_ptr new_size
      if up then
        let h1 ← free_remove c h0 (SECTION_AFTER_used c h0.mem used_ptr)
        pure (used_extend_up c h1 used_ptr, used_ptr)
      else if relocation_ptr ≠ 0 then
        let h1 ← relocate c h0 relocation_ptr used_ptr new_size
        pure (h1, relocation_ptr)
      else pure (h0, 0)

/-- The function `reallocate`: the new state and the returned pointer. -/
def reallocate (c : Cfg) (h : Heap) (sect new_size : Nat) : Option (Heap × Nat) :=
  let h0 := ensure_init c h
  if sect = 0 then allocate c h0 new_size
  else if new_size = 0 then internal_free c h0 sect
  else do
    let new_size := enforce_minimum_allocation_size c new_size
    let used_ptr := sub64 sect c.U
    let (h1, new_used_ptr) ← reallocate_move c h0 used_ptr new_size
    if new_used_ptr ≠ 0 then
      let h2 ← used_shrink c h1 new_used_ptr new_size
      pure (h2, new_used_ptr + c.U)
    else pure (h1, 0)

/-- The loop of `free_find_largest`. -/
def free_find_largest_loop (m : Mem) : Nat → Nat → Nat → Option Nat
  | 0, _, _ => none
  | fuel + 1, free_ptr, largest =>
    if free_ptr ≠ 0 then
      free_find_largest_loop m fuel (next_ptr m free_ptr)
        (if largest < size_of m free_ptr then size_of m free_ptr else largest)
    else some largest

/-- The function `free_find_largest`. -/
def free_find_largest (c : Cfg) (h : Heap) : Option Nat :=
  if h.first_free ≠ 0 then
    (free_find_largest_loop h.mem c.fuel h.first_free 0).map fun largest =>
      let largest := add64 largest c.F
      if c.U ≤ largest then sub64 largest c.U else largest
  else some 0

/-- The loop of `heap_test`. -/
def heap_test_loop (c : Cfg) (m : Mem) : Nat → Nat → Nat → Bool → Option Bool
  | 0, _, _, _ => none
  | fuel + 1, next_free_ptr, section_ptr, intact =>
    if intact = true ∧ section_ptr ≠ END_OF_HEAP c then
      let nf := if section_ptr = next_free_ptr then next_ptr m section_ptr else next_free_ptr
      let sp :=
        if section_ptr = next_free_ptr then add64 section_ptr (SECTION_SIZE_free c m section_ptr)
        else add64 section_ptr (SECTION_SIZE_used c m section_ptr)
      heap_test_loop c m fuel nf sp
        (if sp < c.base ∨ END_OF_HEAP c < sp then false else intact)
    else some intact

/-- The function `heap_test`, with the iteration budget of its loop. -/
def heap_test (c : Cfg) (h : Heap) (fuel : Nat) : Option Bool :=
  heap_test_loop c h.mem fuel h.first_free c.base true

/-- The public function `mcheap_allocate`. -/
def mcheap_allocate (c : Cfg) (h : Heap) (size : Nat) : Option (Heap × Nat) :=
  allocate c h size

/-- The public function `mcheap_reallocate`. -/
def mcheap_reallocate (c : Cfg) (h : Heap) (sect new_size : Nat) : Option (Heap × Nat) :=
  reallocate c h sect new_size

/-- The public function `mcheap_free`. -/
def mcheap_free (c : Cfg) (h : Heap) (sect : Nat) : Option (Heap × Nat) :=
  internal_free c h sect

/-- The public function `mcheap_largest_free`. -/
def mcheap_largest_free (c : Cfg) (h : Heap) : Option Nat :=
  free_find_largest c h

/-- The public function `mcheap_is_intact`. -/
def mcheap_is_intact (c : Cfg) (h : Heap) : Option Bool :=
  heap_test c h c.fuel

/-- The public function `mcheap_reinit`. -/
def mcheap_reinit (c : Cfg) (h : Heap) : Heap :=
  initialise c h

/-- The walk `for(free_ptr = first_free; free_ptr; free_ptr = free_ptr->next_ptr)`
that the functions of the free list make (the loop of `free_find_largest`),
collecting the addresses it visits, in order. -/
def free_list_loop (m : Mem) : Nat → Nat → Option (List Nat)
  | 0, _ => none
  | fuel + 1, free_ptr =>
    if free_ptr ≠ 0 then
      (free_list_loop m fuel (next_ptr m free_ptr)).map fun rest => free_ptr :: rest
    else some []

/-- The sections the list rooted at `first_free` visits, in order. -/
def free_list (c : Cfg) (h : Heap) : Option (List Nat) :=
  free_list_loop h.mem c.fuel h.first_free

/-- The default build on x86-64: `MCHEAP_SIZE` 1000, `__BIGGEST_ALIGNMENT__` 16,
both headers padded to 16 bytes. -/
def cfg16 : Cfg := { SIZE := 1000, ALIGN := 16, U := 16, F := 16, base := 4096 }

/-- Program start: zero-filled memory, `first_free` null, not initialised. -/
def start : Heap := { mem := fun _ => 0, first_free := 0, initialized := false }

/-- The initialised region of the default build. -/
def heap0 : Heap := initialise cfg16 start

/-- The state of a result (program start when there is none). -/
def heapOf (r : Option (Heap × Nat)) : Heap := (r.getD (start, 0)).1

/-- Example: `heap0` after `mcheap_allocate(100)`, which returns 4112. -/
def heapA : Heap := heapOf (mcheap_allocate cfg16 heap0 100)

/-- Example: `heapA` after `mcheap_allocate(50)`, which returns 4240. -/
def heapB : Heap := heapOf (mcheap_allocate cfg16 heapA 50)

/-- Example: `heapB` after `mcheap_free(4112)`: a free hole below the block at 4240. -/
def heapC : Heap := heapOf (mcheap_free cfg16 heapB 4112)

/-- Example: `heapC` after the program stored the byte 170 at the start of its
block at 4240. -/
def heapD : Heap := { heapC with mem := fun a => if a = 4240 then 170 else heapC.mem a }

/-- Example: a region whose first size field was overwritten with `2^64 - 16`,
so that header plus size is 0 modulo `2^64`; `first_free` is null. -/
def heapLoop : Heap :=
  { mem := wr64 start.mem 4096 (2 ^ 64 - 16), first_free := 0, initialized := true }

end Mcheap

/-!
## HEAPS

The tracker of `src/heaps.h`. The platform allocator is a parameter (the macros
`heaps_platform_*`); a platform call that returns nothing makes the tracker
operation return nothing. The records `heaps_t` are kept as the list of the
blocks linked from `head`, head first, each with the address of its block: the
field `next` of a record is its successor in that list and `content` is the
address of the block plus `sizeof(heaps_t)`. The cells of a report array are
kept beside the address of its block. The counters of type `int` are integers.
-/

namespace Heaps

/-- Build configuration of `heaps.h`. -/
structure Cfg where
  /-- The value `sizeof(heaps_t)`, also `offsetof(heaps_t, content)`. -/
  H : Nat
  /-- The value `sizeof(heaps_report_t)`. -/
  R : Nat
  /-- The expansion of `__FILE__` inside `heaps.h`. -/
  FILE : String
  /-- Whether `HEAPS_REALLOC_ZERO_DOESNT_FREE` is defined. -/
  REALLOC_ZERO_DOESNT_FREE : Bool
  /-- Whether `HEAPS_NO_PRE_OPERATION_WALK_CHECK` is defined. -/
  NO_PRE_OPERATION_WALK_CHECK : Bool
  /-- Whether the macro `heaps_platform_alloc` is defined. -/
  HAS_PLATFORM_ALLOC : Bool

/-- The macros a host supplies, over the host state `σ`. -/
structure Platform (σ : Type) where
  /-- The macro `heaps_platform_alloc(size)`. -/
  alloc : σ → Nat → Option (σ × Nat)
  /-- The macro `heaps_platform_realloc(ptr, size)`. -/
  realloc : σ → Nat → Nat → Option (σ × Nat)
  /-- The macro `heaps_platform_free(ptr)`. -/
  free : σ → Nat → Option σ
  /-- The macro `heaps_platform_check()`. -/
  check : σ → Option Bool
  /-- The macro `heaps_platform_largest_free()`. -/
  largest_free : σ → Option Nat
  /-- The library call `memset(ptr, value, len)` on the memory of the host. -/
  memset : σ → Nat → Nat → Nat → σ

/-- A linked `heaps_t`: the address of the block and the fields written by
`link_allocation`. -/
structure heaps_t where
  /-- The address of the block (the `heaps_t *`). -/
  addr : Nat
  /-- The field `size`. -/
  size : Nat
  /-- The field `file`. -/
  file : String
  /-- The field `line`. -/
  line : Int
deriving DecidableEq, Repr

/-- The structure `heaps_report_t`. -/
structure heaps_report_t where
  /-- The field `file`. -/
  file : String
  /-- The field `line`. -/
  line : Int
  /-- The field `count`. -/
  count : Int
  /-- The field `size`. -/
  size : Nat
deriving DecidableEq, Repr, Inhabited

/-- One call of `heaps_error_handler(msg, file, line)`. -/
structure ErrorCall where
  /-- The argument `msg`. -/
  msg : String
  /-- The argument `file`. -/
  file : String
  /-- The argument `line`. -/
  line : Int
deriving DecidableEq, Repr

/-- The private variables of `heaps.h`, the host state, and three histories that
are no variables of the source: the calls of the error handler made so far, the
values `allocation_count` has held, and the records `link_allocation` has
linked (each most recent first). -/
structure State (σ : Type) where
  /-- The state of the platform allocator. -/
  plat : σ
  /-- The list rooted at the variable `head`. -/
  head : List heaps_t
  /-- The variable `allocation_count`. -/
  allocation_count : Int
  /-- The variable `allocation_count_peak`. -/
  allocation_count_peak : Int
  /-- The variable `headroom`. -/
  headroom : Nat
  /-- The variable `largest_allocation`. -/
  largest_allocation : heaps_report_t
  /-- The calls of `heaps_error_handler`, most recent first. -/
  errors : List ErrorCall
  /-- History: every value `allocation_count` has held, the current one first. -/
  counts : List Int
  /-- History: every record `link_allocation` has linked, most recent first. -/
  linked : List heaps_t

/-- The static initialisers of the private variables. -/
def State.init {σ : Type} (p : σ) : State σ :=
  { plat := p, head := [], allocation_count := 0, allocation_count_peak := 0,
    headroom := 2 ^ 64 - 1, largest_allocation := { file := "", line := 0, count := 0, size := 0 },
    errors := [], counts := [0], linked := [] }

/-- The macro `heaps_error_handler`. -/
def error_handler {σ : Type} (s : State σ) (msg file : String) (line : Int) : State σ :=
  { s with errors := { msg := msg, file := file, line := line } :: s.errors }

/-- The function `check_heap`. -/
def check_heap {σ : Type} (c : Cfg) (P : Platform σ) (s : State σ) (file : String) (line : Int) :
    Option (State σ) :=
  let s1 :=
    if c.NO_PRE_OPERATION_WALK_CHECK then s
    else if (s.head.length : Int) ≠ s.allocation_count then
      error_handler s "heap broken" file line
    else s
  (P.check s1.plat).map fun ok =>
    if ok = false then error_handler s1 "heap broken" file line else s1

/-- The function `link_allocation`: the new state and `meta->content`. -/
def link_allocation {σ : Type} (c : Cfg) (s : State σ) (meta_ptr size : Nat) (file : String)
    (line : Int) : State σ × Nat :=
  let count := s.allocation_count + 1
  ({ s with
      head := { addr := meta_ptr, size := size, file := file, line := line } :: s.head,
      allocation_count := count,
      allocation_count_peak :=
        if s.allocation_count_peak < count then count else s.allocation_count_peak,
      largest_allocation :=
        if s.largest_allocation.size < size then
          { s.largest_allocation with size := size, file := file, line := line }
        else s.largest_allocation,
      counts := count :: s.counts,
      linked := { addr := meta_ptr, size := size, file := file, line := line } :: s.linked },
    Mcheap.add64 meta_ptr c.H)

/-- The walk of `unlink_allocation` over the links: the record whose `content`
is `ptr` and the list without it. -/
def unlink_walk (c : Cfg) (ptr : Nat) : List heaps_t → Option (heaps_t × List heaps_t)
  | [] => none
  | r :: rest =>
    if Mcheap.add64 r.addr c.H ≠ ptr then
      (unlink_walk c ptr rest).map fun x => (x.1, r :: x.2)
    else some (r, rest)

/-- The function `unlink_allocation`: the new state and `to_free`. -/
def unlink_allocation {σ : Type} (c : Cfg) (s : State σ) (ptr : Nat) : State σ × Nat :=
  match unlink_walk c ptr s.head with
  | none => (s, 0)
  | some x =>
    ({ s with head := x.2, allocation_count := s.allocation_count - 1,
              counts := (s.allocation_count - 1) :: s.counts }, x.1.addr)

/-- The function `track_headroom`. -/
def track_headroom {σ : Type} (P : Platform σ) (s : State σ) : Option (State σ) :=
  (P.largest_free s.plat).map fun largest_free =>
    if largest_free < s.headroom then { s with headroom := largest_free } else s

/-- The function `alloc_`. -/
def alloc_ {σ : Type} (c : Cfg) (P : Platform σ) (s : State σ) (size : Nat) (file : String)
    (line : Int) : Option (State σ × Nat) :=
  let size_with_meta := Mcheap.add64 size c.H
  (check_heap c P s file line).bind fun s1 =>
    (P.alloc s1.plat size_with_meta).bind fun r =>
      let s2 : State σ := { s1 with plat := r.1 }
      if r.2 = 0 then some (error_handler s2 "allocation failed" file line, 0)
      else
        let l := link_allocation c s2 r.2 size file line
        (track_headroom P l.1).map fun s3 => (s3, l.2)

/-- The function `realloc_`. The first argument bounds the depth of the calls
`heaps_realloc(to_free, 0)` that the freeing branch makes on itself through the
public macro. -/
def realloc_ {σ : Type} (c : Cfg) (P : Platform σ) :
    Nat → State σ → Nat → Nat → String → Int → Option (State σ × Nat)
  | 0, _, _, _, _, _ => none
  | depth + 1, s, ptr, size, file, line =>
    let size_with_meta := Mcheap.add64 size c.H
    let allocating : Bool := decide (ptr = 0)
    let reallocating : Bool :=
      if c.REALLOC_ZERO_DOESNT_FREE then decide (ptr ≠ 0) else decide (ptr ≠ 0 ∧ 0 < size)
    let freeing : Bool :=
      if c.REALLOC_ZERO_DOESNT_FREE then false else decide (ptr ≠ 0 ∧ size = 0)
    (check_heap c P s file line).bind fun s1 =>
      let out : Option (State σ × Nat) :=
        if allocating then
          (P.realloc s1.plat 0 size_with_meta).map fun r =>
            let s2 : State σ := { s1 with plat := r.1 }
            if r.2 = 0 then
              (error_handler s2 "allocation via heaps_realloc() failed" file line, 0)
            else link_allocation c s2 r.2 size file line
        else if freeing then
          let u := unlink_allocation c s1 ptr
          if u.2 = 0 then some (error_handler u.1 "false free via heaps_realloc()" file line, 0)
          else (realloc_ c P depth u.1 u.2 0 c.FILE 330).map fun r => (r.1, 0)
        else if reallocating then
          let u := unlink_allocation c s1 ptr
          (P.realloc u.1.plat u.2 size_with_meta).map fun r =>
            let s2 : State σ := { u.1 with plat := r.1 }
            if r.2 = 0 then (error_handler s2 "heaps_realloc() failed" file line, 0)
            else link_allocation c s2 r.2 size file line
        else some (s1, 0)
      out.bind fun o =>
        if o.2 ≠ 0 then (track_headroom P o.1).map fun s3 => (s3, o.2) else some o

/-- The function `free_`. -/
def free_ {σ : Type} (c : Cfg) (P : Platform σ) (s : State σ) (ptr : Nat) (file : String)
    (line : Int) : Option (State σ × Nat) :=
  (check_heap c P s file line).bind fun s1 =>
    if ptr ≠ 0 then
      let u := unlink_allocation c s1 ptr
      if u.2 = 0 then some (error_handler u.1 "false free" file line, 0)
      else (P.free u.1.plat u.2).map fun p => ({ u.1 with plat := p }, 0)
    else some (s1, 0)

/-- The function `calloc_`. -/
def calloc_ {σ : Type} (c : Cfg) (P : Platform σ) (s : State σ) (qty size : Nat)
    (file : String) (line : Int) : Option (State σ × Nat) :=
  let size_with_meta := Mcheap.add64 ((size * qty) % 2 ^ 64) c.H
  (check_heap c P s file line).bind fun s1 =>
    let size := (size * qty) % 2 ^ 64
    let meta_ptr :=
      if c.HAS_PLATFORM_ALLOC then P.alloc s1.plat size_with_meta
      else P.realloc s1.plat 0 size_with_meta
    meta_ptr.bind fun r =>
      let s2 : State σ := { s1 with plat := r.1 }
      if r.2 = 0 then some (error_handler s2 "calloc failed" file line, 0)
      else
        let l := link_allocation c s2 r.2 size file line
        let s3 : State σ := { l.1 with plat := P.memset l.1.plat l.2 0 size }
        (track_headroom P s3).map fun s4 => (s4, l.2)

/-- The inner loop of `report`: `while(!found && i--)` over the cells below
index `i`; the index at which the key of `link` was found. -/
def report_search (cells : List heaps_report_t) (link : heaps_t) : Nat → Option Nat
  | 0 => none
  | i + 1 =>
    if (cells.getD i default).file = link.file ∧ (cells.getD i default).line = link.line then
      some i
    else report_search cells link i

/-- The locals `arr` (the address and the cells written so far), `size` and
`failed` of `report`, with the state. -/
structure ReportVars (σ : Type) where
  /-- The state of the tracker. -/
  st : State σ
  /-- The local `arr`. -/
  arr : Nat
  /-- The cells of `arr` written so far. -/
  cells : List heaps_report_t
  /-- The local `size`. -/
  size : Nat
  /-- The local `failed`. -/
  failed : Bool

/-- The function `add_to_report`. -/
def add_to_report {σ : Type} (c : Cfg) (P : Platform σ) (v : ReportVars σ) (src : heaps_t) :
    Option (ReportVars σ) :=
  let i := v.size
  let dst_size := v.size + 1
  (realloc_ c P (v.st.head.length + 1) v.st v.arr (((dst_size + 1) * c.R) % 2 ^ 64)
      c.FILE 506).bind fun r =>
    if r.2 = 0 then
      (free_ c P r.1 v.arr c.FILE 510).map fun f =>
        { st := f.1, arr := f.2, cells := [], size := 0, failed := true }
    else
      let cell : heaps_report_t :=
        { file := src.file, line := src.line, count := 1, size := src.size }
      some { st := r.1, arr := r.2, cells := v.cells.take i ++ [cell], size := dst_size,
             failed := false }

/-- The outer loop of `report`. The records are visited through their `next`
fields as they were on entry: a reallocation of the array unlinks and links
only the record of the array, which is at the head. -/
def report_loop {σ : Type} (c : Cfg) (P : Platform σ) :
    List heaps_t → ReportVars σ → Option (ReportVars σ)
  | [], v => some v
  | link :: rest, v =>
    if v.failed then some v
    else
      match report_search v.cells link v.size with
      | some i =>
        let bump : heaps_report_t → heaps_report_t := fun e =>
          { e with count := e.count + 1, size := Mcheap.add64 e.size link.size }
        report_loop c P rest { v with cells := v.cells.modify bump i }
      | none =>
        (add_to_report c P v link).bind fun v1 => report_loop c P rest v1

/-- The result of `report`: the state, the returned array (address and cells)
and the value written to `*arr_size`. -/
structure ReportResult (σ : Type) where
  /-- The state of the tracker. -/
  st : State σ
  /-- The returned pointer. -/
  arr : Nat
  /-- The cells of the returned array. -/
  cells : List heaps_report_t
  /-- The value written to `*arr_size`. -/
  arr_size : Nat

/-- The function `report`. -/
def report {σ : Type} (c : Cfg) (P : Platform σ) (s : State σ) : Option (ReportResult σ) :=
  (report_loop c P s.head
      { st := s, arr := 0, cells := [], size := 0, failed := false }).bind fun v =>
    if v.size &&& (if v.failed then 0 else 1) ≠ 0 then
      match v.st.head with
      | [] => none
      | hd :: _ =>
        let cell : heaps_report_t := { file := hd.file, line := hd.line, count := 1, size := hd.size }
        some { st := v.st, arr := v.arr, cells := v.cells ++ [cell], arr_size := v.size + 1 }
    else some { st := v.st, arr := v.arr, cells := v.cells, arr_size := v.size }

/-- The public function `heaps_report`. -/
def heaps_report {σ : Type} (c : Cfg) (P : Platform σ) (s : State σ) :
    Option (ReportResult σ) :=
  report c P s

/-- The public function `heaps_alloc_`. -/
def heaps_alloc_ {σ : Type} (c : Cfg) (P : Platform σ) (s : State σ) (size : Nat)
    (file : String) (line : Int) : Option (State σ × Nat) :=
  alloc_ c P s size file line

/-- The public function `heaps_realloc_`. The freeing branch unlinks a record
before every call it makes on itself, which bounds the depth of those calls by
the length of the list. -/
def heaps_realloc_ {σ : Type} (c : Cfg) (P : Platform σ) (s : State σ) (ptr size : Nat)
    (file : String) (line : Int) : Option (State σ × Nat) :=
  realloc_ c P (s.head.length + 1) s ptr size file line

/-- The public function `heaps_free_`. -/
def heaps_free_ {σ : Type} (c : Cfg) (P : Platform σ) (s : State σ) (ptr : Nat)
    (file : String) (line : Int) : Option (State σ × Nat) :=
  free_ c P s ptr file line

/-- The public function `heaps_calloc_`. -/
def heaps_calloc_ {σ : Type} (c : Cfg) (P : Platform σ) (s : State σ) (qty size : Nat)
    (file : String) (line : Int) : Option (State σ × Nat) :=
  calloc_ c P s qty size file line

/-- The public function `heaps_get_allocation_count`. -/
def heaps_get_allocation_count {σ : Type} (s : State σ) : Int := s.allocation_count

/-- The public function `heaps_get_allocation_count_peak`. -/
def heaps_get_allocation_count_peak {σ : Type} (s : State σ) : Int := s.allocation_count_peak

/-- The public function `heaps_get_headroom`. -/
def heaps_get_headroom {σ : Type} (s : State σ) : Nat := s.headroom

/-- The public function `heaps_get_largest_allocation`. -/
def heaps_get_largest_allocation {σ : Type} (s : State σ) : heaps_report_t :=
  s.largest_allocation

/-- The public function `heaps_get_allocation_list`. -/
def heaps_get_allocation_list {σ : Type} (s : State σ) : List heaps_t := s.head

/-- One call of the public interface. -/
inductive Call where
  | alloc (size : Nat) (file : String) (line : Int) : Call
  | free (ptr : Nat) (file : String) (line : Int) : Call
  | realloc (ptr size : Nat) (file : String) (line : Int) : Call
  | calloc (qty size : Nat) (file : String) (line : Int) : Call
  | report : Call

/-- The state after one call of the public interface. -/
def Call.run {σ : Type} (c : Cfg) (P : Platform σ) (s : State σ) : Call → Option (State σ)
  | Call.alloc size file line => (heaps_alloc_ c P s size file line).map Prod.fst
  | Call.free ptr file line => (heaps_free_ c P s ptr file line).map Prod.fst
  | Call.realloc ptr size file line => (heaps_realloc_ c P s ptr size file line).map Prod.fst
  | Call.calloc qty size file line => (heaps_calloc_ c P s qty size file line).map Prod.fst
  | Call.report => (heaps_report c P s).map ReportResult.st

/-- The state after a sequence of calls. -/
def runCalls {σ : Type} (c : Cfg) (P : Platform σ) (s : State σ) : List Call → Option (State σ)
  | [] => some s
  | k :: ks => (k.run c P s).bind fun s1 => runCalls c P s1 ks

/-- The binding of `src/test/heaps_implementation.c`: HEAPS over MCHEAP. -/
def mcheapPlatform (m : Mcheap.Cfg) : Platform Mcheap.Heap :=
  { alloc := Mcheap.mcheap_allocate m,
    realloc := Mcheap.mcheap_reallocate m,
    free := fun h p => (Mcheap.mcheap_free m h p).map Prod.fst,
    check := Mcheap.mcheap_is_intact m,
    largest_free := Mcheap.mcheap_largest_free m,
    memset := fun h p v n =>
      { h with mem := fun a => if p ≤ a ∧ a < p + n then v % 256 else h.mem a } }

/-- The build of the tests on LP64: `sizeof(heaps_t)` 32, `sizeof(heaps_report_t)` 24,
both checks on, `realloc(ptr, 0)` expected to free. -/
def cfgTest : Cfg :=
  { H := 32, R := 24, FILE := "../heaps.h", REALLOC_ZERO_DOESNT_FREE := false,
    NO_PRE_OPERATION_WALK_CHECK := false, HAS_PLATFORM_ALLOC := true }

/-- The platform of the examples: MCHEAP in its default build. -/
def P16 : Platform Mcheap.Heap := mcheapPlatform Mcheap.cfg16

/-- Example: the tracker at its initial values over the initialised region. -/
def st0 : State Mcheap.Heap := State.init Mcheap.heap0

/-- The state of a result (`st0` when there is none). -/
def stateOf (r : Option (State Mcheap.Heap × Nat)) : State Mcheap.Heap := (r.getD (st0, 0)).1

/-- Example: `st0` after `heaps_alloc_(10, "a.c", 1)`, which returns 4144. -/
def st1 : State Mcheap.Heap := stateOf (heaps_alloc_ cfgTest P16 st0 10 "a.c" 1)

/-- Example: `st1` after `heaps_alloc_(10, "b.c", 2)`: two records from two
call sites. -/
def st2 : State Mcheap.Heap := stateOf (heaps_alloc_ cfgTest P16 st1 10 "b.c" 2)

/-- Example: `st2` after a second `heaps_alloc_(10, "b.c", 2)`: three records
from two call sites. -/
def st3 : State Mcheap.Heap := stateOf (heaps_alloc_ cfgTest P16 st2 10 "b.c" 2)

/-- Example: `st0` after `heaps_alloc_(784, "a.c", 1)` and
`heaps_alloc_(1, "b.c", 2)`: 104 bytes of the region are left. -/
def stTight : State Mcheap.Heap :=
  stateOf (heaps_alloc_ cfgTest P16 (stateOf (heaps_alloc_ cfgTest P16 st0 784 "a.c" 1)) 1 "b.c" 2)

/-- Example: program start in the binding of the tests: the tracker at its
initial values over a region that no call has initialised yet. -/
def stStart : State Mcheap.Heap := State.init Mcheap.start

/-- The states agree on the five variables of the tracker (`head`,
`allocation_count`, `allocation_count_peak`, `headroom`, `largest_allocation`). -/
def State.sameVars {σ : Type} (s t : State σ) : Prop :=
  t.head = s.head ∧ t.allocation_count = s.allocation_count ∧
    t.allocation_count_peak = s.allocation_count_peak ∧ t.headroom = s.headroom ∧
    t.largest_allocation = s.largest_allocation

/-- A property of the state that every assignment of the source keeps: a call of
the error handler, `link_allocation`, `unlink_allocation`, a change of the host
state, and the assignment of `track_headroom`. -/
structure Kept {σ : Type} (c : Cfg) (I : State σ → Prop) : Prop where
  /-- The error handler keeps it. -/
  error : ∀ s msg file line, I s → I (error_handler s msg file line)
  /-- The function `link_allocation` keeps it. -/
  link : ∀ s meta_ptr size file line, I s → I (link_allocation c s meta_ptr size file line).1
  /-- The function `unlink_allocation` keeps it. -/
  unlink : ∀ s ptr, I s → I (unlink_allocation c s ptr).1
  /-- A call of the platform keeps it. -/
  plat : ∀ (s : State σ) (p : σ), I s → I { s with plat := p }
  /-- The assignment of a lower value to `headroom` keeps it. -/
  headroom : ∀ (s : State σ) (v : Nat), v < s.headroom → I s → I { s with headroom := v }

/-- The largest `size` among records (0 when there is none). -/
def largestSize (L : List heaps_t) : Nat := (L.map fun r => r.size).foldr max 0

/-- The values `heaps_platform_largest_free()` returns in the states after each
call of a sequence, in the order of the calls. -/
def observed {σ : Type} (c : Cfg) (P : Platform σ) (s : State σ) : List Call → Option (List Nat)
  | [] => some []
  | k :: ks =>
    (k.run c P s).bind fun s1 =>
      (P.largest_free s1.plat).bind fun lf => (observed c P s1 ks).map fun l => lf :: l

/-- The lowest of a list of sizes (the initial value of `headroom` when there is
none). -/
def lowest (L : List Nat) : Nat := L.foldr min (2 ^ 64 - 1)

/-- Conversion of a `size_t` value to `int` (32 bits, two's complement), as the
compilers of the supported targets do it: the low 32 bits are kept. -/
def to_int (v : Nat) : Int :=
  if v % 2 ^ 32 < 2 ^ 31 then ((v % 2 ^ 32 : Nat) : Int) else ((v % 2 ^ 32 : Nat) : Int) - 2 ^ 32

/-- The public function `heaps_report_sorter_descending_size`: the difference
of the two `size_t` fields, returned as `int`. -/
def heaps_report_sorter_descending_size (a b : heaps_report_t) : Int :=
  to_int (Mcheap.sub64 b.size a.size)

/-- The call sites of the records of a list, each once, in the order in which a
walk from the head first meets them. -/
def firstKeys : List heaps_t → List (String × Int)
  | [] => []
  | r :: rest => (r.file, r.line) :: (firstKeys rest).filter fun k => decide (k ≠ (r.file, r.line))

/-- The entry a report owes to the call site `k` of the list `L`: the number of
records of `L` made at `k` and the sum of their sizes (a `size_t`). -/
def siteEntry (L : List heaps_t) (k : String × Int) : heaps_report_t :=
  { file := k.1, line := k.2,
    count := ((L.filter fun r => decide ((r.file, r.line) = k)).length : Int),
    size := ((L.filter fun r => decide ((r.file, r.line) = k)).map fun r => r.size).sum % 2 ^ 64 }

/-- What a report of the list `L` is to hold before the entry of the report
itself: one entry for each call site, in the order of first occurrence. -/
def reportSpec (L : List heaps_t) : List heaps_report_t := (firstKeys L).map (siteEntry L)

end Heaps

/-!
## The tiling of the region

The predicates below describe a heap of MCHEAP by the list of its sections in
address order; they are what the functions of `mcheap.c` keep.
-/

namespace Mcheap

/-- A section of the region with its footprint, header included: on the free
list, used, or (between two steps of an operation) carrying the size field of a
free section without being on the list. -/
inductive Sec where
  | free (fp : Nat) : Sec
  | used (fp : Nat) : Sec
  | loose (fp : Nat) : Sec
deriving DecidableEq, Repr

/-- The footprint of a section. -/
def Sec.fp : Sec → Nat
  | Sec.free fp => fp
  | Sec.used fp => fp
  | Sec.loose fp => fp

/-- Whether a section is on the free list. -/
def Sec.isFree : Sec → Bool
  | Sec.free _ => true
  | _ => false

/-- Whether a section is a used section. -/
def Sec.isUsed : Sec → Bool
  | Sec.used _ => true
  | _ => false

/-- The bytes covered by a list of sections. -/
def span : List Sec → Nat
  | [] => 0
  | s :: r => s.fp + span r

/-- The memory `m` holds the sections `secs` one after the other from address
`a` to address `e`; a walk of the free list that enters with the pointer `nf`
visits exactly the free sections among them and leaves with the pointer `ne`. -/
def Seg (c : Cfg) (m : Mem) : Nat → Nat → List Sec → Nat → Nat → Prop
  | a, nf, [], e, ne => a = e ∧ nf = ne
  | a, nf, Sec.free fp :: r, e, ne =>
    c.F ≤ fp ∧ nf = a ∧ size_of m a = fp - c.F ∧ Seg c m (a + fp) (next_ptr m a) r e ne
  | a, nf, Sec.used fp :: r, e, ne =>
    c.F ≤ fp ∧ size_of m a = fp - c.U ∧ Seg c m (a + fp) nf r e ne
  | a, nf, Sec.loose fp :: r, e, ne =>
    c.F ≤ fp ∧ size_of m a = fp - c.F ∧ Seg c m (a + fp) nf r e ne

/-- Whether the first section of a list is free. -/
def headFree : List Sec → Bool
  | [] => false
  | s :: _ => s.isFree

/-- Whether the last section of a list is free. -/
def endFree : List Sec → Bool
  | [] => false
  | [s] => s.isFree
  | _ :: t :: r => endFree (t :: r)

/-- No two neighbours of the list are both free. -/
def NoAdj : List Sec → Prop
  | [] => True
  | s :: r => ¬(s.isFree = true ∧ headFree r = true) ∧ NoAdj r

/-- No section of the list is free. -/
def NoFree (secs : List Sec) : Prop := ∀ s ∈ secs, s.isFree = false

/-- The used sections of a list that starts at `a`: address and footprint. -/
def usedSecs : Nat → List Sec → List (Nat × Nat)
  | _, [] => []
  | a, Sec.used fp :: r => (a, fp) :: usedSecs (a + fp) r
  | a, Sec.free fp :: r => usedSecs (a + fp) r
  | a, Sec.loose fp :: r => usedSecs (a + fp) r

/-- Every section is free or used. -/
def NoLoose (secs : List Sec) : Prop := ∀ s ∈ secs, ∀ fp, s ≠ Sec.loose fp

/-- The payload addresses of the used sections of a list that starts at `a`. -/
def usedPtrs (c : Cfg) : Nat → List Sec → List Nat
  | _, [] => []
  | a, Sec.used fp :: r => (a + c.U) :: usedPtrs c (a + fp) r
  | a, Sec.free fp :: r => usedPtrs c (a + fp) r
  | a, Sec.loose fp :: r => usedPtrs c (a + fp) r

/-- The addresses of the free sections of a list that starts at `a`. -/
def freeAddrs : Nat → List Sec → List Nat
  | _, [] => []
  | a, Sec.free fp :: r => a :: freeAddrs (a + fp) r
  | a, Sec.used fp :: r => freeAddrs (a + fp) r
  | a, Sec.loose fp :: r => freeAddrs (a + fp) r

/-- The free sections of a list that starts at `a`: address and footprint. -/
def freeSecs : Nat → List Sec → List (Nat × Nat)
  | _, [] => []
  | a, Sec.free fp :: r => (a, fp) :: freeSecs (a + fp) r
  | a, Sec.used fp :: r => freeSecs (a + fp) r
  | a, Sec.loose fp :: r => freeSecs (a + fp) r

/-- The addresses at which the sections of a list that starts at `a` begin. -/
def starts : Nat → List Sec → List Nat
  | _, [] => []
  | a, s :: r => a :: starts (a + s.fp) r

/-- The link a walk of the free list holds after the sections of a list that
starts at `a`, when it entered holding `l`. -/
def lastLink : Link → Nat → List Sec → Link
  | l, _, [] => l
  | _, a, Sec.free fp :: r => lastLink (Link.next a) (a + fp) r
  | l, a, Sec.used fp :: r => lastLink l (a + fp) r
  | l, a, Sec.loose fp :: r => lastLink l (a + fp) r

/-- The link is `&first_free` or the field `next_ptr` of a section that starts
in `[lo, hi - 16]`. -/
def Link.within (lo hi : Nat) : Link → Prop
  | Link.root => True
  | Link.next q => lo ≤ q ∧ q + 16 ≤ hi

/-- The address of the last free section of a list that starts at `a` (`d` when
there is none). -/
def lastFree : Nat → Nat → List Sec → Nat
  | d, _, [] => d
  | _, a, Sec.free fp :: r => lastFree a (a + fp) r
  | d, a, Sec.used fp :: r => lastFree d (a + fp) r
  | d, a, Sec.loose fp :: r => lastFree d (a + fp) r

/-- The address of the first free section of footprint at least `need` in a
list that starts at `a` (null when there is none). -/
def firstFit (need : Nat) : Nat → List Sec → Nat
  | _, [] => 0
  | a, Sec.free fp :: r => if fp < need then firstFit need (a + fp) r else a
  | a, Sec.used fp :: r => firstFit need (a + fp) r
  | a, Sec.loose fp :: r => firstFit need (a + fp) r

/-- The list after `free_merge_up` on a free section of footprint `fp` followed
by `post`. -/
def mergeHead (fp : Nat) : List Sec → List Sec
  | Sec.free fp2 :: r => Sec.free (fp + fp2) :: r
  | post => Sec.free fp :: post

/-- The list after `used_shrink` to `n` bytes on a used section of footprint
`fp` followed by `post`. -/
def shrinkHead (c : Cfg) (fp n : Nat) (post : List Sec) : List Sec :=
  if n < fp - c.U ∧ c.U + n + c.F ≤ fp then
    Sec.used (c.U + n) :: mergeHead (fp - c.U - n) post
  else Sec.used fp :: post

/-- A heap with the pointers the program holds: those returned by the
allocator and not given back since. -/
structure Sys where
  /-- The state of the allocator. -/
  heap : Heap
  /-- The live allocations. -/
  live : List Nat

/-- The region of the heap `h` is tiled by the sections `secs`, and the list
rooted at `first_free` threads the free ones in address order. -/
def Tiled (c : Cfg) (h : Heap) (secs : List Sec) : Prop :=
  Seg c h.mem c.base h.first_free secs (c.base + c.SIZE) 0

/-- The heap of `s` is initialised, its region is tiled by the free and used
sections `secs` with the free list threading the free ones in address order, no
two neighbours are free, and the used sections are the live allocations. -/
def Inv (c : Cfg) (s : Sys) (secs : List Sec) : Prop :=
  s.heap.initialized = true ∧ Tiled c s.heap secs ∧
  NoLoose secs ∧ NoAdj secs ∧ ∀ p, p ∈ s.live ↔ p ∈ usedPtrs c c.base secs

/-- The byte at address `x` lies in a section of the free list: header and
payload of a section that `in_free_list` finds. -/
def free_covers (c : Cfg) (h : Heap) (x : Nat) : Prop :=
  ∃ q, in_free_list c h q = some true ∧ q ≤ x ∧ x < q + SECTION_SIZE_free c h.mem q

/-- A call of the public interface of MCHEAP. -/
inductive Op where
  | allocate (size : Nat) : Op
  | reallocate (ptr size : Nat) : Op
  | free (ptr : Nat) : Op
deriving DecidableEq, Repr

/-- What the caller owes: sizes are `size_t` values, and a pointer passed to
`mcheap_reallocate` or `mcheap_free` is null or live. -/
def Op.ok (s : Sys) : Op → Prop
  | Op.allocate size => size < 2 ^ 64
  | Op.reallocate ptr size => size < 2 ^ 64 ∧ (ptr = 0 ∨ ptr ∈ s.live)
  | Op.free ptr => ptr = 0 ∨ ptr ∈ s.live

/-- The live allocations after a call that was given `ptr` and returned `q`. -/
def liveAfter (live : List Nat) : Op → Nat → List Nat
  | Op.allocate _, q => if q = 0 then live else q :: live
  | Op.reallocate ptr size, q =>
    if ptr = 0 then (if q = 0 then live else q :: live)
    else if size = 0 then live.filter (fun x => decide (x ≠ ptr))
    else if q = 0 then live
    else q :: live.filter (fun x => decide (x ≠ ptr))
  | Op.free ptr, _ => live.filter (fun x => decide (x ≠ ptr))

/-- The result of a call: state and returned pointer. -/
def Op.call (c : Cfg) (h : Heap) : Op → Option (Heap × Nat)
  | Op.allocate size => mcheap_allocate c h size
  | Op.reallocate ptr size => mcheap_reallocate c h ptr size
  | Op.free ptr => mcheap_free c h ptr

/-- The heap and the live allocations after a call. -/
def Op.step (c : Cfg) (s : Sys) (op : Op) : Option Sys :=
  (op.call c s.heap).map fun r => { heap := r.1, live := liveAfter s.live op r.2 }

/-- The states reached from an initialised region by calls of the public
interface on live pointers. -/
inductive Reach (c : Cfg) : Sys → Prop where
  | init (h : Heap) : Reach c { heap := initialise c h, live := [] }
  | step (s s1 : Sys) (op : Op) : Reach c s → op.ok s → op.step c s = some s1 → Reach c s1

end Mcheap

namespace Mcheap

/-! ### Memory -/

theorem rd64_lt (m : Mem) (p : Nat) : rd64 m p < 2 ^ 64 := by
  unfold rd64
  omega

theorem rd64_congr (m m1 : Mem) (p : Nat) (h : ∀ x, p ≤ x → x < p + 8 → m1 x = m x) :
    rd64 m1 p = rd64 m p := by
  unfold rd64
  rw [h p (by omega) (by omega), h (p + 1) (by omega) (by omega),
    h (p + 2) (by omega) (by omega), h (p + 3) (by omega) (by omega),
    h (p + 4) (by omega) (by omega), h (p + 5) (by omega) (by omega),
    h (p + 6) (by omega) (by omega), h (p + 7) (by omega) (by omega)]

theorem wr64_out (m : Mem) (p v x : Nat) (h : x < p ∨ p + 8 ≤ x) : wr64 m p v x = m x := by
  unfold wr64
  rw [if_neg (by omega)]

theorem rd64_wr64_same (m : Mem) (p v : Nat) (hv : v < 2 ^ 64) : rd64 (wr64 m p v) p = v := by
  unfold rd64 wr64
  simp only [le_refl, Nat.lt_add_one, Nat.sub_self, pow_zero, Nat.div_one, true_and,
    Nat.le_add_right, Nat.add_lt_add_iff_left, Nat.add_sub_cancel_left, Nat.reduceLT,
    if_true, Nat.reducePow, Nat.lt_add_right_iff_pos, Nat.ofNat_pos, Nat.mod_mod]
  omega

theorem rd64_wr64_other (m : Mem) (p v q : Nat) (h : q + 8 ≤ p ∨ p + 8 ≤ q) :
    rd64 (wr64 m p v) q = rd64 m q :=
  rd64_congr m _ q (fun x h1 h2 => wr64_out m p v x (by omega))

theorem memmove_out (m : Mem) (dst src n x : Nat) (h : x < dst ∨ dst + n ≤ x) :
    memmove m dst src n x = m x := by
  unfold memmove
  rw [if_neg (by omega)]

theorem memmove_in (m : Mem) (dst src n x : Nat) (h1 : dst ≤ x) (h2 : x < dst + n) :
    memmove m dst src n x = m (src + (x - dst)) := by
  unfold memmove
  rw [if_pos ⟨h1, h2⟩]

theorem rd64_memmove (m : Mem) (dst src n : Nat) (hn : 8 ≤ n) :
    rd64 (memmove m dst src n) dst = rd64 m src := by
  unfold rd64
  rw [memmove_in m dst src n dst (le_refl _) (by omega),
    memmove_in m dst src n (dst + 1) (by omega) (by omega),
    memmove_in m dst src n (dst + 2) (by omega) (by omega),
    memmove_in m dst src n (dst + 3) (by omega) (by omega),
    memmove_in m dst src n (dst + 4) (by omega) (by omega),
    memmove_in m dst src n (dst + 5) (by omega) (by omega),
    memmove_in m dst src n (dst + 6) (by omega) (by omega),
    memmove_in m dst src n (dst + 7) (by omega) (by omega)]
  simp only [Nat.sub_self, Nat.add_sub_cancel_left, Nat.add_zero]

/-! ### The tiling predicate -/

theorem Seg_end (c : Cfg) (m : Mem) (xs : List Sec) :
    ∀ a nf e ne, Seg c m a nf xs e ne → e = a + span xs := by
  induction xs with
  | nil => intro a nf e ne h; simp only [Seg] at h; simp only [span]; omega
  | cons s r ih =>
    intro a nf e ne h
    cases s <;> simp only [Seg] at h <;> simp only [span, Sec.fp]
    · have := ih _ _ _ _ h.2.2.2; omega
    · have := ih _ _ _ _ h.2.2; omega
    · have := ih _ _ _ _ h.2.2; omega

theorem Seg_fp (c : Cfg) (m : Mem) (xs : List Sec) :
    ∀ a nf e ne, Seg c m a nf xs e ne → ∀ s ∈ xs, c.F ≤ s.fp := by
  induction xs with
  | nil => intro a nf e ne _ s hs; cases hs
  | cons s r ih =>
    intro a nf e ne h t ht
    rcases List.mem_cons.mp ht with rfl | ht2
    · cases t <;> simp only [Seg] at h <;> exact h.1
    · clear ht
      cases s <;> simp only [Seg] at h
      · exact ih _ _ _ _ h.2.2.2 t ht2
      · exact ih _ _ _ _ h.2.2 t ht2
      · exact ih _ _ _ _ h.2.2 t ht2

theorem span_append (xs ys : List Sec) : span (xs ++ ys) = span xs + span ys := by
  induction xs with
  | nil => simp [span]
  | cons s r ih =>
    rw [List.cons_append]
    simp only [span]
    rw [ih]
    omega

theorem span_len (c : Cfg) (hF : 16 ≤ c.F) (xs : List Sec) (h : ∀ s ∈ xs, c.F ≤ s.fp) :
    16 * xs.length ≤ span xs := by
  induction xs with
  | nil => simp [span]
  | cons s r ih =>
    have h1 := h s (List.mem_cons_self _ _)
    have h2 := ih (fun t ht => h t (List.mem_cons_of_mem _ ht))
    simp only [List.length_cons, span]
    omega

theorem Seg_congr (c : Cfg) (hF : 16 ≤ c.F) (m m1 : Mem) (xs : List Sec) :
    ∀ a nf e ne, Seg c m a nf xs e ne → (∀ x, a ≤ x → x < e → m1 x = m x) →
      Seg c m1 a nf xs e ne := by
  induction xs with
  | nil => intro a nf e ne h _; simpa only [Seg] using h
  | cons s r ih =>
    intro a nf e ne h hm
    cases s with
    | free fp =>
      simp only [Seg] at h ⊢
      have he := Seg_end c m r _ _ _ _ h.2.2.2
      have e1 : size_of m1 a = size_of m a :=
        rd64_congr m m1 a (fun x h1 h2 => hm x h1 (by omega))
      have e2 : next_ptr m1 a = next_ptr m a :=
        rd64_congr m m1 (a + 8) (fun x h1 h2 => hm x (by omega) (by omega))
      rw [e1, e2]
      exact ⟨h.1, h.2.1, h.2.2.1, ih _ _ _ _ h.2.2.2 (fun x h1 h2 => hm x (by omega) h2)⟩
    | used fp =>
      simp only [Seg] at h ⊢
      have he := Seg_end c m r _ _ _ _ h.2.2
      have e1 : size_of m1 a = size_of m a :=
        rd64_congr m m1 a (fun x h1 h2 => hm x h1 (by omega))
      rw [e1]
      exact ⟨h.1, h.2.1, ih _ _ _ _ h.2.2 (fun x h1 h2 => hm x (by omega) h2)⟩
    | loose fp =>
      simp only [Seg] at h ⊢
      have he := Seg_end c m r _ _ _ _ h.2.2
      have e1 : size_of m1 a = size_of m a :=
        rd64_congr m m1 a (fun x h1 h2 => hm x h1 (by omega))
      rw [e1]
      exact ⟨h.1, h.2.1, ih _ _ _ _ h.2.2 (fun x h1 h2 => hm x (by omega) h2)⟩

theorem Seg_append (c : Cfg) (m : Mem) (xs ys : List Sec) :
    ∀ a nf e ne, Seg c m a nf (xs ++ ys) e ne ↔
      ∃ nm, Seg c m a nf xs (a + span xs) nm ∧ Seg c m (a + span xs) nm ys e ne := by
  induction xs with
  | nil =>
    intro a nf e ne
    simp only [List.nil_append, Seg, span, Nat.add_zero, true_and]
    constructor
    · intro h; exact ⟨nf, rfl, h⟩
    · rintro ⟨nm, rfl, h⟩; exact h
  | cons s r ih =>
    intro a nf e ne
    cases s with
    | free fp =>
      rw [List.cons_append]
      simp only [Seg, span, Sec.fp]
      rw [ih, ← Nat.add_assoc]
      constructor
      · rintro ⟨h1, h2, h3, nm, h4, h5⟩; exact ⟨nm, ⟨h1, h2, h3, h4⟩, h5⟩
      · rintro ⟨nm, ⟨h1, h2, h3, h4⟩, h5⟩; exact ⟨h1, h2, h3, nm, h4, h5⟩
    | used fp =>
      rw [List.cons_append]
      simp only [Seg, span, Sec.fp]
      rw [ih, ← Nat.add_assoc]
      constructor
      · rintro ⟨h1, h3, nm, h4, h5⟩; exact ⟨nm, ⟨h1, h3, h4⟩, h5⟩
      · rintro ⟨nm, ⟨h1, h3, h4⟩, h5⟩; exact ⟨h1, h3, nm, h4, h5⟩
    | loose fp =>
      rw [List.cons_append]
      simp only [Seg, span, Sec.fp]
      rw [ih, ← Nat.add_assoc]
      constructor
      · rintro ⟨h1, h3, nm, h4, h5⟩; exact ⟨nm, ⟨h1, h3, h4⟩, h5⟩
      · rintro ⟨nm, ⟨h1, h3, h4⟩, h5⟩; exact ⟨h1, h3, nm, h4, h5⟩

theorem freeAddrs_bounds (c : Cfg) (xs : List Sec) :
    ∀ a, (∀ s ∈ xs, c.F ≤ s.fp) → ∀ x ∈ freeAddrs a xs, a ≤ x ∧ x + c.F ≤ a + span xs := by
  induction xs with
  | nil => intro a _ x hx; cases hx
  | cons s r ih =>
    intro a h x hx
    have h1 := h s (List.mem_cons_self _ _)
    have h2 := ih (a + s.fp) (fun t ht => h t (List.mem_cons_of_mem _ ht))
    cases s with
    | free fp =>
      simp only [freeAddrs, List.mem_cons] at hx
      simp only [span, Sec.fp] at h1 h2 ⊢
      rcases hx with rfl | hx
      · omega
      · have := h2 x hx; omega
    | used fp =>
      simp only [freeAddrs] at hx
      simp only [span, Sec.fp] at h1 h2 ⊢
      have := h2 x hx; omega
    | loose fp =>
      simp only [freeAddrs] at hx
      simp only [span, Sec.fp] at h1 h2 ⊢
      have := h2 x hx; omega

theorem Seg_cursor (c : Cfg) (m : Mem) (xs : List Sec) :
    ∀ a nf e ne, Seg c m a nf xs e ne →
      (freeAddrs a xs = [] ∧ nf = ne) ∨ ∃ rest, freeAddrs a xs = nf :: rest := by
  induction xs with
  | nil => intro a nf e ne h; simp only [Seg] at h; exact Or.inl ⟨rfl, h.2⟩
  | cons s r ih =>
    intro a nf e ne h
    cases s with
    | free fp =>
      simp only [Seg] at h
      exact Or.inr ⟨freeAddrs (a + fp) r, by simp only [freeAddrs, h.2.1]⟩
    | used fp =>
      simp only [Seg] at h
      simpa only [freeAddrs] using ih _ _ _ _ h.2.2
    | loose fp =>
      simp only [Seg] at h
      simpa only [freeAddrs] using ih _ _ _ _ h.2.2

theorem Seg_cursor_range (c : Cfg) (m : Mem) (xs : List Sec) (a nf e ne : Nat)
    (h : Seg c m a nf xs e ne) : nf = ne ∨ (a ≤ nf ∧ nf + c.F ≤ e) := by
  rcases Seg_cursor c m xs a nf e ne h with ⟨_, h1⟩ | ⟨rest, h1⟩
  · exact Or.inl h1
  · have := freeAddrs_bounds c xs a (Seg_fp c m xs a nf e ne h) nf (by rw [h1]; exact List.mem_cons_self _ _)
    rw [Seg_end c m xs a nf e ne h]
    exact Or.inr this

/-! ### Links -/

theorem Link.read_write_same (h : Heap) (v : Nat) (hv : v < 2 ^ 64) (l : Link) :
    l.read (l.write h v) = v := by
  cases l with
  | root => rfl
  | next q => exact rd64_wr64_same h.mem (q + 8) v hv

theorem Link.write_initialized (h : Heap) (v : Nat) (l : Link) :
    (l.write h v).initialized = h.initialized := by
  cases l <;> rfl

theorem Link.write_mem_out (h : Heap) (v lo hi x : Nat) (l : Link) (hl : l.within lo hi)
    (hx : x < lo + 8 ∨ hi ≤ x) : (l.write h v).mem x = h.mem x := by
  cases l with
  | root => rfl
  | next q =>
    simp only [Link.within] at hl
    exact wr64_out h.mem (q + 8) v x (by omega)

theorem Link.write_rd_out (h : Heap) (v lo hi x : Nat) (l : Link) (hl : l.within lo hi)
    (hx : x ≤ lo ∨ hi ≤ x) : rd64 (l.write h v).mem x = rd64 h.mem x :=
  rd64_congr _ _ x (fun y h1 h2 => Link.write_mem_out h v lo hi y l hl (by omega))

theorem Link.within_mono (lo hi lo1 hi1 : Nat) (l : Link) (hl : l.within lo hi)
    (h1 : lo1 ≤ lo) (h2 : hi ≤ hi1) : l.within lo1 hi1 := by
  cases l with
  | root => trivial
  | next q => simp only [Link.within] at hl ⊢; omega

theorem lastLink_cases (xs : List Sec) :
    ∀ l a, (∀ s ∈ xs, 16 ≤ s.fp) →
      lastLink l a xs = l ∨ (lastLink l a xs).within a (a + span xs) ∧
        ∃ q, lastLink l a xs = Link.next q := by
  induction xs with
  | nil => intro l a _; exact Or.inl rfl
  | cons s r ih =>
    intro l a h
    have h1 := h s (List.mem_cons_self _ _)
    have hr : ∀ t ∈ r, 16 ≤ t.fp := fun t ht => h t (List.mem_cons_of_mem _ ht)
    have hsp := span_len { SIZE := 0, ALIGN := 0, U := 0, F := 16, base := 0 } (le_refl _) r hr
    cases s with
    | free fp =>
      simp only [lastLink, span, Sec.fp] at h1 ⊢
      right
      rcases ih (Link.next a) (a + fp) hr with e | ⟨e1, e2⟩
      · rw [e]
        exact ⟨by simp only [Link.within]; omega, a, rfl⟩
      · exact ⟨Link.within_mono _ _ _ _ _ e1 (by omega) (by omega), e2⟩
    | used fp =>
      simp only [lastLink, span, Sec.fp] at h1 ⊢
      rcases ih l (a + fp) hr with e | ⟨e1, e2⟩
      · exact Or.inl e
      · exact Or.inr ⟨Link.within_mono _ _ _ _ _ e1 (by omega) (by omega), e2⟩
    | loose fp =>
      simp only [lastLink, span, Sec.fp] at h1 ⊢
      rcases ih l (a + fp) hr with e | ⟨e1, e2⟩
      · exact Or.inl e
      · exact Or.inr ⟨Link.within_mono _ _ _ _ _ e1 (by omega) (by omega), e2⟩

theorem lastLink_within (xs : List Sec) (l : Link) (lo a : Nat) (h : ∀ s ∈ xs, 16 ≤ s.fp)
    (hl : l.within lo a) (hlo : lo ≤ a) : (lastLink l a xs).within lo (a + span xs) := by
  rcases lastLink_cases xs l a h with e | ⟨e1, _⟩
  · rw [e]; exact Link.within_mono _ _ _ _ _ hl (le_refl _) (by omega)
  · cases hq : lastLink l a xs with
    | root => trivial
    | next q =>
      rw [hq] at e1
      cases l with
      | root => simp only [Link.within] at e1 ⊢; omega
      | next p => simp only [Link.within] at e1 hl ⊢; omega

theorem Link.read_write_other (h : Heap) (v a e : Nat) (l L : Link) (lo : Nat)
    (hl : l.within lo a) (hL : L = l ∨ (L.within a e ∧ ∃ q, L = Link.next q))
    (hne : L ≠ l) : l.read (L.write h v) = l.read h := by
  rcases hL with e1 | ⟨e1, q, rfl⟩
  · exact absurd e1 hne
  · cases l with
    | root => rfl
    | next p =>
      simp only [Link.within] at hl e1
      exact rd64_wr64_other h.mem (q + 8) v (p + 8) (by omega)

theorem lastLink_next (xs : List Sec) :
    ∀ p a, p ≤ a → (∀ s ∈ xs, 16 ≤ s.fp) → ∃ q, lastLink (Link.next p) a xs = Link.next q ∧ p ≤ q := by
  intro p a hp h
  rcases lastLink_cases xs (Link.next p) a h with e | ⟨e1, q, e2⟩
  · exact ⟨p, e, le_refl _⟩
  · rw [e2] at e1
    simp only [Link.within] at e1
    exact ⟨q, e2, by omega⟩

theorem Seg_relink (c : Cfg) (hF : 16 ≤ c.F) (h : Heap) (v : Nat) (hv : v < 2 ^ 64)
    (xs : List Sec) :
    ∀ l a e ne lo, l.within lo a → Seg c h.mem a (l.read h) xs e ne →
      (lastLink l a xs).read h = ne ∧
      Seg c ((lastLink l a xs).write h v).mem a (l.read ((lastLink l a xs).write h v)) xs e v := by
  induction xs with
  | nil =>
    intro l a e ne lo _ hs
    simp only [Seg] at hs
    simp only [lastLink, Seg]
    exact ⟨hs.2, hs.1, Link.read_write_same h v hv l⟩
  | cons s r ih =>
    intro l a e ne lo hl hs
    have hfp := Seg_fp c h.mem _ _ _ _ _ hs
    have h16 : ∀ t ∈ r, 16 ≤ t.fp := fun t ht => le_trans hF (hfp t (List.mem_cons_of_mem _ ht))
    cases s with
    | free fp =>
      simp only [Seg] at hs
      obtain ⟨h1, h2, h3, h4⟩ := hs
      have hl2 : (Link.next a).within a (a + fp) := by simp only [Link.within]; omega
      obtain ⟨i1, i2⟩ := ih (Link.next a) (a + fp) e ne a hl2 h4
      obtain ⟨q, hq, hqa⟩ := lastLink_next r a (a + fp) (by omega) h16
      simp only [lastLink, Seg]
      refine ⟨i1, h1, ?_, ?_, ?_⟩
      · rw [hq]
        cases l with
        | root => exact h2
        | next p =>
          simp only [Link.within] at hl
          exact (rd64_wr64_other h.mem (q + 8) v (p + 8) (by omega)).trans h2
      · rw [hq]
        exact (rd64_wr64_other h.mem (q + 8) v a (by omega)).trans h3
      · exact i2
    | used fp =>
      simp only [Seg] at hs
      obtain ⟨h1, h3, h4⟩ := hs
      have hl2 : l.within lo (a + fp) := Link.within_mono _ _ _ _ _ hl (le_refl _) (by omega)
      obtain ⟨i1, i2⟩ := ih l (a + fp) e ne lo hl2 h4
      simp only [lastLink, Seg]
      refine ⟨i1, h1, ?_, i2⟩
      rcases lastLink_cases r l (a + fp) h16 with e1 | ⟨e1, _⟩
      · rw [e1]
        exact (Link.write_rd_out h v lo a a l hl (Or.inr (le_refl _))).trans h3
      · exact (Link.write_rd_out h v _ _ a _ e1 (Or.inl (by omega))).trans h3
    | loose fp =>
      simp only [Seg] at hs
      obtain ⟨h1, h3, h4⟩ := hs
      have hl2 : l.within lo (a + fp) := Link.within_mono _ _ _ _ _ hl (le_refl _) (by omega)
      obtain ⟨i1, i2⟩ := ih l (a + fp) e ne lo hl2 h4
      simp only [lastLink, Seg]
      refine ⟨i1, h1, ?_, i2⟩
      rcases lastLink_cases r l (a + fp) h16 with e1 | ⟨e1, _⟩
      · rw [e1]
        exact (Link.write_rd_out h v lo a a l hl (Or.inr (le_refl _))).trans h3
      · exact (Link.write_rd_out h v _ _ a _ e1 (Or.inl (by omega))).trans h3

/-! ### The walks of the free list -/

theorem free_remove_loop_spec (c : Cfg) (hF : 16 ≤ c.F) (h : Heap) (p : Nat) (xs : List Sec) :
    ∀ fuel l a, 0 < a → xs.length < fuel → Seg c h.mem a (l.read h) xs p p →
      free_remove_loop h p fuel l = some (lastLink l a xs) := by
  induction xs with
  | nil =>
    intro fuel l a _ hf hs
    simp only [Seg] at hs
    obtain ⟨f, rfl⟩ : ∃ f, fuel = f + 1 := ⟨fuel - 1, by simp only [List.length_nil] at hf; omega⟩
    simp only [free_remove_loop, lastLink]
    rw [if_neg (not_not.mpr hs.2)]
  | cons s r ih =>
    intro fuel l a ha hf hs
    obtain ⟨f, rfl⟩ : ∃ f, fuel = f + 1 := ⟨fuel - 1, by simp only [List.length_cons] at hf; omega⟩
    simp only [List.length_cons] at hf
    have hfp := Seg_fp c h.mem _ _ _ _ _ hs s (List.mem_cons_self _ _)
    have he := Seg_end c h.mem _ _ _ _ _ hs
    cases s with
    | free fp =>
      simp only [Seg] at hs
      simp only [span, Sec.fp] at he hfp
      obtain ⟨_, h2, _, h4⟩ := hs
      simp only [free_remove_loop, lastLink]
      rw [← h2, if_pos (by omega), if_neg (by omega)]
      exact ih f (Link.next (l.read h)) (l.read h + fp) (by omega) (by omega) (by rw [← h2] at h4; exact h4)
    | used fp =>
      simp only [Seg] at hs
      simp only [lastLink]
      exact ih (f + 1) l (a + fp) (by omega) (by omega) hs.2.2
    | loose fp =>
      simp only [Seg] at hs
      simp only [lastLink]
      exact ih (f + 1) l (a + fp) (by omega) (by omega) hs.2.2

theorem free_insert_loop_spec (c : Cfg) (hF : 16 ≤ c.F) (h : Heap) (p : Nat) (xs : List Sec) :
    ∀ fuel l a ne, 0 < a → xs.length < fuel → Seg c h.mem a (l.read h) xs p ne →
      (ne = 0 ∨ p ≤ ne) → free_insert_loop h p fuel l = some (lastLink l a xs) := by
  induction xs with
  | nil =>
    intro fuel l a ne _ hf hs hne
    simp only [Seg] at hs
    obtain ⟨f, rfl⟩ : ∃ f, fuel = f + 1 := ⟨fuel - 1, by simp only [List.length_nil] at hf; omega⟩
    simp only [free_insert_loop, lastLink]
    rw [if_neg (by omega)]
  | cons s r ih =>
    intro fuel l a ne ha hf hs hne
    obtain ⟨f, rfl⟩ : ∃ f, fuel = f + 1 := ⟨fuel - 1, by simp only [List.length_cons] at hf; omega⟩
    simp only [List.length_cons] at hf
    have hfp := Seg_fp c h.mem _ _ _ _ _ hs s (List.mem_cons_self _ _)
    have he := Seg_end c h.mem _ _ _ _ _ hs
    cases s with
    | free fp =>
      simp only [Seg] at hs
      simp only [span, Sec.fp] at he hfp
      obtain ⟨_, h2, _, h4⟩ := hs
      simp only [free_insert_loop, lastLink]
      rw [← h2, if_pos (by omega)]
      exact ih f (Link.next (l.read h)) (l.read h + fp) ne (by omega) (by omega)
        (by rw [← h2] at h4; exact h4) hne
    | used fp =>
      simp only [Seg] at hs
      simp only [lastLink]
      exact ih (f + 1) l (a + fp) ne (by omega) (by omega) hs.2.2 hne
    | loose fp =>
      simp only [Seg] at hs
      simp only [lastLink]
      exact ih (f + 1) l (a + fp) ne (by omega) (by omega) hs.2.2 hne

theorem find_free_below_loop_spec (c : Cfg) (hF : 16 ≤ c.F) (m : Mem) (t : Nat) (xs : List Sec) :
    ∀ fuel nf a d ne, 0 < a → xs.length < fuel → Seg c m a nf xs t ne →
      (ne = 0 ∨ t ≤ ne) → find_free_below_loop m t fuel nf d = some (lastFree d a xs) := by
  induction xs with
  | nil =>
    intro fuel nf a d ne _ hf hs hne
    simp only [Seg] at hs
    obtain ⟨f, rfl⟩ : ∃ f, fuel = f + 1 := ⟨fuel - 1, by simp only [List.length_nil] at hf; omega⟩
    simp only [find_free_below_loop, lastFree]
    rw [if_neg (by omega)]
  | cons s r ih =>
    intro fuel nf a d ne ha hf hs hne
    obtain ⟨f, rfl⟩ : ∃ f, fuel = f + 1 := ⟨fuel - 1, by simp only [List.length_cons] at hf; omega⟩
    simp only [List.length_cons] at hf
    have hfp := Seg_fp c m _ _ _ _ _ hs s (List.mem_cons_self _ _)
    have he := Seg_end c m _ _ _ _ _ hs
    cases s with
    | free fp =>
      simp only [Seg] at hs
      simp only [span, Sec.fp] at he hfp
      obtain ⟨_, h2, _, h4⟩ := hs
      subst h2
      simp only [find_free_below_loop, lastFree]
      rw [if_pos (by omega)]
      exact ih f _ (nf + fp) nf ne (by omega) (by omega) h4 hne
    | used fp =>
      simp only [Seg] at hs
      simp only [lastFree]
      exact ih (f + 1) nf (a + fp) d ne (by omega) (by omega) hs.2.2 hne
    | loose fp =>
      simp only [Seg] at hs
      simp only [lastFree]
      exact ih (f + 1) nf (a + fp) d ne (by omega) (by omega) hs.2.2 hne

theorem free_walk_loop_spec (c : Cfg) (hF : 16 ≤ c.F) (m : Mem) (n : Nat)
    (hn : c.U + n < 2 ^ 64) (xs : List Sec) :
    ∀ fuel nf a e, 0 < a → e < 2 ^ 64 → xs.length < fuel → Seg c m a nf xs e 0 →
      free_walk_loop c m n fuel nf = some (firstFit (c.U + n) a xs) := by
  induction xs with
  | nil =>
    intro fuel nf a e _ _ hf hs
    simp only [Seg] at hs
    obtain ⟨f, rfl⟩ : ∃ f, fuel = f + 1 := ⟨fuel - 1, by simp only [List.length_nil] at hf; omega⟩
    simp only [free_walk_loop, firstFit]
    rw [if_neg (by omega), hs.2]
  | cons s r ih =>
    intro fuel nf a e ha he2 hf hs
    obtain ⟨f, rfl⟩ : ∃ f, fuel = f + 1 := ⟨fuel - 1, by simp only [List.length_cons] at hf; omega⟩
    simp only [List.length_cons] at hf
    have hfp := Seg_fp c m _ _ _ _ _ hs s (List.mem_cons_self _ _)
    have he := Seg_end c m _ _ _ _ _ hs
    cases s with
    | free fp =>
      simp only [Seg] at hs
      simp only [span, Sec.fp] at he hfp
      obtain ⟨_, h2, h3, h4⟩ := hs
      subst h2
      have e1 : SECTION_SIZE_free c m nf = fp := by
        unfold SECTION_SIZE_free add64
        rw [h3]
        omega
      have e2 : add64 c.U n = c.U + n := by unfold add64; omega
      simp only [free_walk_loop, firstFit, e1, e2]
      by_cases hlt : fp < c.U + n
      · rw [if_pos ⟨by omega, hlt⟩, if_pos hlt]
        exact ih f _ (nf + fp) e (by omega) he2 (by omega) h4
      · rw [if_neg (by omega), if_neg hlt]
    | used fp =>
      simp only [Seg] at hs
      simp only [firstFit]
      exact ih (f + 1) nf (a + fp) e (by omega) he2 (by omega) hs.2.2
    | loose fp =>
      simp only [Seg] at hs
      simp only [firstFit]
      exact ih (f + 1) nf (a + fp) e (by omega) he2 (by omega) hs.2.2

theorem in_free_list_loop_spec (c : Cfg) (hF : 16 ≤ c.F) (m : Mem) (q : Nat) (xs : List Sec) :
    ∀ fuel nf a e b, 0 < a → xs.length < fuel → Seg c m a nf xs e 0 →
      in_free_list_loop m q fuel nf b = some (b || decide (q ∈ freeAddrs a xs)) := by
  induction xs with
  | nil =>
    intro fuel nf a e b _ hf hs
    simp only [Seg] at hs
    obtain ⟨f, rfl⟩ : ∃ f, fuel = f + 1 := ⟨fuel - 1, by simp only [List.length_nil] at hf; omega⟩
    simp only [in_free_list_loop, freeAddrs]
    rw [if_neg (by omega)]
    simp
  | cons s r ih =>
    intro fuel nf a e b ha hf hs
    obtain ⟨f, rfl⟩ : ∃ f, fuel = f + 1 := ⟨fuel - 1, by simp only [List.length_cons] at hf; omega⟩
    simp only [List.length_cons] at hf
    cases s with
    | free fp =>
      simp only [Seg] at hs
      obtain ⟨_, h2, _, h4⟩ := hs
      subst h2
      simp only [in_free_list_loop, freeAddrs]
      cases b with
      | true => rw [if_neg (by simp)]; simp
      | false =>
        rw [if_pos ⟨by omega, rfl⟩, ih f _ (nf + fp) e _ (by omega) (by omega) h4]
        simp only [Bool.false_or, List.mem_cons, Option.some.injEq]
        by_cases hq : nf = q
        · subst hq; simp
        · have : ¬ q = nf := fun h => hq h.symm
          simp [hq, this]
    | used fp =>
      simp only [Seg] at hs
      simp only [freeAddrs]
      exact ih (f + 1) nf (a + fp) e b (by omega) (by omega) hs.2.2
    | loose fp =>
      simp only [Seg] at hs
      simp only [freeAddrs]
      exact ih (f + 1) nf (a + fp) e b (by omega) (by omega) hs.2.2

theorem heap_test_loop_spec (c : Cfg) (hc : c.Valid) (m : Mem) (xs : List Sec) :
    ∀ fuel nf a, c.base ≤ a → xs.length < fuel → NoLoose xs →
      Seg c m a nf xs (c.base + c.SIZE) 0 → heap_test_loop c m fuel nf a true = some true := by
  obtain ⟨_, hU, hF, hUF, _, hb, hsz⟩ := hc
  have hend : END_OF_HEAP c = c.base + c.SIZE := by unfold END_OF_HEAP add64; omega
  replace hsz : c.base + c.SIZE < 2 ^ 64 := by omega
  induction xs with
  | nil =>
    intro fuel nf a _ hf _ hs
    simp only [Seg] at hs
    obtain ⟨f, rfl⟩ : ∃ f, fuel = f + 1 := ⟨fuel - 1, by simp only [List.length_nil] at hf; omega⟩
    simp only [heap_test_loop, hend]
    rw [if_neg (by omega)]
  | cons s r ih =>
    intro fuel nf a ha hf hnl hs
    obtain ⟨f, rfl⟩ : ∃ f, fuel = f + 1 := ⟨fuel - 1, by simp only [List.length_cons] at hf; omega⟩
    simp only [List.length_cons] at hf
    have hfp := Seg_fp c m _ _ _ _ _ hs s (List.mem_cons_self _ _)
    have he := Seg_end c m _ _ _ _ _ hs
    have hnl2 : NoLoose r := fun t ht => hnl t (List.mem_cons_of_mem _ ht)
    cases s with
    | free fp =>
      simp only [Seg] at hs
      simp only [span, Sec.fp] at he hfp
      obtain ⟨_, h2, h3, h4⟩ := hs
      subst h2
      have e1 : add64 nf (SECTION_SIZE_free c m nf) = nf + fp := by
        unfold SECTION_SIZE_free add64
        rw [h3]
        omega
      simp only [heap_test_loop, hend, e1, if_true]
      rw [if_pos ⟨trivial, by omega⟩, if_neg (by omega)]
      exact ih f _ (nf + fp) (by omega) (by omega) hnl2 h4
    | used fp =>
      simp only [Seg] at hs
      simp only [span, Sec.fp] at he hfp
      obtain ⟨_, h3, h4⟩ := hs
      have hcur := Seg_cursor_range c m r _ _ _ _ h4
      have hne : a ≠ nf := by omega
      have e1 : add64 a (SECTION_SIZE_used c m a) = a + fp := by
        unfold SECTION_SIZE_used add64
        rw [h3]
        omega
      simp only [heap_test_loop, hend, e1, if_neg hne]
      rw [if_pos ⟨trivial, by omega⟩, if_neg (by omega)]
      exact ih f nf (a + fp) (by omega) (by omega) hnl2 h4
    | loose fp =>
      exact absurd rfl (hnl (Sec.loose fp) (List.mem_cons_self _ _) fp)

/-! ### The steps of the operations on a tiled heap -/

theorem Tiled_len (c : Cfg) (hc : c.Valid) (h : Heap) (pre post : List Sec)
    (ht : Tiled c h (pre ++ post)) : pre.length < c.fuel ∧ (pre ++ post).length < c.fuel := by
  have hfp := Seg_fp c h.mem _ _ _ _ _ ht
  have he := Seg_end c h.mem _ _ _ _ _ ht
  have h1 := span_len c hc.2.2.1 (pre ++ post) hfp
  rw [List.length_append] at h1 ⊢
  unfold Cfg.fuel
  omega

theorem Tiled_replace (c : Cfg) (hc : c.Valid) (h h1 : Heap) (pre xs ys post : List Sec)
    (ht : Tiled c h (pre ++ (xs ++ post))) (hff : h1.first_free = h.first_free)
    (hsp : span ys = span xs)
    (hout : ∀ x, x < c.base + span pre ∨ c.base + span pre + span xs ≤ x → h1.mem x = h.mem x)
    (hin : ∀ nf ne, Seg c h.mem (c.base + span pre) nf xs (c.base + span pre + span xs) ne →
      Seg c h1.mem (c.base + span pre) nf ys (c.base + span pre + span xs) ne) :
    Tiled c h1 (pre ++ (ys ++ post)) := by
  unfold Tiled at ht ⊢
  rw [Seg_append] at ht ⊢
  obtain ⟨nm, s1, s2⟩ := ht
  rw [Seg_append] at s2
  obtain ⟨nm2, s3, s4⟩ := s2
  refine ⟨nm, ?_, ?_⟩
  · rw [hff]
    exact Seg_congr c hc.2.2.1 h.mem h1.mem pre _ _ _ _ s1 (fun x _ hx => hout x (Or.inl hx))
  · rw [Seg_append]
    refine ⟨nm2, ?_, ?_⟩
    · rw [hsp]; exact hin nm nm2 s3
    · rw [hsp]
      exact Seg_congr c hc.2.2.1 h.mem h1.mem post _ _ _ _ s4 (fun x hx _ => hout x (Or.inr hx))

theorem Tiled_bounds (c : Cfg) (h : Heap) (pre : List Sec) (s : Sec) (post : List Sec)
    (ht : Tiled c h (pre ++ s :: post)) :
    c.F ≤ s.fp ∧ c.base + span pre + s.fp + span post = c.base + c.SIZE := by
  have hfp := Seg_fp c h.mem _ _ _ _ _ ht s (by simp)
  have he := Seg_end c h.mem _ _ _ _ _ ht
  rw [span_append] at he
  simp only [span] at he
  exact ⟨hfp, by omega⟩

theorem free_remove_spec (c : Cfg) (hc : c.Valid) (h : Heap) (pre post : List Sec) (fp : Nat)
    (ht : Tiled c h (pre ++ Sec.free fp :: post)) :
    ∃ h1, free_remove c h (c.base + span pre) = some h1 ∧
      Tiled c h1 (pre ++ Sec.loose fp :: post) ∧ h1.initialized = h.initialized := by
  have hF := hc.2.2.1
  have hlen := (Tiled_len c hc h pre _ ht).1
  have hb := Tiled_bounds c h pre _ post ht
  simp only [Sec.fp] at hb
  unfold Tiled at ht
  rw [Seg_append] at ht
  obtain ⟨nm, s1, s2⟩ := ht
  simp only [Seg] at s2
  obtain ⟨h1, h2, h3, h4⟩ := s2
  subst h2
  have hloop := free_remove_loop_spec c hF h (c.base + span pre) pre c.fuel Link.root c.base
    hc.2.2.2.2.2.1 hlen s1
  have hrel := Seg_relink c hF h (next_ptr h.mem (c.base + span pre)) (rd64_lt _ _) pre
    Link.root c.base _ _ c.base trivial s1
  have hw := lastLink_within pre Link.root c.base c.base
    (fun t ht => le_trans hF (Seg_fp c h.mem _ _ _ _ _ s1 t ht)) trivial (le_refl _)
  refine ⟨_, by unfold free_remove; rw [hloop]; rfl, ?_, Link.write_initialized _ _ _⟩
  unfold Tiled
  rw [Seg_append]
  refine ⟨_, hrel.2, ?_⟩
  simp only [Seg]
  have hm : ∀ x, c.base + span pre ≤ x →
      ((lastLink Link.root c.base pre).write h (next_ptr h.mem (c.base + span pre))).mem x
        = h.mem x :=
    fun x hx => Link.write_mem_out h _ c.base _ x _ hw (Or.inr hx)
  refine ⟨h1, ?_, ?_⟩
  · exact (rd64_congr _ _ _ (fun x hx _ => hm x hx)).trans h3
  · exact Seg_congr c hF h.mem _ post _ _ _ _ h4 (fun x hx _ => hm x (by omega))

theorem free_insert_spec (c : Cfg) (hc : c.Valid) (h : Heap) (pre post : List Sec) (fp : Nat)
    (ht : Tiled c h (pre ++ Sec.loose fp :: post)) :
    ∃ h1, free_insert c h (c.base + span pre) = some h1 ∧
      Tiled c h1 (pre ++ Sec.free fp :: post) ∧ h1.initialized = h.initialized := by
  have hF := hc.2.2.1
  have hlen := (Tiled_len c hc h pre _ ht).1
  have hb := Tiled_bounds c h pre _ post ht
  simp only [Sec.fp] at hb
  unfold Tiled at ht
  rw [Seg_append] at ht
  obtain ⟨nm, s1, s2⟩ := ht
  simp only [Seg] at s2
  obtain ⟨h1, h3, h4⟩ := s2
  have hcur := Seg_cursor_range c h.mem post _ _ _ _ h4
  have hnm : nm < 2 ^ 64 := by
    have := hc.2.2.2.2.2.2
    omega
  have hloop := free_insert_loop_spec c hF h (c.base + span pre) pre c.fuel Link.root c.base nm
    hc.2.2.2.2.2.1 hlen s1 (by omega)
  have hw := lastLink_within pre Link.root c.base c.base
    (fun t ht => le_trans hF (Seg_fp c h.mem _ _ _ _ _ s1 t ht)) trivial (le_refl _)
  let ha : Heap := { h with mem := wr64 h.mem (c.base + span pre + 8) nm }
  have hma : ∀ x, x < c.base + span pre + 8 ∨ c.base + span pre + 16 ≤ x → ha.mem x = h.mem x :=
    fun x hx => wr64_out h.mem _ _ x (by omega)
  have s1a : Seg c ha.mem c.base (Link.root.read ha) pre (c.base + span pre) nm :=
    Seg_congr c hF h.mem ha.mem pre _ _ _ _ s1 (fun x _ hx => hma x (Or.inl (by omega)))
  have hrel := Seg_relink c hF ha (c.base + span pre) (by have := hc.2.2.2.2.2.2; omega) pre
    Link.root c.base _ _ c.base trivial s1a
  have hread : (lastLink Link.root c.base pre).read h = nm :=
    (Seg_relink c hF h 0 (by omega) pre Link.root c.base _ _ c.base trivial s1).1
  refine ⟨(lastLink Link.root c.base pre).write ha (c.base + span pre), ?_, ?_,
    Link.write_initialized _ _ _⟩
  · unfold free_insert
    rw [hloop]
    simp only [Option.map_some', hread]
  unfold Tiled
  rw [Seg_append]
  refine ⟨_, hrel.2, ?_⟩
  simp only [Seg]
  have hm : ∀ x, c.base + span pre ≤ x →
      ((lastLink Link.root c.base pre).write ha (c.base + span pre)).mem x = ha.mem x :=
    fun x hx => Link.write_mem_out ha _ c.base _ x _ hw (Or.inr hx)
  refine ⟨h1, trivial, ?_, ?_⟩
  · exact (rd64_congr _ _ _ (fun x hx _ => hm x hx)).trans
      ((rd64_wr64_other h.mem _ nm _ (Or.inl (le_refl _))).trans h3)
  · have e2 : next_ptr ((lastLink Link.root c.base pre).write ha (c.base + span pre)).mem
        (c.base + span pre) = nm :=
      (rd64_congr _ _ _ (fun x hx _ => hm x (by omega))).trans (rd64_wr64_same h.mem _ nm hnm)
    rw [e2]
    exact Seg_congr c hF h.mem _ post _ _ _ _ h4
      (fun x hx _ => (hm x (by omega)).trans (hma x (Or.inr (by omega))))

theorem free_to_used_spec (c : Cfg) (hc : c.Valid) (h : Heap) (pre post : List Sec) (fp : Nat)
    (ht : Tiled c h (pre ++ Sec.loose fp :: post)) :
    Tiled c (free_to_used c h (c.base + span pre)) (pre ++ Sec.used fp :: post) := by
  have hc2 := hc
  obtain ⟨_, hU, hF, hUF, _, hb, hsz⟩ := hc
  have hbd := Tiled_bounds c h pre _ post ht
  simp only [Sec.fp] at hbd
  refine Tiled_replace c hc2 h _ pre [Sec.loose fp] [Sec.used fp] post ht rfl rfl ?_ ?_
  · intro x hx
    simp only [span, Sec.fp] at hx
    exact wr64_out _ _ _ x (by omega)
  · intro nf ne hs
    simp only [Seg, span, Sec.fp] at hs ⊢
    refine ⟨hs.1, ?_, hs.2.2⟩
    unfold free_to_used
    simp only [size_of]
    rw [rd64_wr64_same _ _ _ (by unfold sub64; omega)]
    unfold SECTION_SIZE_free add64 sub64
    rw [hs.2.1]
    omega

theorem used_to_free_spec (c : Cfg) (hc : c.Valid) (h : Heap) (pre post : List Sec) (fp : Nat)
    (ht : Tiled c h (pre ++ Sec.used fp :: post)) :
    Tiled c (used_to_free c h (c.base + span pre)) (pre ++ Sec.loose fp :: post) := by
  have hc2 := hc
  obtain ⟨_, hU, hF, hUF, _, hb, hsz⟩ := hc
  have hbd := Tiled_bounds c h pre _ post ht
  simp only [Sec.fp] at hbd
  refine Tiled_replace c hc2 h _ pre [Sec.used fp] [Sec.loose fp] post ht rfl rfl ?_ ?_
  · intro x hx
    simp only [span, Sec.fp] at hx
    exact wr64_out _ _ _ x (by omega)
  · intro nf ne hs
    simp only [Seg, span, Sec.fp] at hs ⊢
    refine ⟨hs.1, ?_, hs.2.2⟩
    unfold used_to_free
    simp only [size_of]
    rw [rd64_wr64_same _ _ _ (by unfold sub64; omega)]
    unfold SECTION_SIZE_used add64 sub64
    rw [hs.2.1]
    omega

theorem find_free_below_spec (c : Cfg) (hc : c.Valid) (h : Heap) (pre : List Sec) (s : Sec)
    (post : List Sec) (ht : Tiled c h (pre ++ s :: post)) :
    find_free_below c h (c.base + span pre) = some (lastFree 0 c.base pre) := by
  have hlen := (Tiled_len c hc h pre _ ht).1
  unfold Tiled at ht
  rw [Seg_append] at ht
  obtain ⟨nm, s1, s2⟩ := ht
  have hcur := Seg_cursor_range c h.mem _ _ _ _ _ s2
  exact find_free_below_loop_spec c hc.2.2.1 h.mem _ pre c.fuel _ c.base 0 nm hc.2.2.2.2.2.1 hlen
    s1 (by omega)

theorem free_merge_up_spec (c : Cfg) (hc : c.Valid) (h : Heap) (pre post : List Sec) (fp : Nat)
    (ht : Tiled c h (pre ++ Sec.free fp :: post)) :
    Tiled c (free_merge_up c h (c.base + span pre)) (pre ++ mergeHead fp post) ∧
      (free_merge_up c h (c.base + span pre)).initialized = h.initialized ∧
      (free_merge_up c h (c.base + span pre)).first_free = h.first_free := by
  have hc2 := hc
  obtain ⟨_, hU, hF, hUF, _, hb, hsz⟩ := hc
  have hbd := Tiled_bounds c h pre _ post ht
  simp only [Sec.fp] at hbd
  have ht2 := ht
  unfold Tiled at ht2
  rw [Seg_append] at ht2
  obtain ⟨nm, s1, s2⟩ := ht2
  simp only [Seg] at s2
  obtain ⟨h1, h2, h3, h4⟩ := s2
  have eafter : SECTION_AFTER_free c h.mem (c.base + span pre) = c.base + span pre + fp := by
    unfold SECTION_AFTER_free add64
    rw [h3]
    omega
  cases post with
  | nil =>
    simp only [Seg] at h4
    have : free_merge_up c h (c.base + span pre) = h := by
      unfold free_merge_up
      rw [if_neg (not_not.mpr h4.2)]
    rw [this]
    exact ⟨ht, rfl, rfl⟩
  | cons s r =>
    cases s with
    | free fp2 =>
      simp only [Seg] at h4
      obtain ⟨g1, g2, g3, g4⟩ := h4
      simp only [span, Sec.fp] at hbd
      have esz : SECTION_SIZE_free c h.mem (c.base + span pre + fp) = fp2 := by
        unfold SECTION_SIZE_free add64
        rw [g3]
        omega
      have hm : free_merge_up c h (c.base + span pre) = Heap.mk
          (wr64 (wr64 h.mem (c.base + span pre) (fp + fp2 - c.F)) (c.base + span pre + 8)
            (next_ptr h.mem (c.base + span pre + fp))) h.first_free h.initialized := by
        unfold free_merge_up
        rw [if_pos (by omega), if_pos (by rw [eafter]; exact g2)]
        simp only
        have e1 : next_ptr (wr64 h.mem (c.base + span pre)
            (add64 (size_of h.mem (c.base + span pre))
              (SECTION_SIZE_free c h.mem (next_ptr h.mem (c.base + span pre)))))
            (c.base + span pre) = c.base + span pre + fp := by
          unfold next_ptr
          rw [rd64_wr64_other _ _ _ _ (Or.inr (le_refl _))]
          exact g2
        rw [e1, g2, esz, h3]
        have e2 : add64 (fp - c.F) fp2 = fp + fp2 - c.F := by unfold add64; omega
        rw [e2]
        have e3 : next_ptr (wr64 h.mem (c.base + span pre) (fp + fp2 - c.F))
            (c.base + span pre + fp) = next_ptr h.mem (c.base + span pre + fp) := by
          unfold next_ptr
          exact rd64_wr64_other _ _ _ _ (Or.inr (by omega))
        rw [e3]
      rw [hm]
      refine ⟨?_, rfl, rfl⟩
      simp only [mergeHead]
      refine Tiled_replace c hc2 h _ pre [Sec.free fp, Sec.free fp2] [Sec.free (fp + fp2)] r
        ?_ rfl ?_ ?_ ?_
      · exact ht
      · simp only [span, Sec.fp]; omega
      · intro x hx
        simp only [span, Sec.fp] at hx
        simp only
        rw [wr64_out _ _ _ x (by omega), wr64_out _ _ _ x (by omega)]
      · intro nf ne hs
        simp only [Seg, span, Sec.fp] at hs ⊢
        obtain ⟨_, k2, _, _, _, _, k7, k8⟩ := hs
        refine ⟨by omega, k2, ?_, by omega, ?_⟩
        · simp only [size_of]
          rw [rd64_wr64_other _ _ _ _ (Or.inl (le_refl _)), rd64_wr64_same _ _ _ (by omega)]
        · simp only [next_ptr]
          rw [rd64_wr64_same _ _ _ (rd64_lt _ _)]
          exact k8
    | used fp2 =>
      simp only [Seg] at h4
      have hcur := Seg_cursor_range c h.mem _ _ _ _ _ h4.2.2
      have : free_merge_up c h (c.base + span pre) = h := by
        unfold free_merge_up
        by_cases hz : next_ptr h.mem (c.base + span pre) ≠ 0
        · rw [if_pos hz, if_neg (by rw [eafter]; omega)]
        · rw [if_neg hz]
      rw [this]
      exact ⟨ht, rfl, rfl⟩
    | loose fp2 =>
      simp only [Seg] at h4
      have hcur := Seg_cursor_range c h.mem _ _ _ _ _ h4.2.2
      have : free_merge_up c h (c.base + span pre) = h := by
        unfold free_merge_up
        by_cases hz : next_ptr h.mem (c.base + span pre) ≠ 0
        · rw [if_pos hz, if_neg (by rw [eafter]; omega)]
        · rw [if_neg hz]
      rw [this]
      exact ⟨ht, rfl, rfl⟩

theorem used_extend_up_spec (c : Cfg) (hc : c.Valid) (h : Heap) (pre post : List Sec)
    (fp fp2 : Nat) (ht : Tiled c h (pre ++ Sec.used fp :: Sec.loose fp2 :: post)) :
    Tiled c (used_extend_up c h (c.base + span pre)) (pre ++ Sec.used (fp + fp2) :: post) := by
  have hc2 := hc
  obtain ⟨_, hU, hF, hUF, _, hb, hsz⟩ := hc
  have hbd := Tiled_bounds c h pre _ _ ht
  simp only [Sec.fp, span] at hbd
  have hfp2 := Seg_fp c h.mem _ _ _ _ _ ht (Sec.loose fp2) (by simp)
  simp only [Sec.fp] at hfp2
  refine Tiled_replace c hc2 h _ pre [Sec.used fp, Sec.loose fp2] [Sec.used (fp + fp2)] post
    ht rfl ?_ ?_ ?_
  · simp only [span, Sec.fp]; omega
  · intro x hx
    simp only [span, Sec.fp] at hx
    exact wr64_out _ _ _ x (by omega)
  · intro nf ne hs
    simp only [Seg, span, Sec.fp] at hs ⊢
    obtain ⟨_, k2, _, k4, _, k6⟩ := hs
    refine ⟨by omega, ?_, by omega, k6⟩
    have e1 : SECTION_AFTER_used c h.mem (c.base + span pre) = c.base + span pre + fp := by
      unfold SECTION_AFTER_used add64
      rw [k2]
      omega
    unfold used_extend_up
    simp only [size_of] at k2 k4 ⊢
    rw [rd64_wr64_same _ _ _ (by unfold add64; omega), e1]
    unfold SECTION_SIZE_free add64 size_of
    rw [k2, k4]
    omega

theorem used_extend_down_spec (c : Cfg) (hc : c.Valid) (h : Heap) (pre post : List Sec)
    (fp fp2 n : Nat) (hn : c.U + n < 2 ^ 64)
    (ht : Tiled c h (pre ++ Sec.loose fp :: Sec.used fp2 :: post)) :
    Tiled c (used_extend_down c h (c.base + span pre) (c.base + span pre + fp) n)
      (pre ++ Sec.used (fp + fp2) :: post) := by
  have hc2 := hc
  obtain ⟨_, hU, hF, hUF, _, hb, hsz⟩ := hc
  have hbd := Tiled_bounds c h pre _ _ ht
  simp only [Sec.fp, span] at hbd
  have hfp2 := Seg_fp c h.mem _ _ _ _ _ ht (Sec.used fp2) (by simp)
  simp only [Sec.fp] at hfp2
  have hfacts : size_of h.mem (c.base + span pre) = fp - c.F ∧
      size_of h.mem (c.base + span pre + fp) = fp2 - c.U := by
    have ht2 := ht
    unfold Tiled at ht2
    rw [Seg_append] at ht2
    obtain ⟨nm, _, s2⟩ := ht2
    simp only [Seg] at s2
    exact ⟨s2.2.1, s2.2.2.2.1⟩
  obtain ⟨k2, k4⟩ := hfacts
  have e1 : SECTION_SIZE_free c h.mem (c.base + span pre) = fp := by
    unfold SECTION_SIZE_free add64
    rw [k2]
    omega
  have e2 : SECTION_SIZE_used c h.mem (c.base + span pre + fp) = fp2 := by
    unfold SECTION_SIZE_used add64
    rw [k4]
    omega
  have e3 : add64 n c.U = c.U + n := by unfold add64; omega
  obtain ⟨mv, hmv, hmv1, hmv2⟩ : ∃ mv, (if add64 n c.U < SECTION_SIZE_used c h.mem
      (c.base + span pre + fp) then add64 n c.U
      else SECTION_SIZE_used c h.mem (c.base + span pre + fp)) = mv ∧ 8 ≤ mv ∧ mv ≤ fp2 := by
    rw [e2, e3]
    by_cases hlt : c.U + n < fp2
    · exact ⟨_, if_pos hlt, by omega, by omega⟩
    · exact ⟨_, if_neg hlt, by omega, by omega⟩
  have hm : used_extend_down c h (c.base + span pre) (c.base + span pre + fp) n = Heap.mk
      (wr64 (memmove h.mem (c.base + span pre) (c.base + span pre + fp) mv) (c.base + span pre)
        (fp + fp2 - c.U)) h.first_free h.initialized := by
    unfold used_extend_down
    simp only [hmv, e1]
    have e4 : size_of (memmove h.mem (c.base + span pre) (c.base + span pre + fp) mv)
        (c.base + span pre) = fp2 - c.U := by
      rw [← k4]
      exact rd64_memmove _ _ _ _ hmv1
    rw [e4]
    have e5 : add64 (fp2 - c.U) fp = fp + fp2 - c.U := by unfold add64; omega
    rw [e5]
  rw [hm]
  refine Tiled_replace c hc2 h _ pre [Sec.loose fp, Sec.used fp2] [Sec.used (fp + fp2)] post
    ht rfl ?_ ?_ ?_
  · simp only [span, Sec.fp]; omega
  · intro x hx
    simp only [span, Sec.fp] at hx
    simp only
    rw [wr64_out _ _ _ x (by omega), memmove_out _ _ _ _ x (by omega)]
  · intro nf ne hs
    simp only [Seg, span, Sec.fp] at hs ⊢
    obtain ⟨_, _, _, _, _, k6⟩ := hs
    refine ⟨by omega, ?_, by omega, k6⟩
    simp only [size_of]
    rw [rd64_wr64_same _ _ _ (by omega)]

theorem used_shrink_spec (c : Cfg) (hc : c.Valid) (h : Heap) (pre post : List Sec) (fp n : Nat)
    (hn1 : c.F ≤ c.U + n) (hn2 : c.U + n < 2 ^ 64)
    (ht : Tiled c h (pre ++ Sec.used fp :: post)) :
    ∃ h1, used_shrink c h (c.base + span pre) n = some h1 ∧
      Tiled c h1 (pre ++ shrinkHead c fp n post) ∧ h1.initialized = h.initialized := by
  have hc2 := hc
  obtain ⟨_, hU, hF, hUF, _, hb, hsz⟩ := hc
  have hbd := Tiled_bounds c h pre _ _ ht
  simp only [Sec.fp, span] at hbd
  have k2 : size_of h.mem (c.base + span pre) = fp - c.U := by
    have ht2 := ht
    unfold Tiled at ht2
    rw [Seg_append] at ht2
    obtain ⟨nm, _, s2⟩ := ht2
    simp only [Seg] at s2
    exact s2.2.1
  have e2 : SECTION_SIZE_used c h.mem (c.base + span pre) = fp := by
    unfold SECTION_SIZE_used add64
    rw [k2]
    omega
  unfold used_shrink shrinkHead
  rw [k2, e2]
  by_cases c1 : n < fp - c.U
  · have e3 : add64 (add64 c.U n) c.F = c.U + n + c.F := by unfold add64; omega
    rw [if_pos c1, e3]
    by_cases c2 : c.U + n + c.F ≤ fp
    · rw [if_pos c2, if_pos ⟨c1, c2⟩]
      have e4 : add64 (add64 (c.base + span pre) c.U) n = c.base + span pre + c.U + n := by
        unfold add64; omega
      have e5 : sub64 (sub64 (fp - c.U) n) c.F = fp - c.U - n - c.F := by unfold sub64; omega
      simp only [e4, e5]
      have hsplit : Tiled c (Heap.mk (wr64 (wr64 h.mem (c.base + span pre + c.U + n)
          (fp - c.U - n - c.F)) (c.base + span pre) n) h.first_free h.initialized)
          ((pre ++ [Sec.used (c.U + n)]) ++ Sec.loose (fp - c.U - n) :: post) := by
        rw [List.append_assoc]
        refine Tiled_replace c hc2 h _ pre [Sec.used fp]
          [Sec.used (c.U + n), Sec.loose (fp - c.U - n)] post ht rfl ?_ ?_ ?_
        · simp only [span, Sec.fp]; omega
        · intro x hx
          simp only [span, Sec.fp] at hx
          simp only
          rw [wr64_out _ _ _ x (by omega), wr64_out _ _ _ x (by omega)]
        · intro nf ne hs
          simp only [Seg, span, Sec.fp] at hs ⊢
          obtain ⟨_, _, _, k6⟩ := hs
          refine ⟨hn1, ?_, by omega, ?_, by omega, k6⟩
          · simp only [size_of]
            rw [rd64_wr64_same _ _ _ (by omega)]
            omega
          · simp only [size_of]
            rw [rd64_wr64_other _ _ _ _ (Or.inr (by omega)), Nat.add_assoc,
              rd64_wr64_same _ _ _ (by omega)]
      have hsp : c.base + span (pre ++ [Sec.used (c.U + n)]) = c.base + span pre + c.U + n := by
        rw [span_append]
        simp only [span, Sec.fp]
        omega
      obtain ⟨h1, i1, i2, i3⟩ := free_insert_spec c hc2 _ _ _ _ hsplit
      rw [hsp] at i1
      have hmu := free_merge_up_spec c hc2 h1 _ _ _ i2
      rw [hsp] at hmu
      refine ⟨_, by rw [i1]; rfl, ?_, ?_⟩
      · have := hmu.1
        rw [List.append_assoc] at this
        exact this
      · rw [hmu.2.1, i3]
    · rw [if_neg c2, if_neg (fun hx => c2 hx.2)]
      exact ⟨h, rfl, ht, rfl⟩
  · rw [if_neg c1, if_neg (fun hx => c1 hx.1)]
    exact ⟨h, rfl, ht, rfl⟩

/-! ### Lists of sections -/

theorem endFree_append_cons (xs : List Sec) (s : Sec) (ys : List Sec) :
    endFree (xs ++ s :: ys) = endFree (s :: ys) := by
  induction xs with
  | nil => rfl
  | cons x r ih =>
    cases r with
    | nil => simp only [List.cons_append, List.nil_append, endFree]
    | cons y r2 =>
      rw [List.cons_append, List.cons_append, endFree, ← List.cons_append]
      exact ih

theorem endFree_append_single (xs : List Sec) (s : Sec) : endFree (xs ++ [s]) = s.isFree := by
  rw [endFree_append_cons]
  rfl

theorem NoAdj_append (xs ys : List Sec) :
    NoAdj (xs ++ ys) ↔ NoAdj xs ∧ NoAdj ys ∧ ¬(endFree xs = true ∧ headFree ys = true) := by
  induction xs with
  | nil => simp [NoAdj, endFree]
  | cons x r ih =>
    cases r with
    | nil =>
      simp only [List.cons_append, List.nil_append, NoAdj, endFree, headFree] at ih ⊢
      tauto
    | cons y r2 =>
      rw [List.cons_append, NoAdj, ih]
      simp only [List.cons_append, NoAdj, endFree, headFree]
      tauto

theorem usedSecs_append (xs ys : List Sec) :
    ∀ a, usedSecs a (xs ++ ys) = usedSecs a xs ++ usedSecs (a + span xs) ys := by
  induction xs with
  | nil => intro a; simp [usedSecs, span]
  | cons s r ih =>
    intro a
    cases s <;> rw [List.cons_append] <;> simp only [usedSecs, span, Sec.fp, ih, List.cons_append,
      Nat.add_assoc]

theorem usedPtrs_eq (c : Cfg) (xs : List Sec) :
    ∀ a, usedPtrs c a xs = (usedSecs a xs).map (fun x => x.1 + c.U) := by
  induction xs with
  | nil => intro a; rfl
  | cons s r ih =>
    intro a
    cases s <;> simp only [usedPtrs, usedSecs, ih, List.map_cons]

theorem usedSecs_bounds (xs : List Sec) :
    ∀ a x, x ∈ usedSecs a xs → a ≤ x.1 ∧ x.1 + x.2 ≤ a + span xs := by
  induction xs with
  | nil => intro a x hx; cases hx
  | cons s r ih =>
    intro a x hx
    cases s with
    | used fp =>
      simp only [usedSecs, List.mem_cons] at hx
      simp only [span, Sec.fp]
      rcases hx with rfl | hx
      · simp only; omega
      · have := ih _ _ hx; omega
    | free fp =>
      simp only [usedSecs] at hx
      simp only [span, Sec.fp]
      have := ih _ _ hx; omega
    | loose fp =>
      simp only [usedSecs] at hx
      simp only [span, Sec.fp]
      have := ih _ _ hx; omega

theorem usedSecs_split (xs : List Sec) :
    ∀ a x, x ∈ usedSecs a xs →
      ∃ pre post, xs = pre ++ Sec.used x.2 :: post ∧ x.1 = a + span pre := by
  induction xs with
  | nil => intro a x hx; cases hx
  | cons s r ih =>
    intro a x hx
    have step : x ∈ usedSecs (a + s.fp) r →
        ∃ pre post, s :: r = pre ++ Sec.used x.2 :: post ∧ x.1 = a + span pre := by
      intro hx2
      obtain ⟨pre, post, e1, e2⟩ := ih _ _ hx2
      refine ⟨s :: pre, post, by rw [e1]; rfl, ?_⟩
      simp only [span]
      omega
    cases s with
    | used fp =>
      simp only [usedSecs, List.mem_cons] at hx
      rcases hx with rfl | hx
      · exact ⟨[], r, rfl, rfl⟩
      · exact step hx
    | free fp => exact step hx
    | loose fp => exact step hx

theorem usedSecs_mem (pre post : List Sec) (a fp : Nat) :
    (a + span pre, fp) ∈ usedSecs a (pre ++ Sec.used fp :: post) := by
  rw [usedSecs_append]
  simp [usedSecs]

theorem mergeHead_eq (fp : Nat) (post : List Sec) :
    ∃ fp1 post1, mergeHead fp post = Sec.free fp1 :: post1 ∧ fp1 + span post1 = fp + span post ∧
      fp ≤ fp1 ∧ (∀ a, usedSecs (a + fp1) post1 = usedSecs (a + fp) post) ∧
      (NoLoose post → NoLoose post1) ∧ (NoAdj post → NoAdj post1) ∧
      (NoAdj post → headFree post1 = false) := by
  cases post with
  | nil =>
    refine ⟨fp, [], rfl, rfl, le_refl _, fun _ => rfl, fun h => h, fun h => h, fun _ => rfl⟩
  | cons s r =>
    cases s with
    | free fp2 =>
      refine ⟨fp + fp2, r, rfl, by simp only [span, Sec.fp]; omega, by omega, ?_, ?_, ?_, ?_⟩
      · intro a; simp only [usedSecs, Nat.add_assoc]
      · intro h t ht; exact h t (List.mem_cons_of_mem _ ht)
      · intro h; exact h.2
      · intro h
        simp only [NoAdj, Sec.isFree, true_and] at h
        simpa using h.1
    | used fp2 =>
      exact ⟨fp, _, rfl, rfl, le_refl _, fun _ => rfl, fun h => h, fun h => h, fun _ => rfl⟩
    | loose fp2 =>
      exact ⟨fp, _, rfl, rfl, le_refl _, fun _ => rfl, fun h => h, fun h => h, fun _ => rfl⟩

theorem lastFree_split (xs : List Sec) :
    ∀ d a, (lastFree d a xs = d ∧ NoFree xs) ∨
      ∃ x1 g x2, xs = x1 ++ Sec.free g :: x2 ∧ lastFree d a xs = a + span x1 ∧ NoFree x2 := by
  induction xs with
  | nil => intro d a; exact Or.inl ⟨rfl, fun s hs => by cases hs⟩
  | cons s r ih =>
    intro d a
    have keep : s.isFree = false → lastFree d a (s :: r) = lastFree d (a + s.fp) r →
        (lastFree d a (s :: r) = d ∧ NoFree (s :: r)) ∨
        ∃ x1 g x2, s :: r = x1 ++ Sec.free g :: x2 ∧ lastFree d a (s :: r) = a + span x1 ∧
          NoFree x2 := by
      intro hs he
      rcases ih d (a + s.fp) with ⟨e1, e2⟩ | ⟨x1, g, x2, e1, e2, e3⟩
      · left
        refine ⟨he.trans e1, ?_⟩
        intro t ht
        rcases List.mem_cons.mp ht with rfl | ht
        · exact hs
        · exact e2 t ht
      · right
        refine ⟨s :: x1, g, x2, by rw [e1]; rfl, ?_, e3⟩
        rw [he, e2]
        simp only [span]
        omega
    cases s with
    | free fp =>
      right
      rcases ih a (a + fp) with ⟨e1, e2⟩ | ⟨x1, g, x2, e1, e2, e3⟩
      · exact ⟨[], fp, r, rfl, by simp only [lastFree, e1, span, Nat.add_zero], e2⟩
      · refine ⟨Sec.free fp :: x1, g, x2, by rw [e1]; rfl, ?_, e3⟩
        simp only [lastFree, e2, span, Sec.fp]
        omega
    | used fp => exact keep rfl rfl
    | loose fp => exact keep rfl rfl

theorem firstFit_split (need : Nat) (xs : List Sec) :
    ∀ a, firstFit need a xs = 0 ∨
      ∃ pre fp post, xs = pre ++ Sec.free fp :: post ∧ firstFit need a xs = a + span pre ∧
        need ≤ fp := by
  induction xs with
  | nil => intro a; exact Or.inl rfl
  | cons s r ih =>
    intro a
    have keep : firstFit need a (s :: r) = firstFit need (a + s.fp) r →
        firstFit need a (s :: r) = 0 ∨
        ∃ pre fp post, s :: r = pre ++ Sec.free fp :: post ∧
          firstFit need a (s :: r) = a + span pre ∧ need ≤ fp := by
      intro he
      rcases ih (a + s.fp) with e1 | ⟨pre, fp, post, e1, e2, e3⟩
      · exact Or.inl (he.trans e1)
      · right
        refine ⟨s :: pre, fp, post, by rw [e1]; rfl, ?_, e3⟩
        rw [he, e2]
        simp only [span]
        omega
    cases s with
    | free fp =>
      by_cases hlt : fp < need
      · exact keep (by simp only [firstFit, if_pos hlt, Sec.fp])
      · right
        exact ⟨[], fp, r, rfl, by simp only [firstFit, if_neg hlt, span, Nat.add_zero], by omega⟩
    | used fp => exact keep rfl
    | loose fp => exact keep rfl

theorem endFree_NoFree (xs : List Sec) (h : NoFree xs) : endFree xs = false := by
  induction xs with
  | nil => rfl
  | cons s r ih =>
    cases r with
    | nil => exact h s (List.mem_cons_self _ _)
    | cons t r2 =>
      simp only [endFree]
      exact ih (fun u hu => h u (List.mem_cons_of_mem _ hu))

theorem NoLoose_append (xs ys : List Sec) : NoLoose (xs ++ ys) ↔ NoLoose xs ∧ NoLoose ys := by
  unfold NoLoose
  simp only [List.mem_append]
  constructor
  · intro h
    exact ⟨fun s hs => h s (Or.inl hs), fun s hs => h s (Or.inr hs)⟩
  · rintro ⟨h1, h2⟩ s (hs | hs)
    · exact h1 s hs
    · exact h2 s hs

theorem NoLoose_cons (s : Sec) (ys : List Sec) :
    NoLoose (s :: ys) ↔ (∀ fp, s ≠ Sec.loose fp) ∧ NoLoose ys := by
  unfold NoLoose
  simp only [List.mem_cons]
  constructor
  · intro h
    exact ⟨h s (Or.inl rfl), fun t ht => h t (Or.inr ht)⟩
  · rintro ⟨h1, h2⟩ t (rfl | ht)
    · exact h1
    · exact h2 t ht

/-! ### The boundaries of the sections -/

theorem starts_append (xs ys : List Sec) :
    ∀ a, starts a (xs ++ ys) = starts a xs ++ starts (a + span xs) ys := by
  induction xs with
  | nil => intro a; simp [starts, span]
  | cons s r ih =>
    intro a
    rw [List.cons_append]
    simp only [starts, span, List.cons_append]
    rw [ih, Nat.add_assoc]

theorem starts_mid_or (pre ys zs : List Sec) (a : Nat) (P : Nat → Prop)
    (h : ∀ x ∈ starts (a + span pre) ys, x ∈ starts (a + span pre) zs ∨ P x) :
    ∀ x ∈ starts a (pre ++ ys), x ∈ starts a (pre ++ zs) ∨ P x := by
  intro x hx
  rw [starts_append, List.mem_append] at hx
  rw [starts_append, List.mem_append]
  rcases hx with hx | hx
  · exact Or.inl (Or.inl hx)
  · rcases h x hx with h1 | h1
    · exact Or.inl (Or.inr h1)
    · exact Or.inr h1

theorem starts_mid (pre ys zs : List Sec) (a : Nat)
    (h : ∀ x ∈ starts (a + span pre) ys, x ∈ starts (a + span pre) zs) :
    ∀ x ∈ starts a (pre ++ ys), x ∈ starts a (pre ++ zs) := by
  intro x hx
  rw [starts_append, List.mem_append] at hx
  rw [starts_append, List.mem_append]
  rcases hx with hx | hx
  · exact Or.inl hx
  · exact Or.inr (h x hx)

theorem mergeHead_starts (fp : Nat) (post : List Sec) (a x : Nat)
    (hx : x ∈ starts a (mergeHead fp post)) : x ∈ starts a (Sec.free fp :: post) := by
  cases post with
  | nil => exact hx
  | cons s r =>
    cases s with
    | free fp2 =>
      simp only [mergeHead, starts, Sec.fp, List.mem_cons] at hx ⊢
      rcases hx with hx | hx
      · exact Or.inl hx
      · right; right; rw [Nat.add_assoc]; exact hx
    | used _ => exact hx
    | loose _ => exact hx

theorem shrinkHead_starts (c : Cfg) (fp n : Nat) (post : List Sec) (a x : Nat)
    (hx : x ∈ starts a (shrinkHead c fp n post)) :
    x ∈ starts a (Sec.used fp :: post) ∨ x = a + c.U + n := by
  unfold shrinkHead at hx
  split at hx
  · rename_i hh
    simp only [starts, Sec.fp, List.mem_cons] at hx
    rcases hx with hx | hx
    · left
      simp only [starts, Sec.fp, List.mem_cons]
      exact Or.inl hx
    · have h1 := mergeHead_starts _ _ _ _ hx
      simp only [starts, Sec.fp, List.mem_cons] at h1
      rcases h1 with h1 | h1
      · right; omega
      · left
        simp only [starts, Sec.fp, List.mem_cons]
        right
        have e : a + (c.U + n) + (fp - c.U - n) = a + fp := by omega
        rw [e] at h1
        exact h1
  · exact Or.inl hx

end Mcheap
namespace Mcheap

theorem starts_kind (pre post : List Sec) (a fp : Nat) :
    starts a (pre ++ Sec.used fp :: post) = starts a (pre ++ Sec.free fp :: post) := by
  rw [starts_append, starts_append]
  rfl

theorem usedSecs_starts (xs : List Sec) :
    ∀ a x, x ∈ usedSecs a xs → x.1 ∈ starts a xs := by
  induction xs with
  | nil => intro a x hx; cases hx
  | cons s r ih =>
    intro a x hx
    cases s with
    | used fp =>
      simp only [usedSecs, List.mem_cons] at hx
      simp only [starts, List.mem_cons, Sec.fp]
      rcases hx with rfl | hx
      · exact Or.inl rfl
      · exact Or.inr (ih _ x hx)
    | free fp =>
      simp only [usedSecs] at hx
      simp only [starts, List.mem_cons, Sec.fp]
      exact Or.inr (ih _ x hx)
    | loose fp =>
      simp only [usedSecs] at hx
      simp only [starts, List.mem_cons, Sec.fp]
      exact Or.inr (ih _ x hx)

theorem freeSecs_append (xs ys : List Sec) :
    ∀ a, freeSecs a (xs ++ ys) = freeSecs a xs ++ freeSecs (a + span xs) ys := by
  induction xs with
  | nil => intro a; simp [freeSecs, span]
  | cons s r ih =>
    intro a
    rw [List.cons_append]
    cases s <;> simp only [freeSecs, span, Sec.fp, List.cons_append] <;> rw [ih, Nat.add_assoc]

theorem freeSecs_mem (pre post : List Sec) (a fp : Nat) :
    (a + span pre, fp) ∈ freeSecs a (pre ++ Sec.free fp :: post) := by
  rw [freeSecs_append]
  simp [freeSecs]

theorem free_step_spec (c : Cfg) (hc : c.Valid) (h : Heap) (pre post : List Sec) (fp : Nat)
    (ht : Tiled c h (pre ++ Sec.used fp :: post)) (hnl : NoLoose (pre ++ Sec.used fp :: post))
    (hna : NoAdj (pre ++ Sec.used fp :: post)) :
    ∃ h2 h3 secs1, free_insert c (used_to_free c h (c.base + span pre)) (c.base + span pre) = some h2 ∧
      free_merge c h2 (c.base + span pre) = some h3 ∧ Tiled c h3 secs1 ∧ NoLoose secs1 ∧
      NoAdj secs1 ∧
      usedSecs c.base secs1 = usedSecs c.base pre ++ usedSecs (c.base + span pre + fp) post ∧
      h3.initialized = h.initialized ∧
      ∀ x ∈ starts c.base secs1, x ∈ starts c.base (pre ++ Sec.used fp :: post) := by
  have t1 := used_to_free_spec c hc h pre post fp ht
  obtain ⟨h2, i1, t2, init2⟩ := free_insert_spec c hc _ pre post fp t1
  have mu := free_merge_up_spec c hc h2 pre post fp t2
  obtain ⟨fp1, post1, em, esp, _, eus, enl, ena, ehf⟩ := mergeHead_eq fp post
  rw [em] at mu
  have fb := find_free_below_spec c hc _ pre (Sec.free fp1) post1 mu.1
  rw [NoLoose_append, NoLoose_cons] at hnl
  rw [NoAdj_append, NoAdj] at hna
  obtain ⟨hna1, ⟨_, hna2⟩, hna3⟩ := hna
  have hpost1 : NoAdj (Sec.free fp1 :: post1) := by
    simp only [NoAdj, ehf hna2]
    exact ⟨by simp, ena hna2⟩
  have hus : usedSecs (c.base + span pre) (Sec.free fp1 :: post1)
      = usedSecs (c.base + span pre + fp) post := by
    simp only [usedSecs]
    exact eus _
  have hinit : (free_merge_up c h2 (c.base + span pre)).initialized = h.initialized := by
    rw [mu.2.1, init2]
    rfl
  have hfm : free_merge c h2 (c.base + span pre) = some
      (if lastFree 0 c.base pre ≠ 0 then
        free_merge_up c (free_merge_up c h2 (c.base + span pre)) (lastFree 0 c.base pre)
       else free_merge_up c h2 (c.base + span pre)) := by
    unfold free_merge
    simp only [fb, Option.map_some']
  have hst : ∀ a y, y ∈ starts a (Sec.free fp1 :: post1) → y ∈ starts a (Sec.used fp :: post) := by
    intro a y hy
    rw [← em] at hy
    exact mergeHead_starts fp post a y hy
  rcases lastFree_split pre 0 c.base with ⟨e1, e2⟩ | ⟨x1, g, x2, e1, e2, e3⟩
  · refine ⟨h2, _, pre ++ Sec.free fp1 :: post1, i1, hfm, ?_, ?_, ?_, ?_, ?_,
      starts_mid pre _ _ c.base (hst _)⟩
    · rw [if_neg (not_not.mpr e1)]; exact mu.1
    · rw [NoLoose_append, NoLoose_cons]
      exact ⟨hnl.1, fun _ hh => Sec.noConfusion hh, enl hnl.2.2⟩
    · rw [NoAdj_append]
      exact ⟨hna1, hpost1, by rw [endFree_NoFree pre e2]; simp⟩
    · rw [usedSecs_append, hus]
    · rw [if_neg (not_not.mpr e1)]; exact hinit
  · have hb := hc.2.2.2.2.2.1
    have hne : lastFree 0 c.base pre ≠ 0 := by rw [e2]; omega
    rw [if_pos hne, e2] at hfm
    subst e1
    have mu1 : Tiled c (free_merge_up c h2 (c.base + span (x1 ++ Sec.free g :: x2)))
        (x1 ++ Sec.free g :: (x2 ++ Sec.free fp1 :: post1)) := by
      have := mu.1
      rw [List.append_assoc] at this
      exact this
    have mu2 := free_merge_up_spec c hc _ x1 _ g mu1
    rw [NoAdj_append, NoAdj] at hna1
    rw [NoLoose_append, NoLoose_cons] at hnl
    cases x2 with
    | nil =>
      refine ⟨h2, _, x1 ++ Sec.free (g + fp1) :: post1, i1, hfm, mu2.1, ?_, ?_, ?_, ?_, ?_⟩
      · rw [NoLoose_append, NoLoose_cons]
        exact ⟨hnl.1.1, fun _ hh => Sec.noConfusion hh, enl hnl.2.2⟩
      · rw [NoAdj_append]
        refine ⟨hna1.1, ?_, ?_⟩
        · simp only [NoAdj, ehf hna2]
          exact ⟨by simp, ena hna2⟩
        · simpa [headFree, Sec.isFree] using hna1.2.2
      · rw [usedSecs_append, usedSecs_append]
        simp only [usedSecs, List.append_nil, span_append, span, Sec.fp, Nat.add_zero]
        rw [← eus]
        simp only [Nat.add_assoc]
      · rw [mu2.2.1]; exact hinit
      · rw [List.append_assoc]
        apply starts_mid
        intro y hy
        have h1 := hst (c.base + span x1 + g) y
        simp only [starts, Sec.fp, List.mem_cons, List.singleton_append] at hy h1 ⊢
        rcases hy with hy | hy
        · exact Or.inl hy
        · rw [← Nat.add_assoc] at hy
          rcases h1 (Or.inr hy) with h2 | h2
          · exact Or.inr (Or.inl h2)
          · exact Or.inr (Or.inr h2)
    | cons s x3 =>
      have hs : s.isFree = false := e3 s (List.mem_cons_self _ _)
      have hmh : mergeHead g ((s :: x3) ++ Sec.free fp1 :: post1)
          = Sec.free g :: ((s :: x3) ++ Sec.free fp1 :: post1) := by
        cases s with
        | free _ => cases hs
        | used _ => rfl
        | loose _ => rfl
      rw [hmh] at mu2
      refine ⟨h2, _, (x1 ++ Sec.free g :: s :: x3) ++ Sec.free fp1 :: post1, i1, hfm, ?_, ?_, ?_, ?_,
        ?_, starts_mid _ _ _ c.base (hst _)⟩
      · have := mu2.1
        rw [List.append_assoc]
        exact this
      · rw [NoLoose_append, NoLoose_cons, NoLoose_append, NoLoose_cons]
        exact ⟨hnl.1, fun _ hh => Sec.noConfusion hh, enl hnl.2.2⟩
      · rw [NoAdj_append, NoAdj_append, NoAdj]
        refine ⟨hna1, hpost1, ?_⟩
        rw [endFree_append_cons, endFree, endFree_NoFree (s :: x3) e3]
        simp
      · rw [usedSecs_append, hus]
      · rw [mu2.2.1]; exact hinit

theorem enforce_bounds (c : Cfg) (hc : c.Valid) (sz : Nat) (hsz : sz < 2 ^ 64) :
    c.F ≤ c.U + enforce_minimum_allocation_size c sz ∧
      c.U + enforce_minimum_allocation_size c sz < 2 ^ 64 := by
  obtain ⟨_, hU, hF, hUF, hFS, hb, hsize⟩ := hc
  have ha : align_size c sz < 2 ^ 64 := by
    unfold align_size
    by_cases h1 : sz % c.ALIGN ≠ 0
    · rw [if_pos h1]; unfold add64; omega
    · rw [if_neg h1]; exact hsz
  unfold enforce_minimum_allocation_size
  simp only
  by_cases h2 : add64 c.U (align_size c sz) < c.F
  · rw [if_pos h2]
    unfold sub64
    omega
  · rw [if_neg h2]
    unfold add64 at h2
    omega

theorem NoAdj_parts (pre : List Sec) (s : Sec) (post : List Sec) (h : NoAdj (pre ++ s :: post)) :
    NoAdj pre ∧ NoAdj post := by
  rw [NoAdj_append, NoAdj] at h
  exact ⟨h.1, h.2.1.2⟩

theorem NoAdj_used_mid (pre rest : List Sec) (f : Nat) (h1 : NoAdj pre) (h2 : NoAdj rest) :
    NoAdj (pre ++ Sec.used f :: rest) := by
  rw [NoAdj_append, NoAdj]
  refine ⟨h1, ⟨?_, h2⟩, ?_⟩
  · simp [Sec.isFree]
  · simp [headFree, Sec.isFree]

theorem shrinkHead_eq (c : Cfg) (fp n : Nat) (post : List Sec) :
    ∃ fpu rest, shrinkHead c fp n post = Sec.used fpu :: rest ∧
      fpu + span rest = fp + span post ∧ (fpu = fp ∨ (fpu = c.U + n ∧ c.U + n + c.F ≤ fp)) ∧
      (∀ a, usedSecs (a + fpu) rest = usedSecs (a + fp) post) ∧
      (NoLoose post → NoLoose rest) ∧ (NoAdj post → NoAdj rest) := by
  unfold shrinkHead
  by_cases h : n < fp - c.U ∧ c.U + n + c.F ≤ fp
  · rw [if_pos h]
    obtain ⟨fp1, post1, em, esp, _, eus, enl, ena, ehf⟩ := mergeHead_eq (fp - c.U - n) post
    refine ⟨c.U + n, _, rfl, ?_, Or.inr ⟨rfl, h.2⟩, ?_, ?_, ?_⟩
    · rw [em]; simp only [span, Sec.fp]; omega
    · intro a
      rw [em]
      simp only [usedSecs]
      have := eus (a + (c.U + n))
      rw [this]
      congr 1
      omega
    · intro hnl
      rw [em, NoLoose_cons]
      exact ⟨fun _ hh => Sec.noConfusion hh, enl hnl⟩
    · intro hna
      rw [em]
      simp only [NoAdj, ehf hna]
      exact ⟨by simp, ena hna⟩
  · rw [if_neg h]
    exact ⟨fp, post, rfl, rfl, Or.inl rfl, fun _ => rfl, fun h => h, fun h => h⟩

theorem allocate_spec (c : Cfg) (hc : c.Valid) (h : Heap) (secs : List Sec)
    (hinit : h.initialized = true) (ht : Tiled c h secs) (hnl : NoLoose secs) (hna : NoAdj secs)
    (size : Nat) (hsz : size < 2 ^ 64) :
    ∃ h1 q secs1, allocate c h size = some (h1, q) ∧ h1.initialized = true ∧ Tiled c h1 secs1 ∧
      NoLoose secs1 ∧ NoAdj secs1 ∧
      ((q = 0 ∧ secs1 = secs ∧ h1 = h ∧
          firstFit (c.U + enforce_minimum_allocation_size c size) c.base secs = 0) ∨
       (∃ p fpu, q = p + c.U ∧ c.base ≤ p ∧
          c.U + enforce_minimum_allocation_size c size ≤ fpu ∧
          (∀ x, x ∈ usedSecs c.base secs1 ↔ x = (p, fpu) ∨ x ∈ usedSecs c.base secs) ∧
          ∃ pre fp post, secs = pre ++ Sec.free fp :: post ∧ p = c.base + span pre ∧
            firstFit (c.U + enforce_minimum_allocation_size c size) c.base secs = p ∧
            secs1 = pre ++ shrinkHead c fp (enforce_minimum_allocation_size c size) post)) := by
  have hb := enforce_bounds c hc size hsz
  have hlen := (Tiled_len c hc h secs [] (by rw [List.append_nil]; exact ht)).1
  have hw := free_walk_loop_spec c hc.2.2.1 h.mem (enforce_minimum_allocation_size c size) hb.2
    secs c.fuel h.first_free c.base (c.base + c.SIZE) hc.2.2.2.2.2.1
    (by have := hc.2.2.2.2.2.2; omega) hlen ht
  have hei : ensure_init c h = h := by unfold ensure_init; rw [if_pos hinit]
  unfold allocate
  simp only [hei, free_walk, hw, bind, Option.bind, pure]
  rcases firstFit_split (c.U + enforce_minimum_allocation_size c size) secs c.base with e0 | ⟨pre, fp, post, e1, e2, e3⟩
  · rw [e0, if_neg (by simp)]
    exact ⟨h, 0, secs, rfl, hinit, ht, hnl, hna, Or.inl ⟨rfl, rfl, rfl, rfl⟩⟩
  · have hbase := hc.2.2.2.2.2.1
    rw [e2, if_pos (by omega)]
    subst e1
    obtain ⟨h1, r1, t1, i1⟩ := free_remove_spec c hc h pre post fp ht
    have t2 := free_to_used_spec c hc h1 pre post fp t1
    obtain ⟨h3, r3, t3, i3⟩ := used_shrink_spec c hc _ pre post fp
      (enforce_minimum_allocation_size c size) hb.1 hb.2 t2
    obtain ⟨fpu, rest, es, esp, efp, eus, enl, ena⟩ :=
      shrinkHead_eq c fp (enforce_minimum_allocation_size c size) post
    rw [es] at t3
    rw [NoLoose_append, NoLoose_cons] at hnl
    have hna2 := NoAdj_parts pre _ post hna
    rw [r1]
    simp only [r3]
    refine ⟨h3, _, pre ++ Sec.used fpu :: rest, rfl, ?_, t3, ?_, ?_, Or.inr ⟨c.base + span pre, fpu,
      rfl, by omega, ?_, ?_, pre, fp, post, rfl, rfl, rfl, by rw [es]⟩⟩
    · rw [i3]
      show (free_to_used c h1 (c.base + span pre)).initialized = true
      unfold free_to_used
      simp only [i1, hinit]
    · rw [NoLoose_append, NoLoose_cons]
      exact ⟨hnl.1, fun _ hh => Sec.noConfusion hh, enl hnl.2.2⟩
    · exact NoAdj_used_mid pre rest fpu hna2.1 (ena hna2.2)
    · rcases efp with rfl | ⟨rfl, _⟩
      · exact e3
      · exact le_refl _
    · intro x
      rw [usedSecs_append, usedSecs_append]
      simp only [usedSecs, List.mem_append, List.mem_cons, eus]
      tauto


theorem usedSecs_lt (xs : List Sec) (hpos : ∀ s ∈ xs, 0 < s.fp) :
    ∀ a x, x ∈ usedSecs a xs → a ≤ x.1 ∧ x.1 < a + span xs := by
  induction xs with
  | nil => intro a x hx; cases hx
  | cons s r ih =>
    intro a x hx
    have h0 := hpos s (List.mem_cons_self _ _)
    have ih2 := ih (fun t ht => hpos t (List.mem_cons_of_mem _ ht))
    cases s with
    | used fp =>
      simp only [usedSecs, List.mem_cons] at hx
      simp only [span, Sec.fp] at h0 ⊢
      rcases hx with rfl | hx
      · simp only; omega
      · have := ih2 _ _ hx; omega
    | free fp =>
      simp only [usedSecs] at hx
      simp only [span, Sec.fp] at h0 ⊢
      have := ih2 _ _ hx; omega
    | loose fp =>
      simp only [usedSecs] at hx
      simp only [span, Sec.fp] at h0 ⊢
      have := ih2 _ _ hx; omega

theorem Tiled_pos (c : Cfg) (hc : c.Valid) (h : Heap) (secs : List Sec) (ht : Tiled c h secs) :
    ∀ s ∈ secs, 0 < s.fp := by
  intro s hs
  have := Seg_fp c h.mem _ _ _ _ _ ht s hs
  have := hc.2.2.1
  omega

theorem usedSecs_around (pre post : List Sec) (a fp : Nat) (hpos : ∀ s ∈ pre, 0 < s.fp)
    (hfp : 0 < fp) (x : Nat × Nat) :
    (x ∈ usedSecs a pre ∨ x ∈ usedSecs (a + span pre + fp) post) ↔
      (x ∈ usedSecs a (pre ++ Sec.used fp :: post) ∧ x.1 ≠ a + span pre) := by
  rw [usedSecs_append]
  simp only [usedSecs, List.mem_append, List.mem_cons]
  constructor
  · rintro (h1 | h1)
    · have := usedSecs_lt pre hpos a x h1
      exact ⟨Or.inl h1, by omega⟩
    · have := usedSecs_bounds post _ x h1
      exact ⟨Or.inr (Or.inr h1), by omega⟩
  · rintro ⟨h1 | h1 | h1, h2⟩
    · exact Or.inl h1
    · subst h1; exact absurd rfl h2
    · exact Or.inr h1

theorem shrink_step (c : Cfg) (hc : c.Valid) (h : Heap) (secs : List Sec) (p fp n : Nat)
    (hn1 : c.F ≤ c.U + n) (hn2 : c.U + n < 2 ^ 64) (ht : Tiled c h secs) (hnl : NoLoose secs)
    (hna : NoAdj secs) (hx : (p, fp) ∈ usedSecs c.base secs) :
    ∃ h1 secs1 fpu, used_shrink c h p n = some h1 ∧ h1.initialized = h.initialized ∧
      Tiled c h1 secs1 ∧ NoLoose secs1 ∧ NoAdj secs1 ∧ (fpu = fp ∨ fpu = c.U + n) ∧
      (∀ x, x ∈ usedSecs c.base secs1 ↔ x = (p, fpu) ∨ (x ∈ usedSecs c.base secs ∧ x.1 ≠ p)) ∧
      ∀ x ∈ starts c.base secs1, x ∈ starts c.base secs ∨ x = p + c.U + n := by
  obtain ⟨pre, post, e1, e2⟩ := usedSecs_split secs c.base _ hx
  simp only at e1 e2
  subst e1 e2
  have hpos := Tiled_pos c hc h _ ht
  obtain ⟨h3, r3, t3, i3⟩ := used_shrink_spec c hc h pre post fp n hn1 hn2 ht
  obtain ⟨fpu, rest, es, esp, efp, eus, enl, ena⟩ := shrinkHead_eq c fp n post
  rw [es] at t3
  rw [NoLoose_append, NoLoose_cons] at hnl
  have hna2 := NoAdj_parts pre _ post hna
  refine ⟨h3, pre ++ Sec.used fpu :: rest, fpu, r3, i3, t3, ?_, ?_, ?_, ?_, ?_⟩
  rotate_right
  · apply starts_mid_or
    intro y hy
    rw [← es] at hy
    exact shrinkHead_starts c fp n post _ y hy
  · rw [NoLoose_append, NoLoose_cons]
    exact ⟨hnl.1, fun _ hh => Sec.noConfusion hh, enl hnl.2.2⟩
  · exact NoAdj_used_mid pre rest fpu hna2.1 (ena hna2.2)
  · rcases efp with e | e
    · exact Or.inl e
    · exact Or.inr e.1
  · intro x
    rw [← usedSecs_around pre post c.base fp (fun s hs => hpos s (List.mem_append_left _ hs))
      (hpos (Sec.used fp) (by simp)) x, usedSecs_append]
    simp only [usedSecs, List.mem_append, List.mem_cons, eus]
    tauto

theorem internal_free_spec (c : Cfg) (hc : c.Valid) (h : Heap) (secs : List Sec) (p fp : Nat)
    (hinit : h.initialized = true) (ht : Tiled c h secs) (hnl : NoLoose secs) (hna : NoAdj secs)
    (hx : (p, fp) ∈ usedSecs c.base secs) :
    ∃ h1 secs1, internal_free c h (p + c.U) = some (h1, 0) ∧ h1.initialized = true ∧
      Tiled c h1 secs1 ∧ NoLoose secs1 ∧ NoAdj secs1 ∧
      (∀ x, x ∈ usedSecs c.base secs1 ↔ (x ∈ usedSecs c.base secs ∧ x.1 ≠ p)) ∧
      ∀ x ∈ starts c.base secs1, x ∈ starts c.base secs := by
  obtain ⟨pre, post, e1, e2⟩ := usedSecs_split secs c.base _ hx
  simp only at e1 e2
  subst e1 e2
  have hpos := Tiled_pos c hc h _ ht
  have hbd := Tiled_bounds c h pre _ post ht
  obtain ⟨h2, h3, secs1, r1, r2, t3, nl3, na3, us3, i3, st3⟩ :=
    free_step_spec c hc h pre post fp ht hnl hna
  have hei : ensure_init c h = h := by unfold ensure_init; rw [if_pos hinit]
  have hsub : sub64 (c.base + span pre + c.U) c.U = c.base + span pre := by
    obtain ⟨_, hU, hF, hUF, hFS, hb, hsize⟩ := hc
    simp only [Sec.fp] at hbd
    unfold sub64
    omega
  refine ⟨h3, secs1, ?_, by rw [i3]; exact hinit, t3, nl3, na3, ?_, st3⟩
  · unfold internal_free
    have hb := hc.2.2.2.2.2.1
    simp only [hei, hsub, bind, Option.bind, pure]
    rw [if_pos (by omega)]
    simp only [r1, r2]
  · intro x
    rw [us3, List.mem_append]
    exact usedSecs_around pre post c.base fp (fun s hs => hpos s (List.mem_append_left _ hs))
      (hpos (Sec.used fp) (by simp)) x


theorem Tiled_free_at (c : Cfg) (hc : c.Valid) (h : Heap) (pre post : List Sec) (fp : Nat)
    (ht : Tiled c h (pre ++ Sec.free fp :: post)) :
    size_of h.mem (c.base + span pre) = fp - c.F ∧
      SECTION_SIZE_free c h.mem (c.base + span pre) = fp ∧
      SECTION_AFTER_free c h.mem (c.base + span pre) = c.base + span pre + fp := by
  obtain ⟨_, hU, hF, hUF, _, hb, hsz⟩ := hc
  have hbd := Tiled_bounds c h pre _ post ht
  simp only [Sec.fp] at hbd
  unfold Tiled at ht
  rw [Seg_append] at ht
  obtain ⟨nm, _, s2⟩ := ht
  simp only [Seg] at s2
  refine ⟨s2.2.2.1, ?_, ?_⟩
  · unfold SECTION_SIZE_free add64; rw [s2.2.2.1]; omega
  · unfold SECTION_AFTER_free add64; rw [s2.2.2.1]; omega

theorem Tiled_used_at (c : Cfg) (hc : c.Valid) (h : Heap) (pre post : List Sec) (fp : Nat)
    (ht : Tiled c h (pre ++ Sec.used fp :: post)) :
    size_of h.mem (c.base + span pre) = fp - c.U ∧
      SECTION_SIZE_used c h.mem (c.base + span pre) = fp ∧
      SECTION_AFTER_used c h.mem (c.base + span pre) = c.base + span pre + fp := by
  obtain ⟨_, hU, hF, hUF, _, hb, hsz⟩ := hc
  have hbd := Tiled_bounds c h pre _ post ht
  simp only [Sec.fp] at hbd
  unfold Tiled at ht
  rw [Seg_append] at ht
  obtain ⟨nm, _, s2⟩ := ht
  simp only [Seg] at s2
  refine ⟨s2.2.1, ?_, ?_⟩
  · unfold SECTION_SIZE_used add64; rw [s2.2.1]; omega
  · unfold SECTION_AFTER_used add64; rw [s2.2.1]; omega

theorem take_step (c : Cfg) (hc : c.Valid) (h : Heap) (pre post : List Sec) (fp : Nat)
    (ht : Tiled c h (pre ++ Sec.free fp :: post)) (hnl : NoLoose (pre ++ Sec.free fp :: post))
    (hna : NoAdj (pre ++ Sec.free fp :: post)) :
    ∃ h1, free_remove c h (c.base + span pre) = some h1 ∧
      (free_to_used c h1 (c.base + span pre)).initialized = h.initialized ∧
      Tiled c (free_to_used c h1 (c.base + span pre)) (pre ++ Sec.used fp :: post) ∧
      NoLoose (pre ++ Sec.used fp :: post) ∧ NoAdj (pre ++ Sec.used fp :: post) ∧
      ∀ x, x ∈ usedSecs c.base (pre ++ Sec.used fp :: post) ↔
        x = (c.base + span pre, fp) ∨ x ∈ usedSecs c.base (pre ++ Sec.free fp :: post) := by
  obtain ⟨h1, r1, t1, i1⟩ := free_remove_spec c hc h pre post fp ht
  have t2 := free_to_used_spec c hc h1 pre post fp t1
  rw [NoLoose_append, NoLoose_cons] at hnl
  have hna2 := NoAdj_parts pre _ post hna
  refine ⟨h1, r1, ?_, t2, ?_, NoAdj_used_mid pre post fp hna2.1 hna2.2, ?_⟩
  · unfold free_to_used
    exact i1
  · rw [NoLoose_append, NoLoose_cons]
    exact ⟨hnl.1, fun _ hh => Sec.noConfusion hh, hnl.2.2⟩
  · intro x
    rw [usedSecs_append, usedSecs_append]
    simp only [usedSecs, List.mem_append, List.mem_cons]
    tauto

theorem memmove_payload_frame (c : Cfg) (hc : c.Valid) (h : Heap) (secs : List Sec) (p fp : Nat)
    (src n : Nat) (hn : c.U + n ≤ fp) (ht : Tiled c h secs)
    (hx : (p, fp) ∈ usedSecs c.base secs) :
    Tiled c (Heap.mk (memmove h.mem (p + c.U) src n) h.first_free h.initialized) secs := by
  obtain ⟨pre, post, e1, e2⟩ := usedSecs_split secs c.base _ hx
  simp only at e1 e2
  subst e1 e2
  have hU := hc.2.1
  refine Tiled_replace c hc h _ pre [Sec.used fp] [Sec.used fp] post ht rfl rfl ?_ ?_
  · intro x hx2
    simp only [span, Sec.fp] at hx2
    exact memmove_out _ _ _ _ x (by omega)
  · intro nf ne hs
    simp only [Seg, span, Sec.fp] at hs ⊢
    refine ⟨hs.1, ?_, hs.2.2⟩
    rw [← hs.2.1]
    exact rd64_congr _ _ _ (fun x h1 h2 => memmove_out _ _ _ _ x (by omega))

theorem relocate_spec (c : Cfg) (hc : c.Valid) (h : Heap) (pre post : List Sec) (fpd p fp n : Nat)
    (hn : c.U + n ≤ fpd) (hinit : h.initialized = true)
    (ht : Tiled c h (pre ++ Sec.free fpd :: post)) (hnl : NoLoose (pre ++ Sec.free fpd :: post))
    (hna : NoAdj (pre ++ Sec.free fpd :: post))
    (hx : (p, fp) ∈ usedSecs c.base (pre ++ Sec.free fpd :: post)) :
    ∃ h1 secs1, relocate c h (c.base + span pre) p n = some h1 ∧ h1.initialized = true ∧
      Tiled c h1 secs1 ∧ NoLoose secs1 ∧ NoAdj secs1 ∧
      (∀ x, x ∈ usedSecs c.base secs1 ↔ x = (c.base + span pre, fpd) ∨
        (x ∈ usedSecs c.base (pre ++ Sec.free fpd :: post) ∧ x.1 ≠ p)) ∧
      ∀ x ∈ starts c.base secs1, x ∈ starts c.base (pre ++ Sec.free fpd :: post) := by
  have hpos := Tiled_pos c hc h _ ht
  obtain ⟨h1, r1, i2, t2, nl2, na2, us2⟩ := take_step c hc h pre post fpd ht hnl hna
  have hdest : (c.base + span pre, fpd) ∈ usedSecs c.base (pre ++ Sec.used fpd :: post) :=
    usedSecs_mem pre post c.base fpd
  have hsrc : (p, fp) ∈ usedSecs c.base (pre ++ Sec.used fpd :: post) := (us2 _).mpr (Or.inr hx)
  have hpne : p ≠ c.base + span pre := by
    rw [usedSecs_append] at hx
    simp only [usedSecs, List.mem_append] at hx
    rcases hx with hx | hx
    · have := usedSecs_lt pre (fun s hs => hpos s (List.mem_append_left _ hs)) _ _ hx
      simp only at this
      omega
    · have := usedSecs_bounds post _ _ hx
      have := hpos (Sec.free fpd) (by simp)
      simp only [Sec.fp] at *
      omega
  obtain ⟨pre2, post2, e1, e2⟩ := usedSecs_split _ c.base _ hsrc
  simp only at e1 e2
  subst e2
  have t3 := memmove_payload_frame c hc _ _ _ _ (c.base + span pre2 + c.U)
    (min n (size_of (free_to_used c h1 (c.base + span pre)).mem (c.base + span pre2)))
    (le_trans (Nat.add_le_add_left (Nat.min_le_left _ _) _) hn) t2 hdest
  rw [e1] at t3 nl2 na2 us2
  have hpos3 := Tiled_pos c hc _ _ t3
  obtain ⟨h4, h5, secs1, r4, r5, t5, nl5, na5, us5, i5, st5⟩ :=
    free_step_spec c hc _ pre2 post2 fp t3 nl2 na2
  refine ⟨h5, secs1, ?_, ?_, t5, nl5, na5, ?_, ?_⟩
  rotate_right
  · intro x hx
    rw [← starts_kind, e1]
    exact st5 x hx
  · unfold relocate
    simp only [r1, bind, Option.bind]
    simp only [r4, r5]
  · rw [i5]
    show (free_to_used c h1 (c.base + span pre)).initialized = true
    rw [i2, hinit]
  · intro x
    rw [us5, List.mem_append,
      usedSecs_around pre2 post2 c.base fp (fun s hs => hpos3 s (List.mem_append_left _ hs))
        (hpos3 (Sec.used fp) (by simp)) x, us2 x]
    constructor
    · rintro ⟨h1 | h1, h2⟩
      · exact Or.inl h1
      · exact Or.inr ⟨h1, h2⟩
    · rintro (h1 | ⟨h1, h2⟩)
      · subst h1
        exact ⟨Or.inl rfl, fun hh => hpne hh.symm⟩
      · exact ⟨Or.inr h1, h2⟩

theorem freeAddrs_append (xs ys : List Sec) :
    ∀ a, freeAddrs a (xs ++ ys) = freeAddrs a xs ++ freeAddrs (a + span xs) ys := by
  induction xs with
  | nil => intro a; simp [freeAddrs, span]
  | cons s r ih =>
    intro a
    cases s <;> rw [List.cons_append] <;> simp only [freeAddrs, span, Sec.fp, ih, List.cons_append,
      Nat.add_assoc]

theorem freeAddrs_after (c : Cfg) (hc : c.Valid) (h : Heap) (pre post : List Sec) (fp : Nat)
    (ht : Tiled c h (pre ++ Sec.used fp :: post)) :
    (c.base + span pre + fp ∈ freeAddrs c.base (pre ++ Sec.used fp :: post)) ↔
      headFree post = true := by
  have hF := hc.2.2.1
  have hfp := Seg_fp c h.mem _ _ _ _ _ ht
  have hpre : ∀ s ∈ pre, c.F ≤ s.fp := fun s hs => hfp s (List.mem_append_left _ hs)
  have hpost : ∀ s ∈ post, c.F ≤ s.fp :=
    fun s hs => hfp s (List.mem_append_right _ (List.mem_cons_of_mem _ hs))
  rw [freeAddrs_append]
  simp only [freeAddrs, List.mem_append]
  constructor
  · rintro (h1 | h1)
    · have := freeAddrs_bounds c pre c.base hpre _ h1
      omega
    · cases post with
      | nil => cases h1
      | cons s r =>
        have hr : ∀ t ∈ r, c.F ≤ t.fp := fun t ht => hpost t (List.mem_cons_of_mem _ ht)
        have hs := hpost s (List.mem_cons_self _ _)
        cases s with
        | free f2 => rfl
        | used f2 =>
          simp only [freeAddrs] at h1
          have := freeAddrs_bounds c r _ hr _ h1
          simp only [Sec.fp] at hs
          omega
        | loose f2 =>
          simp only [freeAddrs] at h1
          have := freeAddrs_bounds c r _ hr _ h1
          simp only [Sec.fp] at hs
          omega
  · intro hh
    right
    cases post with
    | nil => cases hh
    | cons s r =>
      cases s with
      | free f2 => simp [freeAddrs]
      | used f2 => cases hh
      | loose f2 => cases hh

theorem in_free_list_spec (c : Cfg) (hc : c.Valid) (h : Heap) (pre post : List Sec) (fp : Nat)
    (ht : Tiled c h (pre ++ Sec.used fp :: post)) :
    in_free_list c h (c.base + span pre + fp) = some (headFree post) := by
  have hlen := (Tiled_len c hc h _ [] (by rw [List.append_nil]; exact ht)).1
  have := in_free_list_loop_spec c hc.2.2.1 h.mem (c.base + span pre + fp) _ c.fuel
    h.first_free c.base _ false hc.2.2.2.2.2.1 hlen ht
  unfold in_free_list
  rw [this]
  simp only [Bool.false_or, Option.some.injEq]
  have hiff := freeAddrs_after c hc h pre post fp ht
  cases hh : headFree post with
  | true => rw [decide_eq_true_eq]; exact hiff.mpr hh
  | false =>
    rw [decide_eq_false_iff_not]
    intro hm
    rw [hiff.mp hm] at hh
    cases hh

theorem extend_up_step (c : Cfg) (hc : c.Valid) (h : Heap) (pre post : List Sec) (fp fp2 : Nat)
    (ht : Tiled c h (pre ++ Sec.used fp :: Sec.free fp2 :: post))
    (hnl : NoLoose (pre ++ Sec.used fp :: Sec.free fp2 :: post))
    (hna : NoAdj (pre ++ Sec.used fp :: Sec.free fp2 :: post)) :
    ∃ h1, free_remove c h (c.base + span pre + fp) = some h1 ∧
      (used_extend_up c h1 (c.base + span pre)).initialized = h.initialized ∧
      Tiled c (used_extend_up c h1 (c.base + span pre)) (pre ++ Sec.used (fp + fp2) :: post) ∧
      NoLoose (pre ++ Sec.used (fp + fp2) :: post) ∧
      NoAdj (pre ++ Sec.used (fp + fp2) :: post) ∧
      ∀ x, x ∈ usedSecs c.base (pre ++ Sec.used (fp + fp2) :: post) ↔
        x = (c.base + span pre, fp + fp2) ∨
        (x ∈ usedSecs c.base (pre ++ Sec.used fp :: Sec.free fp2 :: post) ∧
          x.1 ≠ c.base + span pre) := by
  have hpos := Tiled_pos c hc h _ ht
  have ht2 : Tiled c h ((pre ++ [Sec.used fp]) ++ Sec.free fp2 :: post) := by
    rw [List.append_assoc]; exact ht
  have hsp : c.base + span (pre ++ [Sec.used fp]) = c.base + span pre + fp := by
    rw [span_append]; simp only [span, Sec.fp]; omega
  obtain ⟨h1, r1, t1, i1⟩ := free_remove_spec c hc h _ post fp2 ht2
  rw [hsp] at r1
  rw [List.append_assoc] at t1
  have t2 := used_extend_up_spec c hc h1 pre post fp fp2 t1
  rw [NoLoose_append, NoLoose_cons, NoLoose_cons] at hnl
  have hna1 := NoAdj_parts pre _ _ hna
  have hna2 : NoAdj post := hna1.2.2
  refine ⟨h1, r1, ?_, t2, ?_, NoAdj_used_mid pre post _ hna1.1 hna2, ?_⟩
  · unfold used_extend_up
    exact i1
  · rw [NoLoose_append, NoLoose_cons]
    exact ⟨hnl.1, fun _ hh => Sec.noConfusion hh, hnl.2.2.2⟩
  · intro x
    rw [← usedSecs_around pre (Sec.free fp2 :: post) c.base fp
      (fun s hs => hpos s (List.mem_append_left _ hs)) (hpos (Sec.used fp) (by simp)) x,
      usedSecs_append]
    simp only [usedSecs, List.mem_append, List.mem_cons, Nat.add_assoc]
    tauto

theorem extend_down_step (c : Cfg) (hc : c.Valid) (h : Heap) (pre post : List Sec)
    (g fp n : Nat) (hn : c.U + n < 2 ^ 64)
    (ht : Tiled c h (pre ++ Sec.free g :: Sec.used fp :: post))
    (hnl : NoLoose (pre ++ Sec.free g :: Sec.used fp :: post))
    (hna : NoAdj (pre ++ Sec.free g :: Sec.used fp :: post)) :
    ∃ h1, free_remove c h (c.base + span pre) = some h1 ∧
      (used_extend_down c h1 (c.base + span pre) (c.base + span pre + g) n).initialized
        = h.initialized ∧
      Tiled c (used_extend_down c h1 (c.base + span pre) (c.base + span pre + g) n)
        (pre ++ Sec.used (g + fp) :: post) ∧
      NoLoose (pre ++ Sec.used (g + fp) :: post) ∧
      NoAdj (pre ++ Sec.used (g + fp) :: post) ∧
      ∀ x, x ∈ usedSecs c.base (pre ++ Sec.used (g + fp) :: post) ↔
        x = (c.base + span pre, g + fp) ∨
        (x ∈ usedSecs c.base (pre ++ Sec.free g :: Sec.used fp :: post) ∧
          x.1 ≠ c.base + span pre + g) := by
  have hpos := Tiled_pos c hc h _ ht
  obtain ⟨h1, r1, t1, i1⟩ := free_remove_spec c hc h pre _ g ht
  have t2 := used_extend_down_spec c hc h1 pre post g fp n hn t1
  rw [NoLoose_append, NoLoose_cons, NoLoose_cons] at hnl
  have hna1 := NoAdj_parts pre _ _ hna
  have hna2 : NoAdj post := hna1.2.2
  have hsp : c.base + span (pre ++ [Sec.free g]) = c.base + span pre + g := by
    rw [span_append]; simp only [span, Sec.fp]; omega
  have hpos2 : ∀ s ∈ pre ++ [Sec.free g], 0 < s.fp := by
    intro s hs
    apply hpos s
    rcases List.mem_append.mp hs with h1 | h1
    · exact List.mem_append_left _ h1
    · exact List.mem_append_right _ (by
        rw [List.mem_singleton] at h1; rw [h1]; exact List.mem_cons_self _ _)
  refine ⟨h1, r1, ?_, t2, ?_, NoAdj_used_mid pre post _ hna1.1 hna2, ?_⟩
  · unfold used_extend_down
    exact i1
  · rw [NoLoose_append, NoLoose_cons]
    exact ⟨hnl.1, fun _ hh => Sec.noConfusion hh, hnl.2.2.2⟩
  · intro x
    have key := usedSecs_around (pre ++ [Sec.free g]) post c.base fp hpos2
      (hpos (Sec.used fp) (by simp)) x
    rw [List.append_assoc, span_append] at key
    simp only [span, Sec.fp, Nat.add_zero, List.singleton_append, ← Nat.add_assoc] at key
    rw [← key, usedSecs_append, usedSecs_append]
    simp only [usedSecs, List.mem_append, List.mem_cons, Nat.add_assoc, List.append_nil,
      span, Sec.fp, Nat.add_zero]
    tauto

theorem usedSecs_self (pre post : List Sec) (a fp : Nat) (hpos : ∀ s ∈ pre, 0 < s.fp)
    (hfp : 0 < fp) (x : Nat × Nat) :
    x ∈ usedSecs a (pre ++ Sec.used fp :: post) ↔
      x = (a + span pre, fp) ∨ (x ∈ usedSecs a (pre ++ Sec.used fp :: post) ∧
        x.1 ≠ a + span pre ∧ x.1 ≠ a + span pre) := by
  have key := usedSecs_around pre post a fp hpos hfp x
  constructor
  · intro hx
    by_cases he : x.1 = a + span pre
    · left
      rw [usedSecs_append] at hx
      simp only [usedSecs, List.mem_append, List.mem_cons] at hx
      rcases hx with h1 | h1 | h1
      · have := usedSecs_lt pre hpos a x h1; omega
      · exact h1
      · have := usedSecs_bounds post _ x h1; omega
    · exact Or.inr ⟨hx, he, he⟩
  · rintro (h1 | h1)
    · rw [h1]; exact usedSecs_mem pre post a fp
    · exact h1.1

theorem relocate_fit_spec (c : Cfg) (hc2 : c.Valid) (h : Heap) (pre post : List Sec)
    (fp n : Nat) (hinit : h.initialized = true)
    (ht : Tiled c h (pre ++ Sec.used fp :: post)) (hnl : NoLoose (pre ++ Sec.used fp :: post))
    (hna : NoAdj (pre ++ Sec.used fp :: post))
    (hne : firstFit (c.U + n) c.base (pre ++ Sec.used fp :: post) ≠ 0) :
      ∃ h1 secs1, relocate c h (firstFit (c.U + n) c.base (pre ++ Sec.used fp :: post))
          (c.base + span pre) n = some h1 ∧ h1.initialized = true ∧ Tiled c h1 secs1 ∧
        NoLoose secs1 ∧ NoAdj secs1 ∧ ∃ f1,
          (firstFit (c.U + n) c.base (pre ++ Sec.used fp :: post), f1) ∈ usedSecs c.base secs1 ∧
          c.U + n ≤ f1 ∧
          (∀ x, x ∈ usedSecs c.base secs1 ↔
            x = (firstFit (c.U + n) c.base (pre ++ Sec.used fp :: post), f1) ∨
            (x ∈ usedSecs c.base (pre ++ Sec.used fp :: post) ∧ x.1 ≠ c.base + span pre ∧
              x.1 ≠ firstFit (c.U + n) c.base (pre ++ Sec.used fp :: post))) ∧
          (firstFit (c.U + n) c.base (pre ++ Sec.used fp :: post), f1)
            ∈ freeSecs c.base (pre ++ Sec.used fp :: post) ∧
          ∀ x ∈ starts c.base secs1, x ∈ starts c.base (pre ++ Sec.used fp :: post) := by
  have hpos := Tiled_pos c hc2 h _ ht
  have hx : (c.base + span pre, fp) ∈ usedSecs c.base (pre ++ Sec.used fp :: post) :=
    usedSecs_mem pre post c.base fp
  rcases firstFit_split (c.U + n) (pre ++ Sec.used fp :: post) c.base with e0 | ⟨A1, fpd, A2, e1, e2, e3⟩
  · exact absurd e0 hne
  · rw [e2]
    rw [e1] at ht hnl hna hx hpos
    obtain ⟨h1, secs1, r1, i1, t1, nl1, na1, us1, st1⟩ :=
      relocate_spec c hc2 h A1 A2 fpd _ fp n e3 hinit ht hnl hna hx
    refine ⟨h1, secs1, r1, i1, t1, nl1, na1, fpd, (us1 _).mpr (Or.inl rfl), e3, ?_,
      by rw [e1]; exact freeSecs_mem A1 A2 c.base fpd, by rw [e1]; exact st1⟩
    intro x
    rw [us1 x, e1]
    constructor
    · rintro (hh | ⟨hh1, hh2⟩)
      · exact Or.inl hh
      · by_cases he : x.1 = c.base + span A1
        · exfalso
          rw [usedSecs_append] at hh1
          simp only [usedSecs, List.mem_append] at hh1
          rcases hh1 with hh1 | hh1
          · have := usedSecs_lt A1 (fun s hs => hpos s (List.mem_append_left _ hs)) _ _ hh1
            omega
          · have := usedSecs_bounds A2 _ _ hh1
            have := hpos (Sec.free fpd) (by simp)
            simp only [Sec.fp] at this
            omega
        · exact Or.inr ⟨hh1, hh2, he⟩
    · rintro (hh | ⟨hh1, hh2, _⟩)
      · exact Or.inl hh
      · exact Or.inr ⟨hh1, hh2⟩

theorem reallocate_move_spec (c : Cfg) (hc : c.Valid) (h : Heap) (pre post : List Sec)
    (fp n : Nat) (hn1 : c.F ≤ c.U + n) (hn2 : c.U + n < 2 ^ 64) (hinit : h.initialized = true)
    (ht : Tiled c h (pre ++ Sec.used fp :: post)) (hnl : NoLoose (pre ++ Sec.used fp :: post))
    (hna : NoAdj (pre ++ Sec.used fp :: post)) :
    ∃ h1 q secs1, reallocate_move c h (c.base + span pre) n = some (h1, q) ∧
      h1.initialized = true ∧ Tiled c h1 secs1 ∧ NoLoose secs1 ∧ NoAdj secs1 ∧
      ((q = 0 ∧ h1 = h ∧ secs1 = pre ++ Sec.used fp :: post) ∨
       (q ≠ 0 ∧ ∃ f1, (q, f1) ∈ usedSecs c.base secs1 ∧ c.U + n ≤ f1 ∧
          (∀ x, x ∈ usedSecs c.base secs1 ↔ x = (q, f1) ∨
            (x ∈ usedSecs c.base (pre ++ Sec.used fp :: post) ∧
              x.1 ≠ c.base + span pre ∧ x.1 ≠ q)) ∧
          ∀ x ∈ starts c.base secs1, x ∈ starts c.base (pre ++ Sec.used fp :: post))) := by
  have hc2 := hc
  obtain ⟨_, hU, hF, hUF, hFS, hb, hsize⟩ := hc
  have hpos := Tiled_pos c hc2 h _ ht
  have hbd := Tiled_bounds c h pre _ post ht
  simp only [Sec.fp] at hbd
  have hx : (c.base + span pre, fp) ∈ usedSecs c.base (pre ++ Sec.used fp :: post) :=
    usedSecs_mem pre post c.base fp
  have hlen := (Tiled_len c hc2 h _ [] (by rw [List.append_nil]; exact ht)).1
  have hw : free_walk c h n = some (firstFit (c.U + n) c.base (pre ++ Sec.used fp :: post)) :=
    free_walk_loop_spec c hF h.mem n hn2 _ c.fuel h.first_free c.base (c.base + c.SIZE) hb
      (by omega) hlen ht
  have hfb := find_free_below_spec c hc2 h pre _ post ht
  obtain ⟨hsz, hss, hsa⟩ := Tiled_used_at c hc2 h pre post fp ht
  have hifl := in_free_list_spec c hc2 h pre post fp ht
  unfold reallocate_move
  simp only [hw, hfb, bind, Option.bind, pure]
  by_cases c1 : firstFit (c.U + n) c.base (pre ++ Sec.used fp :: post) ≠ 0 ∧
      firstFit (c.U + n) c.base (pre ++ Sec.used fp :: post) < c.base + span pre
  · rw [if_pos c1]
    obtain ⟨h1, secs1, r1, i1, t1, nl1, na1, f1, m1, g1, us1, _, st1⟩ :=
      relocate_fit_spec c hc2 h pre post fp n hinit ht hnl hna c1.1
    simp only [r1]
    exact ⟨h1, _, secs1, rfl, i1, t1, nl1, na1, Or.inr ⟨c1.1, f1, m1, g1, us1, st1⟩⟩
  · rw [if_neg c1]
    by_cases c2 : used_section_can_extend_down c h (lastFree 0 c.base pre) (c.base + span pre) n
        = true
    · rw [if_pos c2]
      unfold used_section_can_extend_down at c2
      simp only [Bool.and_eq_true, decide_eq_true_eq] at c2
      obtain ⟨⟨d1, d2⟩, d3⟩ := c2
      rcases lastFree_split pre 0 c.base with ⟨e1, _⟩ | ⟨x1, g, x2, e1, e2, e3⟩
      · exact absurd e1 d1
      · subst e1
        rw [e2] at d2 d3 ⊢
        have ht2 : Tiled c h (x1 ++ Sec.free g :: (x2 ++ Sec.used fp :: post)) := by
          rw [← List.cons_append, ← List.append_assoc]; exact ht
        obtain ⟨_, fss, fsa⟩ := Tiled_free_at c hc2 h x1 _ g ht2
        rw [fsa, span_append] at d2
        simp only [span, Sec.fp] at d2
        have hx2 : x2 = [] := by
          cases x2 with
          | nil => rfl
          | cons s r =>
            exfalso
            have := hpos s (by simp)
            simp only [span] at d2
            omega
        subst hx2
        have hsp : c.base + span (x1 ++ [Sec.free g]) = c.base + span x1 + g := by
          rw [span_append]; simp only [span, Sec.fp]; omega
        rw [hsp] at hsz d3 ⊢
        rw [fss, hsz] at d3
        have hd3 : c.U + n ≤ g + fp := by
          unfold add64 at d3
          rw [span_append] at hbd
          simp only [span, Sec.fp] at hbd
          omega
        have ht3 : Tiled c h (x1 ++ Sec.free g :: Sec.used fp :: post) := by
          have := ht2; simpa using this
        have hnl3 : NoLoose (x1 ++ Sec.free g :: Sec.used fp :: post) := by
          have := hnl; simpa using this
        have hna3 : NoAdj (x1 ++ Sec.free g :: Sec.used fp :: post) := by
          have := hna; simpa using this
        obtain ⟨h1, r1, i1, t1, nl1, na1, us1⟩ :=
          extend_down_step c hc2 h x1 post g fp n hn2 ht3 hnl3 hna3
        simp only [r1]
        refine ⟨_, _, _, rfl, by rw [i1]; exact hinit, t1, nl1, na1,
          Or.inr ⟨by omega, g + fp, usedSecs_mem x1 post c.base _, hd3, ?_, ?_⟩⟩
        rotate_right
        · rw [List.append_assoc]
          apply starts_mid
          intro y hy
          simp only [starts, Sec.fp, List.mem_cons, List.singleton_append] at hy ⊢
          rcases hy with hy | hy
          · exact Or.inl hy
          · rw [← Nat.add_assoc] at hy
            exact Or.inr (Or.inr hy)
        intro x
        rw [us1 x]
        have e4 : (x1 ++ [Sec.free g]) ++ Sec.used fp :: post
            = x1 ++ Sec.free g :: Sec.used fp :: post := by simp
        rw [e4]
        constructor
        · rintro (hh | ⟨hh1, hh2⟩)
          · exact Or.inl hh
          · by_cases he : x.1 = c.base + span x1
            · exfalso
              rw [usedSecs_append] at hh1
              simp only [usedSecs, List.mem_append, List.mem_cons] at hh1
              rcases hh1 with hh1 | hh1 | hh1
              · have := usedSecs_lt x1 (fun s hs => hpos s (by simp [hs])) _ _ hh1
                omega
              · rw [hh1] at he
                simp only at he
                have := hpos (Sec.free g) (by simp)
                simp only [Sec.fp] at this
                omega
              · have := usedSecs_bounds post _ _ hh1
                have := hpos (Sec.free g) (by simp)
                simp only [Sec.fp] at this
                omega
            · exact Or.inr ⟨hh1, hh2, he⟩
        · rintro (hh | ⟨hh1, hh2, _⟩)
          · exact Or.inl hh
          · exact Or.inr ⟨hh1, hh2⟩
    · rw [if_neg c2]
      by_cases c3 : n ≤ size_of h.mem (c.base + span pre)
      · rw [if_pos c3]
        rw [hsz] at c3
        refine ⟨h, _, _, rfl, hinit, ht, hnl, hna,
          Or.inr ⟨by omega, fp, hx, by omega, ?_, fun _ hh => hh⟩⟩
        intro x
        exact usedSecs_self pre post c.base fp (fun s hs => hpos s (List.mem_append_left _ hs))
          (hpos (Sec.used fp) (by simp)) x
      · rw [if_neg c3]
        have hup : used_section_can_extend_up c h (c.base + span pre) n = some
            (headFree post && decide (n ≤ add64 (size_of h.mem (c.base + span pre))
              (SECTION_SIZE_free c h.mem (c.base + span pre + fp)))) := by
          unfold used_section_can_extend_up
          simp only [hsa, hifl, Option.map_some']
        simp only [hup]
        by_cases c4 : (headFree post && decide (n ≤ add64 (size_of h.mem (c.base + span pre))
              (SECTION_SIZE_free c h.mem (c.base + span pre + fp)))) = true
        · rw [if_pos c4]
          simp only [Bool.and_eq_true, decide_eq_true_eq] at c4
          obtain ⟨d1, d3⟩ := c4
          cases post with
          | nil => cases d1
          | cons s post2 =>
            cases s with
            | used _ => cases d1
            | loose _ => cases d1
            | free fp2 =>
              have ht2 : Tiled c h ((pre ++ [Sec.used fp]) ++ Sec.free fp2 :: post2) := by
                rw [List.append_assoc]; exact ht
              have hsp : c.base + span (pre ++ [Sec.used fp]) = c.base + span pre + fp := by
                rw [span_append]; simp only [span, Sec.fp]; omega
              obtain ⟨_, fss, _⟩ := Tiled_free_at c hc2 h _ _ fp2 ht2
              rw [hsp] at fss
              rw [fss, hsz] at d3
              simp only [span, Sec.fp] at hbd
              have hd3 : c.U + n ≤ fp + fp2 := by
                unfold add64 at d3
                omega
              obtain ⟨h1, r1, i1, t1, nl1, na1, us1⟩ :=
                extend_up_step c hc2 h pre post2 fp fp2 ht hnl hna
              rw [hsa]
              simp only [r1]
              refine ⟨_, _, _, rfl, by rw [i1]; exact hinit, t1, nl1, na1,
                Or.inr ⟨by omega, fp + fp2, usedSecs_mem pre post2 c.base _, hd3, ?_, ?_⟩⟩
              rotate_right
              · apply starts_mid
                intro y hy
                simp only [starts, Sec.fp, List.mem_cons] at hy ⊢
                rcases hy with hy | hy
                · exact Or.inl hy
                · rw [← Nat.add_assoc] at hy
                  exact Or.inr (Or.inr hy)
              intro x
              rw [us1 x]
              tauto
        · rw [if_neg c4]
          by_cases c5 : firstFit (c.U + n) c.base (pre ++ Sec.used fp :: post) ≠ 0
          · rw [if_pos c5]
            obtain ⟨h1, secs1, r1, i1, t1, nl1, na1, f1, m1, g1, us1, _, st1⟩ :=
              relocate_fit_spec c hc2 h pre post fp n hinit ht hnl hna c5
            simp only [r1]
            exact ⟨h1, _, secs1, rfl, i1, t1, nl1, na1, Or.inr ⟨c5, f1, m1, g1, us1, st1⟩⟩
          · rw [if_neg c5]
            exact ⟨h, 0, _, rfl, hinit, ht, hnl, hna, Or.inl ⟨rfl, rfl, rfl⟩⟩

theorem reallocate_spec (c : Cfg) (hc : c.Valid) (h : Heap) (secs : List Sec) (p fp size : Nat)
    (hinit : h.initialized = true) (ht : Tiled c h secs) (hnl : NoLoose secs) (hna : NoAdj secs)
    (hx : (p, fp) ∈ usedSecs c.base secs) (hs0 : size ≠ 0) (hsz : size < 2 ^ 64) :
    ∃ h1 q secs1, reallocate c h (p + c.U) size = some (h1, q) ∧ h1.initialized = true ∧
      Tiled c h1 secs1 ∧ NoLoose secs1 ∧ NoAdj secs1 ∧
      ((q = 0 ∧ h1 = h ∧ secs1 = secs) ∨
       (∃ p1 f1, q = p1 + c.U ∧ c.U + enforce_minimum_allocation_size c size ≤ f1 ∧
          (∀ x, x ∈ usedSecs c.base secs1 ↔ x = (p1, f1) ∨
            (x ∈ usedSecs c.base secs ∧ x.1 ≠ p ∧ x.1 ≠ p1)) ∧
          p1 ∈ starts c.base secs ∧
          ∀ x ∈ starts c.base secs1, x ∈ starts c.base secs ∨
            x = p1 + c.U + enforce_minimum_allocation_size c size)) := by
  have hb := enforce_bounds c hc size hsz
  obtain ⟨pre, post, e1, e2⟩ := usedSecs_split secs c.base _ hx
  simp only at e1 e2
  subst e1 e2
  have hbd := Tiled_bounds c h pre _ post ht
  have hei : ensure_init c h = h := by unfold ensure_init; rw [if_pos hinit]
  have hsub : sub64 (c.base + span pre + c.U) c.U = c.base + span pre := by
    obtain ⟨_, hU, hF, hUF, hFS, hb, hsize⟩ := hc
    simp only [Sec.fp] at hbd
    unfold sub64
    omega
  have hbase := hc.2.2.2.2.2.1
  obtain ⟨h1, q, secs1, r1, i1, t1, nl1, na1, hcase⟩ :=
    reallocate_move_spec c hc h pre post fp _ hb.1 hb.2 hinit ht hnl hna
  unfold reallocate
  simp only [hei, hsub]
  rw [if_neg (by omega), if_neg hs0]
  simp only [r1, bind, Option.bind, pure]
  rcases hcase with ⟨rfl, rfl, rfl⟩ | ⟨hq, f1, m1, g1, us1, st1⟩
  · rw [if_neg (by simp)]
    exact ⟨h1, 0, _, rfl, i1, t1, nl1, na1, Or.inl ⟨rfl, rfl, rfl⟩⟩
  · rw [if_pos hq]
    obtain ⟨h2, secs2, fpu, r2, i2, t2, nl2, na2, efp, us2, st2⟩ :=
      shrink_step c hc h1 secs1 q f1 _ hb.1 hb.2 t1 nl1 na1 m1
    simp only [r2]
    refine ⟨h2, _, secs2, rfl, by rw [i2]; exact i1, t2, nl2, na2, Or.inr ⟨q, fpu, rfl, ?_, ?_,
      st1 _ (usedSecs_starts _ _ _ m1), ?_⟩⟩
    rotate_right
    · intro x hx
      rcases st2 x hx with hh | hh
      · exact Or.inl (st1 x hh)
      · exact Or.inr hh
    · rcases efp with rfl | rfl
      · exact g1
      · exact le_refl _
    · intro x
      rw [us2 x, us1 x]
      constructor
      · rintro (hh | ⟨hh | hh, hh2⟩)
        · exact Or.inl hh
        · rw [hh] at hh2; exact absurd rfl hh2
        · exact Or.inr hh
      · rintro (hh | hh)
        · exact Or.inl hh
        · exact Or.inr ⟨Or.inr hh, hh.2.2⟩

theorem usedPtrs_mem (c : Cfg) (a : Nat) (xs : List Sec) (q : Nat) :
    q ∈ usedPtrs c a xs ↔ ∃ x, x ∈ usedSecs a xs ∧ q = x.1 + c.U := by
  rw [usedPtrs_eq, List.mem_map]
  constructor
  · rintro ⟨x, h1, h2⟩; exact ⟨x, h1, h2.symm⟩
  · rintro ⟨x, h1, h2⟩; exact ⟨x, h1, h2.symm⟩

theorem initialise_tiled (c : Cfg) (hc : c.Valid) (h : Heap) :
    Tiled c (initialise c h) [Sec.free c.SIZE] := by
  obtain ⟨_, hU, hF, hUF, hFS, hb, hsize⟩ := hc
  unfold Tiled initialise
  simp only [Seg]
  refine ⟨hFS, trivial, ?_, trivial, ?_⟩
  · simp only [size_of]
    rw [rd64_wr64_other _ _ _ _ (Or.inl (le_refl _)), rd64_wr64_same _ _ _ (by unfold sub64; omega)]
    unfold sub64
    omega
  · simp only [next_ptr]
    exact rd64_wr64_same _ _ _ (by omega)

theorem starts_mem_mid (pre : List Sec) (s : Sec) (post : List Sec) (a : Nat) :
    a + span pre ∈ starts a (pre ++ s :: post) := by
  rw [starts_append]
  simp [starts]

theorem step_bounds (c : Cfg) (hc : c.Valid) (s : Sys) (secs : List Sec) (hI : Inv c s secs)
    (op : Op) (hok : op.ok s) :
    ∃ s1 secs1, op.step c s = some s1 ∧ Inv c s1 secs1 ∧
      ∀ x ∈ starts c.base secs1, x ∈ starts c.base secs ∨
        ∃ y ∈ starts c.base secs, ∃ sz, sz < 2 ^ 64 ∧
          x = y + c.U + enforce_minimum_allocation_size c sz := by
  obtain ⟨hinit, ht, hnl, hna, hlive⟩ := hI
  have hbase := hc.2.2.2.2.2.1
  have hzero : (0 : Nat) ∉ s.live := by
    intro h0
    obtain ⟨x, hx, he⟩ := (usedPtrs_mem c _ _ _).mp ((hlive 0).mp h0)
    have := usedSecs_bounds secs _ x hx
    omega
  have halloc : ∀ size, size < 2 ^ 64 → ∃ h1 q secs1, allocate c s.heap size = some (h1, q) ∧
      Inv c { heap := h1, live := if q = 0 then s.live else q :: s.live } secs1 ∧
      ∀ x ∈ starts c.base secs1, x ∈ starts c.base secs ∨
        ∃ y ∈ starts c.base secs, ∃ sz, sz < 2 ^ 64 ∧
          x = y + c.U + enforce_minimum_allocation_size c sz := by
    intro size hsz
    obtain ⟨h1, q, secs1, r1, i1, t1, nl1, na1, hcase⟩ :=
      allocate_spec c hc s.heap secs hinit ht hnl hna size hsz
    refine ⟨h1, q, secs1, r1, ⟨i1, t1, nl1, na1, ?_⟩, ?_⟩
    rotate_right
    · rcases hcase with ⟨_, rfl, _, _⟩ | ⟨p, fpu, _, _, _, _, pre, fp, post, rfl, rfl, _, rfl⟩
      · exact fun x hx => Or.inl hx
      · apply starts_mid_or
        intro y hy
        rcases shrinkHead_starts c fp _ post _ y hy with hh | hh
        · exact Or.inl hh
        · exact Or.inr ⟨_, starts_mem_mid pre _ post c.base, size, hsz, hh⟩
    rcases hcase with ⟨rfl, rfl, _, _⟩ | ⟨p, fpu, rfl, hp, _, us, _⟩
    · simpa using hlive
    · intro y
      rw [if_neg (by omega), List.mem_cons, hlive y, usedPtrs_mem, usedPtrs_mem]
      constructor
      · rintro (rfl | ⟨x, hx, rfl⟩)
        · exact ⟨(p, fpu), (us _).mpr (Or.inl rfl), rfl⟩
        · exact ⟨x, (us _).mpr (Or.inr hx), rfl⟩
      · rintro ⟨x, hx, rfl⟩
        rcases (us x).mp hx with rfl | hx2
        · exact Or.inl rfl
        · exact Or.inr ⟨x, hx2, rfl⟩
  have hfree0 : internal_free c s.heap 0 = some (s.heap, 0) := by
    unfold internal_free ensure_init
    simp [hinit]
  have hfilter0 : ∀ y, y ∈ s.live.filter (fun x => decide (x ≠ 0)) ↔ y ∈ usedPtrs c c.base secs := by
    intro y
    rw [List.mem_filter, ← hlive y]
    simp only [ne_eq, decide_not, Bool.not_eq_eq_eq_not, Bool.not_true, decide_eq_false_iff_not,
      and_iff_left_iff_imp]
    intro hy h0
    exact hzero (h0 ▸ hy)
  have hfree : ∀ ptr, ptr ∈ s.live → ∃ h1 secs1, internal_free c s.heap ptr = some (h1, 0) ∧
      Inv c { heap := h1, live := s.live.filter (fun x => decide (x ≠ ptr)) } secs1 ∧
      ∀ x ∈ starts c.base secs1, x ∈ starts c.base secs := by
    intro ptr hp
    obtain ⟨x, hx, rfl⟩ := (usedPtrs_mem c _ _ _).mp ((hlive ptr).mp hp)
    obtain ⟨h1, secs1, r1, i1, t1, nl1, na1, us, st1⟩ :=
      internal_free_spec c hc s.heap secs x.1 x.2 hinit ht hnl hna hx
    refine ⟨h1, secs1, r1, ⟨i1, t1, nl1, na1, ?_⟩, st1⟩
    intro y
    rw [List.mem_filter, hlive y, usedPtrs_mem, usedPtrs_mem]
    simp only [ne_eq, decide_not, Bool.not_eq_eq_eq_not, Bool.not_true, decide_eq_false_iff_not]
    constructor
    · rintro ⟨⟨z, hz, rfl⟩, hne⟩
      exact ⟨z, (us z).mpr ⟨hz, by omega⟩, rfl⟩
    · rintro ⟨z, hz, rfl⟩
      obtain ⟨hz1, hz2⟩ := (us z).mp hz
      exact ⟨⟨z, hz1, rfl⟩, by omega⟩
  cases op with
  | allocate size =>
    obtain ⟨h1, q, secs1, r1, hI1, st1⟩ := halloc size hok
    exact ⟨_, secs1, by simp only [Op.step, Op.call, mcheap_allocate, r1, Option.map_some']; rfl,
      hI1, st1⟩
  | free ptr =>
    rcases hok with rfl | hp
    · refine ⟨_, secs, by
        simp only [Op.step, Op.call, mcheap_free, hfree0, Option.map_some']; rfl, ?_,
        fun x hx => Or.inl hx⟩
      exact ⟨hinit, ht, hnl, hna, hfilter0⟩
    · obtain ⟨h1, secs1, r1, hI1, st1⟩ := hfree ptr hp
      exact ⟨_, secs1, by simp only [Op.step, Op.call, mcheap_free, r1, Option.map_some']; rfl,
        hI1, fun x hx => Or.inl (st1 x hx)⟩
  | reallocate ptr size =>
    obtain ⟨hsz, hp⟩ := hok
    have hei : ensure_init c s.heap = s.heap := by unfold ensure_init; rw [if_pos hinit]
    by_cases hp0 : ptr = 0
    · subst hp0
      obtain ⟨h1, q, secs1, r1, hI1, st1⟩ := halloc size hsz
      have : reallocate c s.heap 0 size = some (h1, q) := by
        unfold reallocate
        simp only [hei, if_true, r1]
      refine ⟨_, secs1, by
        simp only [Op.step, Op.call, mcheap_reallocate, this, Option.map_some']; rfl, ?_, st1⟩
      simpa [liveAfter] using hI1
    · have hp1 : ptr ∈ s.live := by
        rcases hp with h0 | h1
        · exact absurd h0 hp0
        · exact h1
      by_cases hs0 : size = 0
      · subst hs0
        obtain ⟨h1, secs1, r1, hI1, st1⟩ := hfree ptr hp1
        have : reallocate c s.heap ptr 0 = some (h1, 0) := by
          unfold reallocate
          simp only [hei, if_neg hp0, if_true, r1]
        refine ⟨_, secs1, by
          simp only [Op.step, Op.call, mcheap_reallocate, this, Option.map_some']; rfl, ?_,
          fun x hx => Or.inl (st1 x hx)⟩
        simpa [liveAfter, hp0] using hI1
      · obtain ⟨x, hx, rfl⟩ := (usedPtrs_mem c _ _ _).mp ((hlive ptr).mp hp1)
        obtain ⟨h1, q, secs1, r1, i1, t1, nl1, na1, hcase⟩ :=
          reallocate_spec c hc s.heap secs x.1 x.2 size hinit ht hnl hna hx hs0 hsz
        refine ⟨_, secs1, by
          simp only [Op.step, Op.call, mcheap_reallocate, r1, Option.map_some']; rfl, ?_, ?_⟩
        rotate_right
        · rcases hcase with ⟨_, _, rfl⟩ | ⟨p1, f1, _, _, _, sp1, st1⟩
          · exact fun x hx => Or.inl hx
          · intro y hy
            rcases st1 y hy with hh | hh
            · exact Or.inl hh
            · exact Or.inr ⟨p1, sp1, size, hsz, hh⟩
        refine ⟨i1, t1, nl1, na1, ?_⟩
        simp only [liveAfter, if_neg hp0, if_neg hs0]
        rcases hcase with ⟨rfl, _, rfl⟩ | ⟨p1, f1, rfl, _, us, _, _⟩
        · simpa using hlive
        · have hp1b := (usedSecs_bounds secs1 _ _ ((us (p1, f1)).mpr (Or.inl rfl))).1
          simp only at hp1b
          intro y
          rw [if_neg (by omega), List.mem_cons, List.mem_filter, hlive y, usedPtrs_mem,
            usedPtrs_mem]
          simp only [ne_eq, decide_not, Bool.not_eq_eq_eq_not, Bool.not_true,
            decide_eq_false_iff_not]
          constructor
          · rintro (rfl | ⟨⟨z, hz, rfl⟩, hne⟩)
            · exact ⟨(p1, f1), (us _).mpr (Or.inl rfl), rfl⟩
            · by_cases hz1 : z.1 = p1
              · exact ⟨(p1, f1), (us _).mpr (Or.inl rfl), by rw [hz1]⟩
              · exact ⟨z, (us z).mpr (Or.inr ⟨hz, by omega, hz1⟩), rfl⟩
          · rintro ⟨z, hz, rfl⟩
            rcases (us z).mp hz with rfl | ⟨hz1, hz2, _⟩
            · exact Or.inl rfl
            · exact Or.inr ⟨⟨z, hz1, rfl⟩, by omega⟩

theorem step_inv (c : Cfg) (hc : c.Valid) (s : Sys) (secs : List Sec) (hI : Inv c s secs)
    (op : Op) (hok : op.ok s) : ∃ s1 secs1, op.step c s = some s1 ∧ Inv c s1 secs1 := by
  obtain ⟨s1, secs1, r, hI1, _⟩ := step_bounds c hc s secs hI op hok
  exact ⟨s1, secs1, r, hI1⟩

theorem reach_inv (c : Cfg) (hc : c.Valid) (s : Sys) (hr : Reach c s) : ∃ secs, Inv c s secs := by
  induction hr with
  | init h =>
    refine ⟨[Sec.free c.SIZE], rfl, initialise_tiled c hc h, ?_, ?_, ?_⟩
    · intro t ht fp
      rw [List.mem_singleton] at ht
      rw [ht]
      exact fun hh => Sec.noConfusion hh
    · simp [NoAdj, headFree]
    · intro p
      simp [usedPtrs]
  | step s s1 op _ hok hstep ih =>
    obtain ⟨secs, hI⟩ := ih
    obtain ⟨s2, secs2, r, hI2⟩ := step_inv c hc s secs hI op hok
    rw [hstep] at r
    cases r
    exact ⟨secs2, hI2⟩

theorem freeAddrs_split (xs : List Sec) :
    ∀ a q, q ∈ freeAddrs a xs → ∃ pre fp post, xs = pre ++ Sec.free fp :: post ∧ q = a + span pre := by
  induction xs with
  | nil => intro a q hq; cases hq
  | cons s r ih =>
    intro a q hq
    have step : q ∈ freeAddrs (a + s.fp) r →
        ∃ pre fp post, s :: r = pre ++ Sec.free fp :: post ∧ q = a + span pre := by
      intro hq2
      obtain ⟨pre, fp, post, e1, e2⟩ := ih _ _ hq2
      refine ⟨s :: pre, fp, post, by rw [e1]; rfl, ?_⟩
      simp only [span]
      omega
    cases s with
    | free fp =>
      simp only [freeAddrs, List.mem_cons] at hq
      rcases hq with rfl | hq
      · exact ⟨[], fp, r, rfl, rfl⟩
      · exact step hq
    | used fp => exact step hq
    | loose fp => exact step hq

theorem in_free_list_mem (c : Cfg) (hc : c.Valid) (h : Heap) (secs : List Sec)
    (ht : Tiled c h secs) (q : Nat) :
    in_free_list c h q = some (decide (q ∈ freeAddrs c.base secs)) := by
  have hlen := (Tiled_len c hc h _ [] (by rw [List.append_nil]; exact ht)).1
  have := in_free_list_loop_spec c hc.2.2.1 h.mem q _ c.fuel h.first_free c.base _ false
    hc.2.2.2.2.2.1 hlen ht
  unfold in_free_list
  rw [this, Bool.false_or]

theorem free_sections_apart (c : Cfg) (hc : c.Valid) (h : Heap) (secs : List Sec)
    (ht : Tiled c h secs) (hna : NoAdj secs) (p q : Nat)
    (hp : p ∈ freeAddrs c.base secs) (hq : q ∈ freeAddrs c.base secs) :
    SECTION_AFTER_free c h.mem p ≠ q := by
  obtain ⟨pre, fp, post, e1, e2⟩ := freeAddrs_split secs c.base p hp
  subst e1 e2
  have hF := hc.2.2.1
  have hfp := Seg_fp c h.mem _ _ _ _ _ ht
  have hpre : ∀ s ∈ pre, c.F ≤ s.fp := fun s hs => hfp s (List.mem_append_left _ hs)
  have hpost : ∀ s ∈ post, c.F ≤ s.fp :=
    fun s hs => hfp s (List.mem_append_right _ (List.mem_cons_of_mem _ hs))
  have hfp0 := hfp (Sec.free fp) (by simp)
  simp only [Sec.fp] at hfp0
  rw [(Tiled_free_at c hc h pre post fp ht).2.2]
  intro he
  subst he
  rw [freeAddrs_append] at hq
  simp only [freeAddrs, List.mem_append, List.mem_cons] at hq
  rw [NoAdj_append, NoAdj] at hna
  rcases hq with h1 | h1 | h1
  · have := freeAddrs_bounds c pre c.base hpre _ h1
    omega
  · omega
  · cases post with
    | nil => cases h1
    | cons s r =>
      have hr : ∀ t ∈ r, c.F ≤ t.fp := fun t ht => hpost t (List.mem_cons_of_mem _ ht)
      have hs := hpost s (List.mem_cons_self _ _)
      cases s with
      | free f2 =>
        have := hna.2.1.1
        simp [headFree, Sec.isFree] at this
      | used f2 =>
        simp only [freeAddrs] at h1
        have := freeAddrs_bounds c r _ hr _ h1
        simp only [Sec.fp] at hs
        omega
      | loose f2 =>
        simp only [freeAddrs] at h1
        have := freeAddrs_bounds c r _ hr _ h1
        simp only [Sec.fp] at hs
        omega

end Mcheap

namespace Heaps

theorem unlink_walk_none (c : Cfg) (ptr : Nat) :
    ∀ (l : List heaps_t), (∀ r ∈ l, Mcheap.add64 r.addr c.H ≠ ptr) → unlink_walk c ptr l = none := by
  intro l
  induction l with
  | nil => intro _; rfl
  | cons r rest ih =>
    intro h
    unfold unlink_walk
    rw [if_pos (h r (List.mem_cons_self _ _)), ih (fun q hq => h q (List.mem_cons_of_mem _ hq))]
    rfl

end Heaps

namespace Heaps

/-- C3 (defect of the code): on the tracked pointer 4144 of `st1`,
`heaps_realloc_(4144, 0)` unlinks the record and then calls the public macro
`heaps_realloc(to_free, 0)` on the address of the record, which is no tracked
pointer: the error handler is called with "false free via heaps_realloc()" at
line 330 of `heaps.h` and the block is never handed to the platform (the largest
free block of MCHEAP stays 920), whereas `heaps_free_(4144)` calls no handler and
releases the block (largest free block 984). -/
theorem realloc_zero_is_false_free :
    (heaps_realloc_ cfgTest P16 st1 4144 0 "a.c" 2).map
        (fun r => (r.2, r.1.errors, r.1.head, Mcheap.mcheap_largest_free Mcheap.cfg16 r.1.plat))
      = some (0, [{ msg := "false free via heaps_realloc()", file := "../heaps.h", line := 330 }],
          [], some 920)
    ∧ (heaps_free_ cfgTest P16 st1 4144 "a.c" 2).map
        (fun r => (r.2, r.1.errors, r.1.head, Mcheap.mcheap_largest_free Mcheap.cfg16 r.1.plat))
      = some (0, [], [], some 984) := by
  constructor <;> decide!

/-- C4 (defect of the code): in `st1` the pointer 4144 is tracked
(`allocation_count` 1); `heaps_realloc_(4144, 5000)` fails in the platform and
reports "heaps_realloc() failed", but the record was unlinked before the platform
call and is not linked again: the list is empty and `allocation_count` is 0, so
that a later `heaps_free_(4144)` is reported as "false free". -/
theorem realloc_failure_drops_record :
    (st1.head, st1.allocation_count)
      = ([{ addr := 4112, size := 10, file := "a.c", line := 1 }], 1)
    ∧ (heaps_realloc_ cfgTest P16 st1 4144 5000 "a.c" 2).map
        (fun r => (r.2, r.1.errors, r.1.head, r.1.allocation_count))
      = some (0, [{ msg := "heaps_realloc() failed", file := "a.c", line := 2 }], [], 0)
    ∧ ((heaps_realloc_ cfgTest P16 st1 4144 5000 "a.c" 2).bind
        (fun r => heaps_free_ cfgTest P16 r.1 4144 "a.c" 3)).map (fun r => r.1.errors.head?)
      = some (some { msg := "false free", file := "a.c", line := 3 }) := by
  refine ⟨?_, ?_, ?_⟩ <;> decide!

/-- C5 (defect of the code): 4145 is the content of no record of `st1`, yet
`heaps_realloc_(4145, 20)` calls no error handler: `unlink_allocation` returns
null, the platform reallocator is called with a null pointer, and the new block
is linked and returned (4208), the list and `allocation_count` growing to 2. -/
theorem realloc_untracked_allocates :
    (st1.head.map fun r => Mcheap.add64 r.addr cfgTest.H) = [4144]
    ∧ (heaps_realloc_ cfgTest P16 st1 4145 20 "a.c" 2).map
        (fun r => (r.2, r.1.errors, r.1.head.length, r.1.allocation_count))
      = some (4208, [], 2, 2) := by
  constructor <;> decide!

end Heaps

namespace Mcheap

/-- C8 (defect of the code): the block at 4240 of `heapD` has payload size
64 and first byte 170; `mcheap_reallocate(4240, 2^64 - 8)` rounds the size up to
0 modulo `2 ^ 64`, takes the free hole below as large enough, copies
`min(0, 64) = 0` bytes and returns 4112, a block of payload size 0 whose first
byte is 200 and not 170. -/
theorem reallocate_wrapped_size_loses_payload :
    (size_of heapD.mem (4240 - cfg16.U), heapD.mem 4240) = (64, 170)
    ∧ (mcheap_reallocate cfg16 heapD 4240 (2 ^ 64 - 8)).map
        (fun r => (r.2, size_of r.1.mem (r.2 - cfg16.U), r.1.mem r.2)) = some (4112, 0, 200) := by
  constructor <;> decide!

/-- C9: when `mcheap_reallocate` of a pointer `sect` with a non-zero size
returns null on an initialised heap, the state it leaves is the state it was
given: memory (tiling, free list, payloads) and `first_free` are unchanged. The
pointer is any non-null pointer whose section header is not at the null address,
as is the case for every live allocation. -/
theorem reallocate_failure_leaves_heap (c : Cfg) (h h1 : Heap) (sect new_size : Nat)
    (hi : h.initialized = true) (hs : sect ≠ 0) (hu : sub64 sect c.U ≠ 0) (hn : new_size ≠ 0)
    (hr : mcheap_reallocate c h sect new_size = some (h1, 0)) : h1 = h := by
  unfold mcheap_reallocate reallocate at hr
  have he : ensure_init c h = h := by unfold ensure_init; rw [if_pos hi]
  simp only [he, if_neg hs, if_neg hn, bind, Option.bind_eq_some] at hr
  obtain ⟨a, ha, hr⟩ := hr
  obtain ⟨h2, q⟩ := a
  by_cases hq : q ≠ 0
  · simp only [if_pos hq, Option.bind_eq_some] at hr
    obtain ⟨h3, _, h4⟩ := hr
    simp only [pure, Option.some.injEq, Prod.mk.injEq] at h4
    omega
  · simp only [if_neg hq, pure, Option.some.injEq, Prod.mk.injEq] at hr
    obtain ⟨rfl, _⟩ := hr
    have hq0 : q = 0 := not_not.mp hq
    subst hq0
    unfold reallocate_move at ha
    simp only [bind, Option.bind_eq_some] at ha
    obtain ⟨rp, _, ha⟩ := ha
    by_cases c1 : rp ≠ 0 ∧ rp < sub64 sect c.U
    · simp only [if_pos c1, Option.bind_eq_some, pure, Option.some.injEq, Prod.mk.injEq] at ha
      obtain ⟨_, _, _, e⟩ := ha
      exact absurd e c1.1
    · simp only [if_neg c1, Option.bind_eq_some] at ha
      obtain ⟨fp, _, ha⟩ := ha
      by_cases c2 : used_section_can_extend_down c h fp (sub64 sect c.U)
          (enforce_minimum_allocation_size c new_size) = true
      · simp only [if_pos c2, Option.bind_eq_some, pure, Option.some.injEq, Prod.mk.injEq] at ha
        obtain ⟨_, _, _, e⟩ := ha
        unfold used_section_can_extend_down at c2
        simp only [Bool.and_eq_true, decide_eq_true_eq] at c2
        exact absurd e c2.1.1
      · simp only [if_neg c2] at ha
        by_cases c3 : enforce_minimum_allocation_size c new_size ≤ size_of h.mem (sub64 sect c.U)
        · simp only [if_pos c3, pure, Option.some.injEq, Prod.mk.injEq] at ha
          exact ha.1.symm
        · simp only [if_neg c3, Option.bind_eq_some] at ha
          obtain ⟨up, _, ha⟩ := ha
          by_cases c4 : up = true
          · simp only [if_pos c4, Option.bind_eq_some, pure, Option.some.injEq,
              Prod.mk.injEq] at ha
            obtain ⟨_, _, _, e⟩ := ha
            exact absurd e hu
          · simp only [if_neg c4] at ha
            by_cases c5 : rp ≠ 0
            · simp only [if_pos c5, Option.bind_eq_some, pure, Option.some.injEq,
                Prod.mk.injEq] at ha
              obtain ⟨_, _, _, e⟩ := ha
              exact absurd e c5
            · simp only [if_neg c5, pure, Option.some.injEq, Prod.mk.injEq] at ha
              exact ha.1.symm

/-- Witness of C9: the block at 4112 of `heapA` cannot grow to 5000 bytes
in a region of 1000 bytes. -/
theorem reallocate_failure_leaves_heap_witness :
    mcheap_reallocate cfg16 heapA 4112 5000 = some (heapA, 0) ∧ heapA = heapA :=
  ⟨rfl, reallocate_failure_leaves_heap cfg16 heapA heapA 4112 5000 rfl (by decide) (by decide)
    (by decide) rfl⟩

/-- C10 (defect of the code): `mcheap_allocate(2^64 - 1)` rounds the size
up to 0 modulo `2 ^ 64` and returns the pointer 4112 to a used section whose size
field is 0; `mcheap_reallocate(4112, 2^64 - 1)` on the block of `heapA` likewise
returns 4112 with size field 0. -/
theorem allocate_wrapped_size_succeeds :
    (mcheap_allocate cfg16 heap0 (2 ^ 64 - 1)).map
        (fun r => (r.2, size_of r.1.mem (r.2 - cfg16.U))) = some (4112, 0)
    ∧ (mcheap_reallocate cfg16 heapA 4112 (2 ^ 64 - 1)).map
        (fun r => (r.2, size_of r.1.mem (r.2 - cfg16.U))) = some (4112, 0) := by
  constructor <;> decide!

end Mcheap

namespace Mcheap

theorem reach_heapC : Reach cfg16 { heap := heapC, live := [4240] } := by
  have r0 : Reach cfg16 { heap := heap0, live := [] } := Reach.init start
  have r1 : Reach cfg16 { heap := heapA, live := [4112] } :=
    Reach.step _ _ (Op.allocate 100) r0 (show (100 : Nat) < 2 ^ 64 by decide) rfl
  have r2 : Reach cfg16 { heap := heapB, live := [4240, 4112] } :=
    Reach.step _ _ (Op.allocate 50) r1 (show (50 : Nat) < 2 ^ 64 by decide) rfl
  exact Reach.step _ _ (Op.free 4112) r2 (Or.inr (by decide)) rfl

/-- C1: in every state reached from an initialised region by calls of
`mcheap_allocate`, `mcheap_reallocate` and `mcheap_free` (sizes being `size_t`
values, pointers null or live), the walk of `mcheap_is_intact` ends exactly at
the end of the region and returns true; and every further such call returns. -/
theorem reachable_heap_is_intact (c : Cfg) (hc : c.Valid) (s : Sys) (hr : Reach c s) :
    mcheap_is_intact c s.heap = some true ∧
      ∀ op : Op, op.ok s → ∃ s1, op.step c s = some s1 := by
  obtain ⟨secs, hI⟩ := reach_inv c hc s hr
  refine ⟨?_, ?_⟩
  · have hlen := (Tiled_len c hc s.heap _ [] (by rw [List.append_nil]; exact hI.2.1)).1
    exact heap_test_loop_spec c hc s.heap.mem secs c.fuel _ c.base (le_refl _) hlen hI.2.2.1 hI.2.1
  · intro op hok
    obtain ⟨s1, _, r, _⟩ := step_inv c hc s secs hI op hok
    exact ⟨s1, r⟩

/-- Witness of C1: the default build after `mcheap_allocate(100)`,
`mcheap_allocate(50)` and `mcheap_free` of the first block. -/
theorem reachable_heap_is_intact_witness :
    Reach cfg16 { heap := heapC, live := [4240] } ∧ mcheap_is_intact cfg16 heapC = some true :=
  ⟨reach_heapC, (reachable_heap_is_intact cfg16 (by decide) _ reach_heapC).1⟩

/-- C2: in every state reached from an initialised region by calls of
`mcheap_allocate`, `mcheap_reallocate` and `mcheap_free` on live pointers,
`in_free_list` returns for every pointer, and no section of the free list ends
where another section of the free list begins. -/
theorem reachable_no_adjacent_free (c : Cfg) (hc : c.Valid) (s : Sys) (hr : Reach c s) :
    (∀ p, ∃ b, in_free_list c s.heap p = some b) ∧
      ∀ p q, in_free_list c s.heap p = some true → in_free_list c s.heap q = some true →
        SECTION_AFTER_free c s.heap.mem p ≠ q := by
  obtain ⟨secs, hI⟩ := reach_inv c hc s hr
  refine ⟨fun p => ⟨_, in_free_list_mem c hc s.heap secs hI.2.1 p⟩, ?_⟩
  intro p q hp hq
  rw [in_free_list_mem c hc s.heap secs hI.2.1] at hp hq
  simp only [Option.some.injEq, decide_eq_true_eq] at hp hq
  exact free_sections_apart c hc s.heap secs hI.2.1 hI.2.2.2.1 p q hp hq

/-- Witness of C2: in `heapC` the free list holds the hole at 4096, which
ends at 4224, and the tail at 4304. -/
theorem reachable_no_adjacent_free_witness :
    in_free_list cfg16 heapC 4096 = some true ∧ in_free_list cfg16 heapC 4304 = some true ∧
      SECTION_AFTER_free cfg16 heapC.mem 4096 ≠ 4304 :=
  ⟨rfl, rfl, (reachable_no_adjacent_free cfg16 (by decide) _ reach_heapC).2 4096 4304 rfl rfl⟩

end Mcheap

namespace Mcheap

/-! ### Alignment -/

theorem enforce_dvd (c : Cfg) (hc : c.Valid) (hA : c.ALIGN ∣ 2 ^ 64) (hU : c.ALIGN ∣ c.U)
    (hF : c.ALIGN ∣ c.F) (sz : Nat) : c.ALIGN ∣ enforce_minimum_allocation_size c sz := by
  obtain ⟨hpos, _, _, hUF, hFS, _, hsize⟩ := hc
  have hal : c.ALIGN ∣ align_size c sz := by
    unfold align_size
    split
    · unfold add64
      rw [Nat.dvd_mod_iff hA]
      have h1 : sz % c.ALIGN < c.ALIGN := Nat.mod_lt _ hpos
      have h2 : sz + (c.ALIGN - sz % c.ALIGN) = c.ALIGN * (sz / c.ALIGN + 1) := by
        have := Nat.div_add_mod sz c.ALIGN
        rw [Nat.mul_add, Nat.mul_one]
        omega
      rw [h2]
      exact Dvd.intro _ rfl
    · rename_i h0
      exact Nat.dvd_of_mod_eq_zero (not_not.mp h0)
  unfold enforce_minimum_allocation_size
  simp only
  split
  · have e : sub64 c.F c.U = c.F - c.U := by unfold sub64; omega
    rw [e]
    exact Nat.dvd_sub' hF hU
  · exact hal

theorem starts_ge (xs : List Sec) : ∀ a x, x ∈ starts a xs → a ≤ x := by
  induction xs with
  | nil => intro a x hx; cases hx
  | cons s r ih =>
    intro a x hx
    simp only [starts, List.mem_cons] at hx
    rcases hx with rfl | hx
    · exact le_refl _
    · have := ih _ x hx
      omega

theorem reach_aligned (c : Cfg) (hc : c.Valid) (hA : c.ALIGN ∣ 2 ^ 64) (hU : c.ALIGN ∣ c.U)
    (hF : c.ALIGN ∣ c.F) (s : Sys) (hr : Reach c s) :
    ∃ secs, Inv c s secs ∧ ∀ x ∈ starts c.base secs, c.ALIGN ∣ (x - c.base) := by
  induction hr with
  | init h =>
    refine ⟨[Sec.free c.SIZE], ⟨rfl, initialise_tiled c hc h, ?_, ?_, ?_⟩, ?_⟩
    · intro t ht fp
      rw [List.mem_singleton] at ht
      rw [ht]
      exact fun hh => Sec.noConfusion hh
    · simp [NoAdj, headFree]
    · intro p
      simp [usedPtrs]
    · intro x hx
      simp only [starts, List.mem_singleton] at hx
      rw [hx, Nat.sub_self]
      exact dvd_zero _
  | step s s1 op _ hok hstep ih =>
    obtain ⟨secs, hI, hal⟩ := ih
    obtain ⟨s2, secs2, r, hI2, hst⟩ := step_bounds c hc s secs hI op hok
    rw [hstep] at r
    cases r
    refine ⟨secs2, hI2, ?_⟩
    intro x hx
    rcases hst x hx with hh | ⟨y, hy, sz, _, rfl⟩
    · exact hal x hh
    · have hge := starts_ge secs c.base y hy
      have e : y + c.U + enforce_minimum_allocation_size c sz - c.base
          = (y - c.base) + c.U + enforce_minimum_allocation_size c sz := by omega
      rw [e]
      exact Dvd.dvd.add (Dvd.dvd.add (hal y hy) hU) (enforce_dvd c hc hA hU hF sz)

/-- C11: in every state reached from an initialised region by calls of
`mcheap_allocate`, `mcheap_reallocate` and `mcheap_free` on live pointers, every
live pointer lies at a multiple of `MCHEAP_ALIGNMENT` from the start of the
region. The alignment is a power of two not above `2 ^ 64` (the attribute
`aligned` accepts nothing else) and divides both header sizes; nothing is asked
of `MCHEAP_SIZE`. -/
theorem live_payloads_aligned (c : Cfg) (hc : c.Valid) (hA : c.ALIGN ∣ 2 ^ 64)
    (hU : c.ALIGN ∣ c.U) (hF : c.ALIGN ∣ c.F) (s : Sys) (hr : Reach c s) :
    ∀ p ∈ s.live, c.base ≤ p ∧ c.ALIGN ∣ (p - c.base) := by
  obtain ⟨secs, hI, hal⟩ := reach_aligned c hc hA hU hF s hr
  intro p hp
  obtain ⟨x, hx, rfl⟩ := (usedPtrs_mem c _ _ _).mp ((hI.2.2.2.2 p).mp hp)
  have hge := (usedSecs_bounds secs _ x hx).1
  have h1 := hal x.1 (usedSecs_starts secs _ x hx)
  refine ⟨by omega, ?_⟩
  have e : x.1 + c.U - c.base = (x.1 - c.base) + c.U := by omega
  rw [e]
  exact Dvd.dvd.add h1 hU

/-- Witness of C11: the default build, whose `MCHEAP_SIZE` of 1000 is not a
multiple of the alignment 16, after two allocations and a free; the live block
at 4240 lies 144 bytes into the region. -/
theorem live_payloads_aligned_witness :
    ¬ (cfg16.ALIGN ∣ cfg16.SIZE) ∧ cfg16.ALIGN ∣ (4240 - cfg16.base) :=
  ⟨by decide, (live_payloads_aligned cfg16 (by decide) (by decide) (by decide) (by decide) _
    reach_heapC 4240 (by simp)).2⟩

end Mcheap
namespace Mcheap

/-! ### The bytes of the free and of the used sections -/

theorem freeSecs_bounds (xs : List Sec) :
    ∀ a y, y ∈ freeSecs a xs → a ≤ y.1 ∧ y.1 + y.2 ≤ a + span xs := by
  induction xs with
  | nil => intro a y hy; cases hy
  | cons s r ih =>
    intro a y hy
    cases s with
    | free fp =>
      simp only [freeSecs, List.mem_cons] at hy
      simp only [span, Sec.fp]
      rcases hy with rfl | hy
      · simp only
        omega
      · have := ih _ y hy
        omega
    | used fp =>
      simp only [freeSecs] at hy
      simp only [span, Sec.fp]
      have := ih _ y hy
      omega
    | loose fp =>
      simp only [freeSecs] at hy
      simp only [span, Sec.fp]
      have := ih _ y hy
      omega

theorem freeAddrs_eq (xs : List Sec) :
    ∀ a, freeAddrs a xs = (freeSecs a xs).map Prod.fst := by
  induction xs with
  | nil => intro a; rfl
  | cons s r ih =>
    intro a
    cases s <;> simp only [freeAddrs, freeSecs, List.map_cons, ih]

theorem freeSecs_split (xs : List Sec) :
    ∀ a y, y ∈ freeSecs a xs →
      ∃ pre post, xs = pre ++ Sec.free y.2 :: post ∧ y.1 = a + span pre := by
  induction xs with
  | nil => intro a y hy; cases hy
  | cons s r ih =>
    intro a y hy
    cases s with
    | free fp =>
      simp only [freeSecs, List.mem_cons] at hy
      rcases hy with rfl | hy
      · exact ⟨[], r, rfl, rfl⟩
      · obtain ⟨pre, post, e1, e2⟩ := ih _ y hy
        exact ⟨Sec.free fp :: pre, post, by rw [e1]; rfl, by
          rw [e2]; simp only [span, Sec.fp]; omega⟩
    | used fp =>
      simp only [freeSecs] at hy
      obtain ⟨pre, post, e1, e2⟩ := ih _ y hy
      exact ⟨Sec.used fp :: pre, post, by rw [e1]; rfl, by
        rw [e2]; simp only [span, Sec.fp]; omega⟩
    | loose fp =>
      simp only [freeSecs] at hy
      obtain ⟨pre, post, e1, e2⟩ := ih _ y hy
      exact ⟨Sec.loose fp :: pre, post, by rw [e1]; rfl, by
        rw [e2]; simp only [span, Sec.fp]; omega⟩

theorem cover_iff (xs : List Sec) (hnl : NoLoose xs) :
    ∀ a x, a ≤ x → x < a + span xs →
      ((∃ y ∈ freeSecs a xs, y.1 ≤ x ∧ x < y.1 + y.2) ↔
        ¬ ∃ y ∈ usedSecs a xs, y.1 ≤ x ∧ x < y.1 + y.2) := by
  induction xs with
  | nil => intro a x h1 h2; simp only [span] at h2; omega
  | cons s r ih =>
    intro a x h1 h2
    rw [NoLoose_cons] at hnl
    cases s with
    | loose fp => exact absurd rfl (hnl.1 fp)
    | free fp =>
      simp only [span, Sec.fp] at h2
      simp only [freeSecs, usedSecs, List.mem_cons]
      by_cases hx : x < a + fp
      · constructor
        · rintro _ ⟨y, hy, hy1, _⟩
          have := (usedSecs_bounds r _ y hy).1
          omega
        · intro _
          exact ⟨(a, fp), Or.inl rfl, h1, hx⟩
      · rw [← ih hnl.2 (a + fp) x (by omega) (by omega)]
        constructor
        · rintro ⟨y, rfl | hy, hy1, hy2⟩
          · exact absurd hy2 hx
          · exact ⟨y, hy, hy1, hy2⟩
        · rintro ⟨y, hy, hy1, hy2⟩
          exact ⟨y, Or.inr hy, hy1, hy2⟩
    | used fp =>
      simp only [span, Sec.fp] at h2
      simp only [freeSecs, usedSecs, List.mem_cons]
      by_cases hx : x < a + fp
      · constructor
        · rintro ⟨y, hy, hy1, _⟩
          have := (freeSecs_bounds r _ y hy).1
          omega
        · intro hn
          exact absurd ⟨(a, fp), Or.inl rfl, h1, hx⟩ hn
      · rw [ih hnl.2 (a + fp) x (by omega) (by omega)]
        constructor
        · rintro hn ⟨y, rfl | hy, hy1, hy2⟩
          · exact absurd hy2 hx
          · exact hn ⟨y, hy, hy1, hy2⟩
        · rintro hn ⟨y, hy, hy1, hy2⟩
          exact hn ⟨y, Or.inr hy, hy1, hy2⟩

theorem used_free_disjoint (xs : List Sec) :
    ∀ a y z, y ∈ usedSecs a xs → z ∈ freeSecs a xs → z.1 + z.2 ≤ y.1 ∨ y.1 + y.2 ≤ z.1 := by
  induction xs with
  | nil => intro a y z hy; cases hy
  | cons s r ih =>
    intro a y z hy hz
    cases s with
    | free fp =>
      simp only [freeSecs, List.mem_cons] at hz
      simp only [usedSecs] at hy
      rcases hz with rfl | hz
      · exact Or.inl (usedSecs_bounds r _ y hy).1
      · exact ih _ y z hy hz
    | used fp =>
      simp only [freeSecs] at hz
      simp only [usedSecs, List.mem_cons] at hy
      rcases hy with rfl | hy
      · exact Or.inr (freeSecs_bounds r _ z hz).1
      · exact ih _ y z hy hz
    | loose fp =>
      simp only [freeSecs] at hz
      simp only [usedSecs] at hy
      exact ih _ y z hy hz

theorem free_covers_iff (c : Cfg) (hc : c.Valid) (h : Heap) (secs : List Sec)
    (ht : Tiled c h secs) (x : Nat) :
    free_covers c h x ↔ ∃ y ∈ freeSecs c.base secs, y.1 ≤ x ∧ x < y.1 + y.2 := by
  unfold free_covers
  constructor
  · rintro ⟨q, hq, h1, h2⟩
    rw [in_free_list_mem c hc h secs ht] at hq
    simp only [Option.some.injEq, decide_eq_true_eq] at hq
    rw [freeAddrs_eq, List.mem_map] at hq
    obtain ⟨y, hy, rfl⟩ := hq
    obtain ⟨pre, post, e1, e2⟩ := freeSecs_split secs _ y hy
    rw [e1] at ht
    have := (Tiled_free_at c hc h pre post y.2 ht).2.1
    rw [e2, this] at h2
    exact ⟨y, hy, h1, by rw [e2]; exact h2⟩
  · rintro ⟨y, hy, h1, h2⟩
    obtain ⟨pre, post, e1, e2⟩ := freeSecs_split secs _ y hy
    refine ⟨y.1, ?_, h1, ?_⟩
    · rw [in_free_list_mem c hc h secs ht]
      simp only [Option.some.injEq, decide_eq_true_eq]
      rw [freeAddrs_eq, List.mem_map]
      exact ⟨y, hy, rfl⟩
    · rw [e1] at ht
      have := (Tiled_free_at c hc h pre post y.2 ht).2.1
      rw [e2, this, ← e2]
      exact h2

end Mcheap
namespace Mcheap

/-! ### What `mcheap_free` writes -/

end Mcheap
namespace Mcheap

theorem reach_heapB : Reach cfg16 { heap := heapB, live := [4240, 4112] } := by
  have r0 : Reach cfg16 { heap := heap0, live := [] } := Reach.init start
  have r1 : Reach cfg16 { heap := heapA, live := [4112] } :=
    Reach.step _ _ (Op.allocate 100) r0 (show (100 : Nat) < 2 ^ 64 by decide) rfl
  exact Reach.step _ _ (Op.allocate 50) r1 (show (50 : Nat) < 2 ^ 64 by decide) rfl

end Mcheap
namespace Mcheap

theorem used_apart (xs : List Sec) :
    ∀ a y z, y ∈ usedSecs a xs → z ∈ usedSecs a xs →
      y = z ∨ z.1 + z.2 ≤ y.1 ∨ y.1 + y.2 ≤ z.1 := by
  induction xs with
  | nil => intro a y z hy; cases hy
  | cons s r ih =>
    intro a y z hy hz
    cases s with
    | used fp =>
      simp only [usedSecs, List.mem_cons] at hy hz
      rcases hy with rfl | hy
      · rcases hz with rfl | hz
        · exact Or.inl rfl
        · exact Or.inr (Or.inr (usedSecs_bounds r _ z hz).1)
      · rcases hz with rfl | hz
        · exact Or.inr (Or.inl (usedSecs_bounds r _ y hy).1)
        · exact ih _ y z hy hz
    | free fp =>
      simp only [usedSecs] at hy hz
      exact ih _ y z hy hz
    | loose fp =>
      simp only [usedSecs] at hy hz
      exact ih _ y z hy hz

theorem usedSecs_fp (c : Cfg) (hc : c.Valid) (h : Heap) (secs : List Sec) (ht : Tiled c h secs)
    (z : Nat × Nat) (hz : z ∈ usedSecs c.base secs) :
    c.F ≤ z.2 ∧ size_of h.mem z.1 = z.2 - c.U := by
  obtain ⟨pre, post, e1, e2⟩ := usedSecs_split secs c.base z hz
  rw [e1] at ht
  have h1 := (Tiled_bounds c h pre _ post ht).1
  have h2 := (Tiled_used_at c hc h pre post z.2 ht).1
  rw [e2]
  exact ⟨h1, h2⟩

theorem cover_free_iff (xs : List Sec) (hnl : NoLoose xs) (a x : Nat) :
    (∃ y ∈ freeSecs a xs, y.1 ≤ x ∧ x < y.1 + y.2) ↔
      (a ≤ x ∧ x < a + span xs ∧ ¬ ∃ y ∈ usedSecs a xs, y.1 ≤ x ∧ x < y.1 + y.2) := by
  constructor
  · rintro ⟨y, hy, h1, h2⟩
    have hb := freeSecs_bounds xs a y hy
    have h3 : a ≤ x := by omega
    have h4 : x < a + span xs := by omega
    exact ⟨h3, h4, (cover_iff xs hnl a x h3 h4).mp ⟨y, hy, h1, h2⟩⟩
  · rintro ⟨h3, h4, hn⟩
    exact (cover_iff xs hnl a x h3 h4).mpr hn

end Mcheap
namespace Mcheap

/-- C15: in a reachable state, when `free_walk` for the normalised size of a
request stops at a section of the free list below the section of the live
pointer `p`, `mcheap_reallocate(p, n)` returns the payload of that section,
whatever else could have been done with the section of `p`; afterwards every
byte of the old section of `p` lies under the free list. -/
theorem reallocate_prefers_lower_fit (c : Cfg) (hc : c.Valid) (s : Sys) (hr : Reach c s)
    (p n r : Nat) (hp : p ∈ s.live) (hn0 : n ≠ 0) (hn : n < 2 ^ 64)
    (hw : free_walk c s.heap (enforce_minimum_allocation_size c n) = some r) (hr0 : r ≠ 0)
    (hlt : r < p - c.U) :
    ∃ h1, mcheap_reallocate c s.heap p n = some (h1, r + c.U) ∧
      ∀ x, p - c.U ≤ x → x < p + size_of s.heap.mem (p - c.U) → free_covers c h1 x := by
  obtain ⟨secs, hinit, ht, hnl, hna, hlive⟩ := reach_inv c hc s hr
  have hc2 := hc
  obtain ⟨_, hU, hF, hUF, hFS, hbase, hsize⟩ := hc
  have hb := enforce_bounds c hc2 n hn
  obtain ⟨y, hy, rfl⟩ := (usedPtrs_mem c _ _ _).mp ((hlive p).mp hp)
  obtain ⟨hyF, hysz⟩ := usedSecs_fp c hc2 s.heap secs ht y hy
  have hyb := usedSecs_bounds secs c.base y hy
  rw [Nat.add_sub_cancel] at hlt
  obtain ⟨pre, post, e1, e2⟩ := usedSecs_split secs c.base y hy
  subst e1
  have hlen := (Tiled_len c hc2 s.heap _ [] (by rw [List.append_nil]; exact ht)).1
  have hw2 : free_walk c s.heap (enforce_minimum_allocation_size c n)
      = some (firstFit (c.U + enforce_minimum_allocation_size c n) c.base
          (pre ++ Sec.used y.2 :: post)) :=
    free_walk_loop_spec c hF s.heap.mem _ hb.2 _ c.fuel s.heap.first_free c.base
      (c.base + c.SIZE) hbase (by omega) hlen ht
  rw [hw2] at hw
  simp only [Option.some.injEq] at hw
  have hne : firstFit (c.U + enforce_minimum_allocation_size c n) c.base
      (pre ++ Sec.used y.2 :: post) ≠ 0 := by rw [hw]; exact hr0
  obtain ⟨h1, secs1, r1, i1, t1, nl1, na1, f1, m1, g1, us1, fs1, _⟩ :=
    relocate_fit_spec c hc2 s.heap pre post y.2 _ hinit ht hnl hna hne
  rw [hw] at r1 m1 us1 fs1
  obtain ⟨h2, secs2, fpu, r2, i2, t2, nl2, na2, efp, us2, _⟩ :=
    shrink_step c hc2 h1 secs1 r f1 _ hb.1 hb.2 t1 nl1 na1 m1
  have hei : ensure_init c s.heap = s.heap := by unfold ensure_init; rw [if_pos hinit]
  have hend := Seg_end c _ _ _ _ _ _ ht
  have hsub : sub64 (y.1 + c.U) c.U = y.1 := by
    unfold sub64
    omega
  have hmove : reallocate_move c s.heap y.1 (enforce_minimum_allocation_size c n)
      = some (h1, r) := by
    unfold reallocate_move
    simp only [hw2, hw, bind, Option.bind]
    rw [if_pos ⟨hr0, hlt⟩]
    rw [← e2] at r1
    simp only [r1, pure]
  refine ⟨h2, ?_, ?_⟩
  · unfold mcheap_reallocate reallocate
    simp only [hei, hsub]
    rw [if_neg (by omega), if_neg hn0]
    simp only [hmove, bind, Option.bind]
    rw [if_pos hr0]
    simp only [r2, pure]
  · intro x hx1 hx2
    rw [Nat.add_sub_cancel] at hx1 hx2
    rw [hysz] at hx2
    have hsp : span secs2 = span (pre ++ Sec.used y.2 :: post) := by
      have e3 := Seg_end c _ _ _ _ _ _ t2
      have e4 := Seg_end c _ _ _ _ _ _ ht
      omega
    rw [free_covers_iff c hc2 h2 secs2 t2, cover_free_iff secs2 nl2, hsp]
    refine ⟨by omega, by omega, ?_⟩
    rintro ⟨z, hz, hz1, hz2⟩
    have hfu : fpu ≤ f1 := by
      rcases efp with e | e
      · omega
      · omega
    rcases (us2 z).mp hz with rfl | ⟨hz3, hz4⟩
    · rcases used_free_disjoint _ c.base y (r, f1) hy fs1 with e | e
      · simp only at e hz2
        omega
      · simp only at e
        omega
    · rcases (us1 z).mp hz3 with rfl | ⟨hz5, hz6, _⟩
      · exact hz4 rfl
      · rcases used_apart _ c.base z y hz5 hy with e | e | e
        · rw [e] at hz6
          exact hz6 e2
        · omega
        · omega

end Mcheap
namespace Mcheap

/-- Witness of C15: in `heapC` the block at 4240 (section at 4224, 64 payload
bytes) is followed by the free tail and could grow in place to 100 bytes, but
the hole at 4096 holds 100 bytes and lies below, and the block moves there. -/
theorem reallocate_prefers_lower_fit_witness :
    ∃ h1, mcheap_reallocate cfg16 heapC 4240 100 = some (h1, 4096 + 16) ∧
      ∀ x, 4240 - 16 ≤ x → x < 4240 + size_of heapC.mem (4240 - 16) → free_covers cfg16 h1 x :=
  reallocate_prefers_lower_fit cfg16 (by decide) _ reach_heapC 4240 100 4096 (by decide)
    (by decide) (by decide) (by decide!) (by decide) (by decide)

/-- C12: the initialised region of the default build is a reachable state with
a free list; there `mcheap_largest_free` returns 984, and `mcheap_allocate(984)`
returns null while `mcheap_allocate(976)` returns a block: 984 is the size field
of the only free section, which is not a multiple of the alignment, and the
request is rounded up to 992 bytes. -/
theorem largest_free_not_allocatable :
    Reach cfg16 { heap := heap0, live := [] } ∧ heap0.first_free ≠ 0 ∧
      mcheap_largest_free cfg16 heap0 = some 984 ∧
      (mcheap_allocate cfg16 heap0 984).map Prod.snd = some 0 ∧
      (mcheap_allocate cfg16 heap0 976).map Prod.snd = some 4112 :=
  ⟨Reach.init start, by decide, by decide!, by decide!, by decide!⟩

end Mcheap
namespace Heaps

/-- C16: with two records from two call sites (`st2`), `heaps_report` writes 2
to `*arr_size` and returns the two entries of the call sites only: the test
`size & !failed` is a bitwise conjunction, false for every even `size`, so the
entry of the report itself, whose record is at the head of the list, is not
appended. -/
theorem report_even_sites_omits_own_entry :
    (heaps_report cfgTest P16 st2).map
        (fun r => (r.arr_size, r.cells.map (fun e => e.file), r.st.head.map (fun x => x.file)))
      = some (2, ["b.c", "a.c"], ["../heaps.h", "b.c", "a.c"]) := by
  decide!

/-- C17: with three records from two call sites (`st3`), the counts of the
returned entries add up to 3 while `allocation_count` is 4 after the call, and
their sizes add up to 30 while the records of the live list hold 102 bytes: the
record of the report is missing from the report. -/
theorem report_sums_miss_own_record :
    (heaps_report cfgTest P16 st3).map
        (fun r => ((r.cells.map (fun e => e.count)).sum, r.st.allocation_count,
          (r.cells.map (fun e => e.size)).sum, (r.st.head.map (fun x => x.size)).sum))
      = some (3, 4, 30, 102) := by
  decide!

/-- C19: in `stTight` the array of the report can be allocated for one entry
but not grown to two. `heaps_report` returns null and writes 0, the live list
and `allocation_count` are as before, but `free_` is given a pointer whose
record `realloc_` has already unlinked: it reports a false free and the block
of the array stays allocated (the largest free block drops from 88 bytes to
none). -/
theorem report_failure_leaks_array :
    Mcheap.mcheap_largest_free Mcheap.cfg16 stTight.plat = some 88 ∧
    (heaps_report cfgTest P16 stTight).map (fun r => (r.arr, r.arr_size)) = some (0, 0) ∧
    (heaps_report cfgTest P16 stTight).map (fun r => r.st.head) = some stTight.head ∧
    (heaps_report cfgTest P16 stTight).map (fun r => r.st.allocation_count)
      = some stTight.allocation_count ∧
    (heaps_report cfgTest P16 stTight).map (fun r => r.st.errors.map (fun e => e.msg))
      = some ["false free", "heaps_realloc() failed"] ∧
    (heaps_report cfgTest P16 stTight).bind
        (fun r => Mcheap.mcheap_largest_free Mcheap.cfg16 r.st.plat) = some 0 := by
  refine ⟨?_, ?_, ?_, ?_, ?_, ?_⟩ <;> decide!

/-- C20: the difference of the sizes is cut to 32 bits. For sizes 0 and
`2 ^ 31` the comparator is negative although the first size is the smaller one;
for sizes 0 and `2 ^ 32` it is zero although the sizes differ. -/
theorem sorter_descending_size_truncates :
    heaps_report_sorter_descending_size { file := "a.c", line := 1, count := 1, size := 0 }
        { file := "b.c", line := 2, count := 1, size := 2 ^ 31 } < 0 ∧
    heaps_report_sorter_descending_size { file := "a.c", line := 1, count := 1, size := 0 }
        { file := "b.c", line := 2, count := 1, size := 2 ^ 32 } = 0 := by
  constructor <;> decide

end Heaps
namespace Heaps

/-! ### The entries of a report -/

theorem free_null {σ : Type} (c : Cfg) (P : Platform σ) (s : State σ) (ptr : Nat) (file : String)
    (line : Int) (f : State σ × Nat) (h : free_ c P s ptr file line = some f) : f.2 = 0 := by
  unfold free_ at h
  simp only [Option.bind_eq_some] at h
  obtain ⟨s1, _, h⟩ := h
  by_cases hp : ptr ≠ 0
  · rw [if_pos hp] at h
    by_cases hu : (unlink_allocation c s1 ptr).2 = 0
    · simp only [hu, if_true, Option.some.injEq] at h
      rw [← h]
    · simp only [hu, if_false, Option.map_eq_some'] at h
      obtain ⟨p, _, rfl⟩ := h
      rfl
  · rw [if_neg hp] at h
    simp only [Option.some.injEq] at h
    rw [← h]

theorem report_search_some (cells : List heaps_report_t) (link : heaps_t) :
    ∀ n i, report_search cells link n = some i →
      i < n ∧ (cells.getD i default).file = link.file ∧ (cells.getD i default).line = link.line := by
  intro n
  induction n with
  | zero => intro i h; cases h
  | succ n ih =>
    intro i h
    unfold report_search at h
    split at h
    · rename_i hm
      simp only [Option.some.injEq] at h
      subst h
      exact ⟨Nat.lt_succ_self _, hm⟩
    · obtain ⟨h1, h2⟩ := ih i h
      exact ⟨Nat.lt_succ_of_lt h1, h2⟩

theorem report_search_none (cells : List heaps_report_t) (link : heaps_t) :
    ∀ n, report_search cells link n = none → ∀ j, j < n →
      ¬((cells.getD j default).file = link.file ∧ (cells.getD j default).line = link.line) := by
  intro n
  induction n with
  | zero => intro _ j hj; omega
  | succ n ih =>
    intro h j hj
    unfold report_search at h
    split at h
    · cases h
    · rename_i hm
      by_cases e : j = n
      · rw [e]; exact hm
      · exact ih h j (by omega)

theorem mem_firstKeys (L : List heaps_t) (k : String × Int) :
    k ∈ firstKeys L ↔ ∃ r ∈ L, (r.file, r.line) = k := by
  induction L with
  | nil => simp [firstKeys]
  | cons a t ih =>
    simp only [firstKeys, List.mem_cons, List.mem_filter, ih, decide_eq_true_eq]
    constructor
    · rintro (rfl | ⟨⟨r, hr, rfl⟩, _⟩)
      · exact ⟨a, Or.inl rfl, rfl⟩
      · exact ⟨r, Or.inr hr, rfl⟩
    · rintro ⟨r, rfl | hr, rfl⟩
      · exact Or.inl rfl
      · by_cases e : (r.file, r.line) = (a.file, a.line)
        · exact Or.inl e
        · exact Or.inr ⟨⟨r, hr, rfl⟩, e⟩

theorem firstKeys_nodup (L : List heaps_t) : (firstKeys L).Nodup := by
  induction L with
  | nil => simp [firstKeys]
  | cons a t ih =>
    simp only [firstKeys, List.nodup_cons, List.mem_filter, decide_eq_true_eq]
    exact ⟨fun h => h.2 rfl, ih.filter _⟩

theorem firstKeys_append_single (A : List heaps_t) (r : heaps_t) :
    firstKeys (A ++ [r]) =
      if (r.file, r.line) ∈ firstKeys A then firstKeys A else firstKeys A ++ [(r.file, r.line)] := by
  induction A with
  | nil => simp [firstKeys]
  | cons a t ih =>
    rw [List.cons_append]
    simp only [firstKeys, ih, List.mem_cons, List.mem_filter, decide_eq_true_eq]
    by_cases e : (r.file, r.line) = (a.file, a.line)
    · rw [if_pos (Or.inl e)]
      by_cases m : (r.file, r.line) ∈ firstKeys t
      · rw [if_pos m]
      · rw [if_neg m, List.filter_append]
        simp [e]
    · by_cases m : (r.file, r.line) ∈ firstKeys t
      · rw [if_pos m, if_pos (Or.inr ⟨m, e⟩)]
      · rw [if_neg m, if_neg (by rintro (h | h); exact e h; exact m h.1), List.filter_append]
        simp [e]

theorem siteEntry_append_single (A : List heaps_t) (r : heaps_t) (k : String × Int) :
    siteEntry (A ++ [r]) k =
      if (r.file, r.line) = k then
        { siteEntry A k with count := (siteEntry A k).count + 1,
                             size := Mcheap.add64 (siteEntry A k).size r.size }
      else siteEntry A k := by
  unfold siteEntry
  rw [List.filter_append]
  by_cases e : (r.file, r.line) = k
  · rw [if_pos e]
    simp only [List.filter_cons, e, decide_True, if_true, List.filter_nil, List.length_append,
      List.length_singleton, List.map_append, List.map_cons, List.map_nil, List.sum_append,
      List.sum_cons, List.sum_nil, Nat.add_zero, Nat.cast_add, Nat.cast_one, Mcheap.add64,
      Nat.mod_add_mod]
  · rw [if_neg e]
    simp only [List.filter_cons, e, decide_False, if_false, List.filter_nil, List.append_nil,
      Bool.false_eq_true]

theorem reportSpec_append_old (A : List heaps_t) (r : heaps_t)
    (hm : (r.file, r.line) ∈ firstKeys A) :
    reportSpec (A ++ [r]) = (reportSpec A).map fun e =>
      if (e.file, e.line) = (r.file, r.line) then
        { e with count := e.count + 1, size := Mcheap.add64 e.size r.size }
      else e := by
  unfold reportSpec
  rw [firstKeys_append_single, if_pos hm, List.map_map]
  apply List.map_congr_left
  intro k _
  rw [siteEntry_append_single]
  simp only [Function.comp]
  have e1 : ((siteEntry A k).file, (siteEntry A k).line) = k := rfl
  rw [e1]
  by_cases e : (r.file, r.line) = k
  · rw [if_pos e, if_pos e.symm]
  · rw [if_neg e, if_neg (fun h => e h.symm)]

theorem reportSpec_append_new (A : List heaps_t) (r : heaps_t) (hsz : r.size < 2 ^ 64)
    (hm : (r.file, r.line) ∉ firstKeys A) :
    reportSpec (A ++ [r]) =
      reportSpec A ++ [{ file := r.file, line := r.line, count := 1, size := r.size }] := by
  unfold reportSpec
  rw [firstKeys_append_single, if_neg hm, List.map_append]
  congr 1
  · apply List.map_congr_left
    intro k hk
    rw [siteEntry_append_single, if_neg (fun h => hm (by rw [h]; exact hk))]
  · simp only [List.map_cons, List.map_nil, siteEntry_append_single, if_true]
    have h0 : (A.filter fun x => decide ((x.file, x.line) = (r.file, r.line))) = [] := by
      rw [List.filter_eq_nil_iff]
      intro x hx
      simp only [decide_eq_true_eq]
      intro e
      exact hm ((mem_firstKeys A _).mpr ⟨x, hx, e⟩)
    simp only [siteEntry, h0, List.length_nil, List.map_nil, List.sum_nil, Nat.cast_zero,
      Nat.zero_mod, Mcheap.add64, Nat.zero_add, Int.zero_add, Nat.mod_eq_of_lt hsz]

theorem modify_eq_map (g : heaps_report_t → heaps_report_t) (k0 : String × Int) :
    ∀ (l : List heaps_report_t) (i : Nat),
      (l.map fun e => (e.file, e.line)).Nodup → i < l.length →
      ((l.getD i default).file, (l.getD i default).line) = k0 →
      l.modify g i = l.map fun e => if (e.file, e.line) = k0 then g e else e := by
  intro l
  induction l with
  | nil => intro i _ hi; simp at hi
  | cons a t ih =>
    intro i hnd hi hk
    rw [List.map_cons, List.nodup_cons] at hnd
    cases i with
    | zero =>
      simp only [List.getD_cons_zero] at hk
      simp only [List.modify_zero_cons, List.map_cons, hk, if_true]
      congr 1
      symm
      conv_rhs => rw [← List.map_id t]
      apply List.map_congr_left
      intro e he
      rw [if_neg]
      · rfl
      · intro h
        rw [← hk] at h
        exact hnd.1 (List.mem_map.mpr ⟨e, he, h⟩)
    | succ j =>
      simp only [List.getD_cons_succ] at hk
      have hj : j < t.length := by simpa using hi
      simp only [List.modify_succ_cons, List.map_cons]
      rw [ih j hnd.2 hj hk, if_neg]
      intro h
      apply hnd.1
      rw [h, ← hk]
      refine List.mem_map.mpr ⟨t.getD j default, ?_, rfl⟩
      rw [List.getD_eq_getElem _ _ hj]
      exact List.getElem_mem _

end Heaps
namespace Heaps

theorem add_to_report_cases {σ : Type} (c : Cfg) (P : Platform σ) (v : ReportVars σ)
    (src : heaps_t) (v1 : ReportVars σ) (h : add_to_report c P v src = some v1) :
    (v1.failed = true ∧ v1.arr = 0) ∨
      (v1.failed = false ∧ v1.size = v.size + 1 ∧
        v1.cells = v.cells.take v.size ++
          [{ file := src.file, line := src.line, count := 1, size := src.size }]) := by
  unfold add_to_report at h
  simp only [Option.bind_eq_some] at h
  obtain ⟨r, _, h⟩ := h
  by_cases hr : r.2 = 0
  · rw [if_pos hr] at h
    simp only [Option.map_eq_some'] at h
    obtain ⟨f, hf, rfl⟩ := h
    exact Or.inl ⟨rfl, free_null c P _ _ _ _ f hf⟩
  · rw [if_neg hr] at h
    simp only [Option.some.injEq] at h
    subst h
    exact Or.inr ⟨rfl, rfl, rfl⟩

theorem report_loop_failed {σ : Type} (c : Cfg) (P : Platform σ) (B : List heaps_t)
    (v : ReportVars σ) (h : v.failed = true) : report_loop c P B v = some v := by
  cases B with
  | nil => rfl
  | cons a t => simp [report_loop, h]

theorem reportSpec_sites (A : List heaps_t) :
    ((reportSpec A).map fun e => (e.file, e.line)) = firstKeys A := by
  unfold reportSpec
  rw [List.map_map]
  conv_rhs => rw [← List.map_id (firstKeys A)]
  apply List.map_congr_left
  intro k _
  rfl

theorem reportSpec_length (A : List heaps_t) : (reportSpec A).length = (firstKeys A).length := by
  unfold reportSpec
  rw [List.length_map]

theorem report_loop_cells {σ : Type} (c : Cfg) (P : Platform σ) :
    ∀ (B A : List heaps_t) (v v1 : ReportVars σ), (∀ x ∈ B, x.size < 2 ^ 64) →
      v.failed = false → v.cells = reportSpec A → v.size = (firstKeys A).length →
      report_loop c P B v = some v1 →
      (v1.failed = true ∧ v1.arr = 0) ∨
        (v1.failed = false ∧ v1.cells = reportSpec (A ++ B) ∧
          v1.size = (firstKeys (A ++ B)).length) := by
  intro B
  induction B with
  | nil =>
    intro A v v1 _ hf hc hs h
    simp only [report_loop, Option.some.injEq] at h
    subst h
    rw [List.append_nil]
    exact Or.inr ⟨hf, hc, hs⟩
  | cons link rest ih =>
    intro A v v1 hsz hf hc hs h
    have hlen : v.cells.length = v.size := by rw [hc, reportSpec_length, hs]
    have hnd : (v.cells.map fun e => (e.file, e.line)).Nodup := by
      rw [hc, reportSpec_sites]
      exact firstKeys_nodup A
    have hassoc : A ++ link :: rest = (A ++ [link]) ++ rest := by simp
    rw [hassoc]
    unfold report_loop at h
    simp only [hf, Bool.false_eq_true, if_false] at h
    cases hsr : report_search v.cells link v.size with
    | some i =>
      simp only [hsr] at h
      obtain ⟨hi, hfile, hline⟩ := report_search_some _ _ _ _ hsr
      have hi2 : i < v.cells.length := by omega
      have hk : ((v.cells.getD i default).file, (v.cells.getD i default).line)
          = (link.file, link.line) := by rw [hfile, hline]
      have hm : (link.file, link.line) ∈ firstKeys A := by
        rw [← reportSpec_sites, ← hc, ← hk]
        refine List.mem_map.mpr ⟨v.cells.getD i default, ?_, rfl⟩
        rw [List.getD_eq_getElem _ _ hi2]
        exact List.getElem_mem _
      refine ih (A ++ [link]) _ v1 (fun x hx => hsz x (List.mem_cons_of_mem _ hx)) ?_ ?_ ?_ h
      · rfl
      · show v.cells.modify _ i = _
        rw [modify_eq_map _ _ v.cells i hnd hi2 hk, reportSpec_append_old A link hm, hc]
      · show v.size = _
        rw [firstKeys_append_single, if_pos hm]
        exact hs
    | none =>
      simp only [hsr, Option.bind_eq_some] at h
      obtain ⟨v2, ha, hl⟩ := h
      have hm : (link.file, link.line) ∉ firstKeys A := by
        intro hm
        rw [← reportSpec_sites, ← hc, List.mem_map] at hm
        obtain ⟨e, he, hek⟩ := hm
        obtain ⟨j, hj, rfl⟩ := List.getElem_of_mem he
        have hn := report_search_none _ _ _ hsr j (by omega)
        rw [List.getD_eq_getElem _ _ hj] at hn
        simp only [Prod.mk.injEq] at hek
        exact hn hek
      rcases add_to_report_cases c P v link v2 ha with ⟨hf2, ha2⟩ | ⟨hf2, hs2, hc2⟩
      · rw [report_loop_failed c P rest v2 hf2] at hl
        simp only [Option.some.injEq] at hl
        subst hl
        exact Or.inl ⟨hf2, ha2⟩
      · refine ih (A ++ [link]) v2 v1 (fun x hx => hsz x (List.mem_cons_of_mem _ hx)) hf2 ?_ ?_ hl
        · rw [hc2, ← hlen, List.take_length,
            reportSpec_append_new A link (hsz link (List.mem_cons_self _ _)) hm, hc]
        · rw [hs2, firstKeys_append_single, if_neg hm, List.length_append, hs]
          rfl

/-- C18: when `heaps_report` returns an array, or the live list is empty, the
first entries of what it returns are `reportSpec` of the live list as it was
before the call: one entry for each call site (file compared as a string, line
as a number) in the order in which a walk from the head first meets the sites,
with the number of records made at the site and the sum of their sizes. The
sizes of the records are `size_t` values. -/
theorem report_lists_call_sites {σ : Type} (c : Cfg) (P : Platform σ) (s : State σ)
    (r : ReportResult σ) (hsz : ∀ x ∈ s.head, x.size < 2 ^ 64)
    (hr : heaps_report c P s = some r) (harr : r.arr ≠ 0 ∨ s.head = []) :
    r.cells.take (firstKeys s.head).length = reportSpec s.head := by
  unfold heaps_report report at hr
  simp only [Option.bind_eq_some] at hr
  obtain ⟨v, hl, hr⟩ := hr
  have hv : v.arr = r.arr ∧ (r.cells = v.cells ∨ ∃ e, r.cells = v.cells ++ [e]) := by
    by_cases hcnd : v.size &&& (if v.failed = true then 0 else 1) ≠ 0
    · rw [if_pos hcnd] at hr
      cases hh : v.st.head with
      | nil =>
        simp only [hh] at hr
        cases hr
      | cons hd tl =>
        simp only [hh, Option.some.injEq] at hr
        subst hr
        exact ⟨rfl, Or.inr ⟨_, rfl⟩⟩
    · rw [if_neg hcnd] at hr
      simp only [Option.some.injEq] at hr
      subst hr
      exact ⟨rfl, Or.inl rfl⟩
  rcases report_loop_cells c P s.head [] _ v hsz rfl rfl rfl hl with ⟨hf, ha⟩ | ⟨_, hc, _⟩
  · exfalso
    rcases harr with h1 | h1
    · rw [← hv.1] at h1
      exact h1 ha
    · rw [h1] at hl
      simp only [report_loop, Option.some.injEq] at hl
      rw [← hl] at hf
      cases hf
  · rw [List.nil_append] at hc
    rcases hv.2 with e | ⟨e, he⟩
    · rw [e, hc, ← reportSpec_length, List.take_length]
    · rw [he, hc, ← reportSpec_length, List.take_left']
      rfl

/-- Witness of C18: the report of `st2`, which holds two records from two call
sites. -/
theorem report_lists_call_sites_witness :
    ∃ r, heaps_report cfgTest P16 st2 = some r ∧
      r.cells.take (firstKeys st2.head).length = reportSpec st2.head := by
  obtain ⟨r, hr⟩ := Option.isSome_iff_exists.mp
    (show (heaps_report cfgTest P16 st2).isSome = true by decide!)
  have ha : (heaps_report cfgTest P16 st2).map (fun x => x.arr) = some 4272 := by decide!
  rw [hr] at ha
  simp only [Option.map_some', Option.some.injEq] at ha
  exact ⟨r, hr, report_lists_call_sites cfgTest P16 st2 r (by decide!) hr
    (Or.inl (by rw [ha]; decide))⟩

end Heaps

namespace Heaps

/-! ### What every operation keeps -/

theorem check_heap_some {σ : Type} (c : Cfg) (P : Platform σ) (s : State σ) (file : String)
    (line : Int) (ok : Bool) (hc : P.check s.plat = some ok) :
    ∃ es : List ErrorCall,
      check_heap c P s file line = some { s with errors := es ++ s.errors } ∧
      ∀ e ∈ es, e = { msg := "heap broken", file := file, line := line } := by
  unfold check_heap
  by_cases h1 : c.NO_PRE_OPERATION_WALK_CHECK = true
  · rw [if_pos h1]
    dsimp only
    rw [hc]
    cases ok
    · exact ⟨[_], rfl, by simp⟩
    · exact ⟨[], rfl, by simp⟩
  · rw [if_neg h1]
    by_cases h2 : (s.head.length : Int) ≠ s.allocation_count
    · rw [if_pos h2]
      have hc2 : P.check (error_handler s "heap broken" file line).plat = some ok := hc
      dsimp only
      rw [hc2]
      cases ok
      · exact ⟨[_, _], rfl, by simp⟩
      · exact ⟨[_], rfl, by simp⟩
    · rw [if_neg h2]
      dsimp only
      rw [hc]
      cases ok
      · exact ⟨[_], rfl, by simp⟩
      · exact ⟨[], rfl, by simp⟩

theorem check_heap_cases {σ : Type} (c : Cfg) (P : Platform σ) (s s1 : State σ) (file : String)
    (line : Int) (h : check_heap c P s file line = some s1) :
    ∃ es : List ErrorCall, s1 = { s with errors := es ++ s.errors } ∧
      ∀ e ∈ es, e = { msg := "heap broken", file := file, line := line } := by
  have hc : ∃ ok, P.check s.plat = some ok := by
    unfold check_heap at h
    rw [Option.map_eq_some'] at h
    obtain ⟨ok, hok, _⟩ := h
    refine ⟨ok, ?_⟩
    by_cases h1 : c.NO_PRE_OPERATION_WALK_CHECK = true
    · rw [if_pos h1] at hok; exact hok
    · rw [if_neg h1] at hok
      by_cases h2 : (s.head.length : Int) ≠ s.allocation_count
      · rw [if_pos h2] at hok; exact hok
      · rw [if_neg h2] at hok; exact hok
  obtain ⟨ok, hok⟩ := hc
  obtain ⟨es, h1, h2⟩ := check_heap_some c P s file line ok hok
  rw [h1] at h
  simp only [Option.some.injEq] at h
  exact ⟨es, h.symm, h2⟩

theorem errors_inv {σ : Type} (c : Cfg) (I : State σ → Prop) (hI : Kept c I) (file : String)
    (line : Int) (s : State σ) :
    ∀ (es : List ErrorCall), (∀ e ∈ es, e = { msg := "heap broken", file := file, line := line }) →
      I s → I { s with errors := es ++ s.errors } := by
  intro es
  induction es with
  | nil => intro _ hs; exact hs
  | cons e es ih =>
    intro he hs
    have h1 := ih (fun x hx => he x (List.mem_cons_of_mem _ hx)) hs
    have h2 := hI.error _ "heap broken" file line h1
    rw [he e (List.mem_cons_self _ _)]
    exact h2

theorem check_heap_inv {σ : Type} (c : Cfg) (P : Platform σ) (I : State σ → Prop) (hI : Kept c I)
    (s s1 : State σ) (file : String) (line : Int) (h : check_heap c P s file line = some s1)
    (hs : I s) : I s1 := by
  obtain ⟨es, rfl, he⟩ := check_heap_cases c P s s1 file line h
  exact errors_inv c I hI file line s es he hs

theorem track_headroom_inv {σ : Type} (c : Cfg) (P : Platform σ) (I : State σ → Prop)
    (hI : Kept c I) (s s1 : State σ) (h : track_headroom P s = some s1) (hs : I s) : I s1 := by
  unfold track_headroom at h
  rw [Option.map_eq_some'] at h
  obtain ⟨lf, _, rfl⟩ := h
  by_cases h1 : lf < s.headroom
  · rw [if_pos h1]; exact hI.headroom s lf h1 hs
  · rw [if_neg h1]; exact hs

theorem alloc_inv {σ : Type} (c : Cfg) (P : Platform σ) (I : State σ → Prop) (hI : Kept c I)
    (s : State σ) (size : Nat) (file : String) (line : Int) (r : State σ × Nat)
    (h : alloc_ c P s size file line = some r) (hs : I s) : I r.1 := by
  unfold alloc_ at h
  simp only [Option.bind_eq_some] at h
  obtain ⟨s1, h1, a, _, h2⟩ := h
  have t1 := check_heap_inv c P I hI s s1 file line h1 hs
  by_cases ha : a.2 = 0
  · rw [if_pos ha] at h2
    cases h2
    exact hI.error _ _ _ _ (hI.plat s1 a.1 t1)
  · rw [if_neg ha, Option.map_eq_some'] at h2
    obtain ⟨s3, h3, h4⟩ := h2
    subst h4
    exact track_headroom_inv c P I hI _ s3 h3 (hI.link _ _ _ _ _ (hI.plat s1 a.1 t1))

theorem realloc_inv {σ : Type} (c : Cfg) (P : Platform σ) (I : State σ → Prop) (hI : Kept c I) :
    ∀ (depth : Nat) (s : State σ) (ptr size : Nat) (file : String) (line : Int)
      (r : State σ × Nat), realloc_ c P depth s ptr size file line = some r → I s → I r.1 := by
  intro depth
  induction depth with
  | zero => intro s ptr size file line r h; simp [realloc_] at h
  | succ d ih =>
    intro s ptr size file line r h hs
    unfold realloc_ at h
    simp only [Option.bind_eq_some] at h
    obtain ⟨s1, h1, out, hout, hfin⟩ := h
    have t1 := check_heap_inv c P I hI s s1 file line h1 hs
    have tout : I out.1 := by
      generalize decide (ptr = 0) = al at hout
      generalize (if c.REALLOC_ZERO_DOESNT_FREE = true then false
        else decide (ptr ≠ 0 ∧ size = 0)) = fr at hout
      generalize (if c.REALLOC_ZERO_DOESNT_FREE = true then decide (ptr ≠ 0)
        else decide (ptr ≠ 0 ∧ 0 < size)) = re at hout
      cases al
      · rw [if_neg (by decide)] at hout
        cases fr
        · rw [if_neg (by decide)] at hout
          cases re
          · rw [if_neg (by decide)] at hout
            cases hout
            exact t1
          · rw [if_pos rfl, Option.map_eq_some'] at hout
            obtain ⟨a, _, h2⟩ := hout
            subst h2
            have t2 := hI.plat _ a.1 (hI.unlink s1 ptr t1)
            by_cases ha : a.2 = 0
            · rw [if_pos ha]
              exact hI.error _ _ _ _ t2
            · rw [if_neg ha]
              exact hI.link _ _ _ _ _ t2
        · rw [if_pos rfl] at hout
          by_cases hu : (unlink_allocation c s1 ptr).2 = 0
          · rw [if_pos hu] at hout
            cases hout
            exact hI.error _ _ _ _ (hI.unlink s1 ptr t1)
          · rw [if_neg hu, Option.map_eq_some'] at hout
            obtain ⟨a, h2, h3⟩ := hout
            subst h3
            exact ih _ _ _ _ _ a h2 (hI.unlink s1 ptr t1)
      · rw [if_pos rfl, Option.map_eq_some'] at hout
        obtain ⟨a, _, h2⟩ := hout
        subst h2
        by_cases ha : a.2 = 0
        · rw [if_pos ha]
          exact hI.error _ _ _ _ (hI.plat s1 a.1 t1)
        · rw [if_neg ha]
          exact hI.link _ _ _ _ _ (hI.plat s1 a.1 t1)
    by_cases ho : out.2 ≠ 0
    · rw [if_pos ho, Option.map_eq_some'] at hfin
      obtain ⟨s3, h3, h4⟩ := hfin
      subst h4
      exact track_headroom_inv c P I hI _ s3 h3 tout
    · rw [if_neg ho] at hfin
      cases hfin
      exact tout

theorem free_inv {σ : Type} (c : Cfg) (P : Platform σ) (I : State σ → Prop) (hI : Kept c I)
    (s : State σ) (ptr : Nat) (file : String) (line : Int) (r : State σ × Nat)
    (h : free_ c P s ptr file line = some r) (hs : I s) : I r.1 := by
  unfold free_ at h
  simp only [Option.bind_eq_some] at h
  obtain ⟨s1, h1, h2⟩ := h
  have t1 := check_heap_inv c P I hI s s1 file line h1 hs
  by_cases hp : ptr ≠ 0
  · rw [if_pos hp] at h2
    by_cases hu : (unlink_allocation c s1 ptr).2 = 0
    · rw [if_pos hu] at h2
      cases h2
      exact hI.error _ _ _ _ (hI.unlink s1 ptr t1)
    · rw [if_neg hu, Option.map_eq_some'] at h2
      obtain ⟨p, _, h3⟩ := h2
      subst h3
      exact hI.plat _ p (hI.unlink s1 ptr t1)
  · rw [if_neg hp] at h2
    cases h2
    exact t1

theorem calloc_inv {σ : Type} (c : Cfg) (P : Platform σ) (I : State σ → Prop) (hI : Kept c I)
    (s : State σ) (qty size : Nat) (file : String) (line : Int) (r : State σ × Nat)
    (h : calloc_ c P s qty size file line = some r) (hs : I s) : I r.1 := by
  unfold calloc_ at h
  simp only [Option.bind_eq_some] at h
  obtain ⟨s1, h1, a, _, h2⟩ := h
  have t1 := check_heap_inv c P I hI s s1 file line h1 hs
  by_cases ha : a.2 = 0
  · rw [if_pos ha] at h2
    cases h2
    exact hI.error _ _ _ _ (hI.plat s1 a.1 t1)
  · rw [if_neg ha, Option.map_eq_some'] at h2
    obtain ⟨s3, h3, h4⟩ := h2
    subst h4
    exact track_headroom_inv c P I hI _ s3 h3
      (hI.plat _ _ (hI.link _ _ _ _ _ (hI.plat s1 a.1 t1)))

theorem add_to_report_inv {σ : Type} (c : Cfg) (P : Platform σ) (I : State σ → Prop)
    (hI : Kept c I) (v v1 : ReportVars σ) (src : heaps_t)
    (h : add_to_report c P v src = some v1) (hs : I v.st) : I v1.st := by
  unfold add_to_report at h
  simp only [Option.bind_eq_some] at h
  obtain ⟨r, hr, h2⟩ := h
  have t1 := realloc_inv c P I hI _ _ _ _ _ _ r hr hs
  by_cases ha : r.2 = 0
  · rw [if_pos ha, Option.map_eq_some'] at h2
    obtain ⟨f, hf, h3⟩ := h2
    subst h3
    exact free_inv c P I hI _ _ _ _ f hf t1
  · rw [if_neg ha] at h2
    cases h2
    exact t1

theorem report_loop_inv {σ : Type} (c : Cfg) (P : Platform σ) (I : State σ → Prop)
    (hI : Kept c I) :
    ∀ (links : List heaps_t) (v v1 : ReportVars σ), report_loop c P links v = some v1 →
      I v.st → I v1.st := by
  intro links
  induction links with
  | nil => intro v v1 h hs; simp only [report_loop, Option.some.injEq] at h; subst h; exact hs
  | cons link rest ih =>
    intro v v1 h hs
    unfold report_loop at h
    split at h
    · cases h; exact hs
    · split at h
      · exact ih _ v1 h hs
      · rw [Option.bind_eq_some] at h
        obtain ⟨v2, h2, h3⟩ := h
        exact ih v2 v1 h3 (add_to_report_inv c P I hI v v2 link h2 hs)

theorem report_inv {σ : Type} (c : Cfg) (P : Platform σ) (I : State σ → Prop) (hI : Kept c I)
    (s : State σ) (r : ReportResult σ) (h : report c P s = some r) (hs : I s) : I r.st := by
  unfold report at h
  rw [Option.bind_eq_some] at h
  obtain ⟨v, hv, h2⟩ := h
  have t1 := report_loop_inv c P I hI s.head _ v hv hs
  by_cases hc : v.size &&& (if v.failed = true then 0 else 1) ≠ 0
  · rw [if_pos hc] at h2
    cases hh : v.st.head with
    | nil => rw [hh] at h2; cases h2
    | cons hd tl =>
      rw [hh] at h2
      simp only [Option.some.injEq] at h2
      subst h2
      exact t1
  · rw [if_neg hc] at h2
    simp only [Option.some.injEq] at h2
    subst h2
    exact t1

theorem call_inv {σ : Type} (c : Cfg) (P : Platform σ) (I : State σ → Prop) (hI : Kept c I)
    (s s1 : State σ) (k : Call) (h : k.run c P s = some s1) (hs : I s) : I s1 := by
  cases k with
  | alloc size file line =>
    simp only [Call.run, Option.map_eq_some'] at h
    obtain ⟨r, hr, rfl⟩ := h
    exact alloc_inv c P I hI s size file line r hr hs
  | free ptr file line =>
    simp only [Call.run, Option.map_eq_some'] at h
    obtain ⟨r, hr, rfl⟩ := h
    exact free_inv c P I hI s ptr file line r hr hs
  | realloc ptr size file line =>
    simp only [Call.run, Option.map_eq_some'] at h
    obtain ⟨r, hr, rfl⟩ := h
    exact realloc_inv c P I hI _ s ptr size file line r hr hs
  | calloc qty size file line =>
    simp only [Call.run, Option.map_eq_some'] at h
    obtain ⟨r, hr, rfl⟩ := h
    exact calloc_inv c P I hI s qty size file line r hr hs
  | report =>
    simp only [Call.run, Option.map_eq_some'] at h
    obtain ⟨r, hr, rfl⟩ := h
    exact report_inv c P I hI s r hr hs

theorem runCalls_inv {σ : Type} (c : Cfg) (P : Platform σ) (I : State σ → Prop) (hI : Kept c I) :
    ∀ (ks : List Call) (s s1 : State σ), runCalls c P s ks = some s1 → I s → I s1 := by
  intro ks
  induction ks with
  | nil => intro s s1 h hs; simp only [runCalls, Option.some.injEq] at h; subst h; exact hs
  | cons k ks ih =>
    intro s s1 h hs
    simp only [runCalls, Option.bind_eq_some] at h
    obtain ⟨s2, h2, h3⟩ := h
    exact ih s2 s1 h3 (call_inv c P I hI s s2 k h2 hs)

end Heaps
namespace Heaps

/-- C21: when the list rooted at `head` is empty, `heaps_report` returns the
null pointer, writes 0 to `*arr_size`, and leaves the whole state as it was: no
call of the platform or of the error handler is made, and the list and
`allocation_count` are unchanged. -/
theorem report_of_empty_list {σ : Type} (c : Cfg) (P : Platform σ) (s : State σ)
    (h : s.head = []) :
    heaps_report c P s = some { st := s, arr := 0, cells := [], arr_size := 0 } := by
  unfold heaps_report report
  rw [h]
  simp only [report_loop, Option.some_bind]
  simp

/-- Witness of C21: the report of the tracker at its initial values. -/
theorem report_of_empty_list_witness :
    heaps_report cfgTest P16 st0 = some { st := st0, arr := 0, cells := [], arr_size := 0 } :=
  report_of_empty_list cfgTest P16 st0 rfl

/-- C22: when the platform allocator returns the null pointer for
`size + sizeof(heaps_t)`, `heaps_alloc_(size, file, line)` returns the null
pointer; its last call of the error handler is "allocation failed" with the
file and line of the caller (the calls before it are those of `check_heap`);
no record is linked: `head`, `allocation_count`, `allocation_count_peak`,
`headroom` and `largest_allocation` are unchanged. -/
theorem alloc_failure_is_reported {σ : Type} (c : Cfg) (P : Platform σ) (s : State σ)
    (size : Nat) (file : String) (line : Int) (ok : Bool) (p : σ)
    (hc : P.check s.plat = some ok)
    (ha : P.alloc s.plat (Mcheap.add64 size c.H) = some (p, 0)) :
    ∃ (s2 : State σ) (es : List ErrorCall),
      heaps_alloc_ c P s size file line = some (s2, 0) ∧
      s2 = { s with plat := p,
                    errors := { msg := "allocation failed", file := file, line := line } ::
                      (es ++ s.errors) } ∧
      (∀ e ∈ es, e = { msg := "heap broken", file := file, line := line }) ∧
      s.sameVars s2 := by
  obtain ⟨es, h1, h2⟩ := check_heap_some c P s file line ok hc
  refine ⟨_, es, ?_, rfl, h2, ⟨rfl, rfl, rfl, rfl, rfl⟩⟩
  unfold heaps_alloc_ alloc_
  rw [h1]
  simp only [Option.some_bind]
  rw [ha]
  rfl

/-- Witness of C22: a request of 5000 bytes on the region of 1000 bytes. -/
theorem alloc_failure_is_reported_witness :
    ∃ (s2 : State Mcheap.Heap) (es : List ErrorCall),
      heaps_alloc_ cfgTest P16 st0 5000 "a.c" 1 = some (s2, 0) ∧
      s2 = { st0 with plat := st0.plat,
                      errors := { msg := "allocation failed", file := "a.c", line := 1 } ::
                        (es ++ st0.errors) } ∧
      (∀ e ∈ es, e = { msg := "heap broken", file := "a.c", line := 1 }) ∧
      st0.sameVars s2 :=
  alloc_failure_is_reported cfgTest P16 st0 5000 "a.c" 1 true st0.plat rfl rfl

end Heaps
namespace Heaps

theorem unlink_allocation_none {σ : Type} (c : Cfg) (s : State σ) (q : Nat)
    (hu : ∀ r ∈ s.head, Mcheap.add64 r.addr c.H ≠ q) : unlink_allocation c s q = (s, 0) := by
  unfold unlink_allocation
  rw [unlink_walk_none c q s.head hu]

/-- C23: for a non-null pointer `q` that is the content of no record of the
list, `heaps_free_(q, file, line)` returns the null pointer and its last call
of the error handler is "false free" with the file and line of the caller (the
calls before it are those of `check_heap`); the state of the platform and every
variable of the tracker are as before, so nothing was given to the platform.
`heaps_free_(NULL, file, line)` returns the null pointer and calls the error
handler only from `check_heap`; when the list has `allocation_count` records
and the platform check passes, the state after it is the state before it. -/
theorem false_free_is_reported {σ : Type} (c : Cfg) (P : Platform σ) (s : State σ)
    (q : Nat) (file : String) (line : Int) (ok : Bool)
    (hc : P.check s.plat = some ok) (hq : q ≠ 0)
    (hu : ∀ r ∈ s.head, Mcheap.add64 r.addr c.H ≠ q) :
    (∃ es : List ErrorCall,
      heaps_free_ c P s q file line =
        some ({ s with errors := { msg := "false free", file := file, line := line } ::
                  (es ++ s.errors) }, 0) ∧
      ∀ e ∈ es, e = { msg := "heap broken", file := file, line := line }) ∧
    (∃ es : List ErrorCall,
      heaps_free_ c P s 0 file line = some ({ s with errors := es ++ s.errors }, 0) ∧
      ∀ e ∈ es, e = { msg := "heap broken", file := file, line := line }) ∧
    ((s.head.length : Int) = s.allocation_count → ok = true →
      heaps_free_ c P s 0 file line = some (s, 0)) := by
  obtain ⟨es, h1, h2⟩ := check_heap_some c P s file line ok hc
  refine ⟨⟨es, ?_, h2⟩, ⟨es, ?_, h2⟩, ?_⟩
  · unfold heaps_free_ free_
    rw [h1]
    simp only [Option.some_bind]
    rw [if_pos hq, unlink_allocation_none c { s with errors := es ++ s.errors } q hu]
    rfl
  · unfold heaps_free_ free_
    rw [h1]
    simp only [Option.some_bind]
    rw [if_neg (by simp)]
  · intro hl hok
    subst hok
    unfold heaps_free_ free_ check_heap
    rw [if_neg (not_not.mpr hl)]
    simp only [ite_self]
    rw [hc]
    simp

/-- Witness of C23: in `st1` the pointer 4143 is one below the content of the
only record. -/
theorem false_free_is_reported_witness :
    (∃ es : List ErrorCall,
      heaps_free_ cfgTest P16 st1 4143 "f.c" 9 =
        some ({ st1 with errors := { msg := "false free", file := "f.c", line := 9 } ::
                  (es ++ st1.errors) }, 0) ∧
      ∀ e ∈ es, e = { msg := "heap broken", file := "f.c", line := 9 }) ∧
    (∃ es : List ErrorCall,
      heaps_free_ cfgTest P16 st1 0 "f.c" 9 = some ({ st1 with errors := es ++ st1.errors }, 0) ∧
      ∀ e ∈ es, e = { msg := "heap broken", file := "f.c", line := 9 }) ∧
    ((st1.head.length : Int) = st1.allocation_count → true = true →
      heaps_free_ cfgTest P16 st1 0 "f.c" 9 = some (st1, 0)) :=
  false_free_is_reported cfgTest P16 st1 4143 "f.c" 9 true (by decide!) (by decide)
    (by decide!)

/-- C24: in a build without `HEAPS_REALLOC_ZERO_DOESNT_FREE`, for a non-null
pointer `q` that is the content of no record of the list,
`heaps_realloc_(q, 0, file, line)` returns the null pointer and its last call of
the error handler is "false free via heaps_realloc()" with the file and line of
the caller (the calls before it are those of `check_heap`); the state of the
platform and every variable of the tracker are as before. -/
theorem realloc_false_free_is_reported {σ : Type} (c : Cfg) (P : Platform σ) (s : State σ)
    (q : Nat) (file : String) (line : Int) (ok : Bool)
    (hf : c.REALLOC_ZERO_DOESNT_FREE = false)
    (hc : P.check s.plat = some ok) (hq : q ≠ 0)
    (hu : ∀ r ∈ s.head, Mcheap.add64 r.addr c.H ≠ q) :
    ∃ es : List ErrorCall,
      heaps_realloc_ c P s q 0 file line =
        some ({ s with errors :=
                  { msg := "false free via heaps_realloc()", file := file, line := line } ::
                    (es ++ s.errors) }, 0) ∧
      ∀ e ∈ es, e = { msg := "heap broken", file := file, line := line } := by
  obtain ⟨es, h1, h2⟩ := check_heap_some c P s file line ok hc
  refine ⟨es, ?_, h2⟩
  unfold heaps_realloc_ realloc_
  rw [h1]
  simp only [Option.some_bind, hf]
  rw [if_neg (by simp [hq]), if_pos (by simp [hq]),
    unlink_allocation_none c { s with errors := es ++ s.errors } q hu]
  simp [error_handler]

/-- Witness of C24: in `st1` the pointer 4145 is one above the content of the
only record. -/
theorem realloc_false_free_is_reported_witness :
    ∃ es : List ErrorCall,
      heaps_realloc_ cfgTest P16 st1 4145 0 "f.c" 9 =
        some ({ st1 with errors :=
                  { msg := "false free via heaps_realloc()", file := "f.c", line := 9 } ::
                    (es ++ st1.errors) }, 0) ∧
      ∀ e ∈ es, e = { msg := "heap broken", file := "f.c", line := 9 } :=
  realloc_false_free_is_reported cfgTest P16 st1 4145 "f.c" 9 true rfl (by decide!) (by decide)
    (by decide!)

end Heaps
namespace Heaps

/-- C25 (counterexample): on the region of 1000 bytes a request of 5000 bytes
fails through both functions, but the error handler is called with different
messages: "allocation failed" by `heaps_alloc_` and "allocation via
heaps_realloc() failed" by `heaps_realloc_(NULL, ..)`. -/
theorem realloc_null_failure_message_differs :
    (heaps_alloc_ cfgTest P16 st0 5000 "a.c" 1).map (fun r => r.1.errors) =
      some [{ msg := "allocation failed", file := "a.c", line := 1 }] ∧
    (heaps_realloc_ cfgTest P16 st0 0 5000 "a.c" 1).map (fun r => r.1.errors) =
      some [{ msg := "allocation via heaps_realloc() failed", file := "a.c", line := 1 }] ∧
    heaps_realloc_ cfgTest P16 st0 0 5000 "a.c" 1 ≠ heaps_alloc_ cfgTest P16 st0 5000 "a.c" 1 := by
  have h1 : (heaps_alloc_ cfgTest P16 st0 5000 "a.c" 1).map (fun r => r.1.errors) =
      some [{ msg := "allocation failed", file := "a.c", line := 1 }] := by decide!
  have h2 : (heaps_realloc_ cfgTest P16 st0 0 5000 "a.c" 1).map (fun r => r.1.errors) =
      some [{ msg := "allocation via heaps_realloc() failed", file := "a.c", line := 1 }] := by
    decide!
  refine ⟨h1, h2, ?_⟩
  intro h
  rw [h, h1] at h2
  exact absurd h2 (by decide)

/-- C25 (amended): when the platform answers `heaps_platform_realloc(NULL, n)`
as it answers `heaps_platform_alloc(n)` and the content of the block it returns
is not at the null address, `heaps_realloc_(NULL, n, file, line)` gives the
result of `heaps_alloc_(n, file, line)`: the same pointer, list, counters,
`largest_allocation`, `headroom` and state of the platform, with one
difference: when the allocation fails, the message of the last call of the
error handler is "allocation via heaps_realloc() failed" instead of
"allocation failed" (with the same file and line). -/
theorem realloc_null_is_alloc {σ : Type} (c : Cfg) (P : Platform σ) (s : State σ) (n : Nat)
    (file : String) (line : Int)
    (hP : P.realloc s.plat 0 (Mcheap.add64 n c.H) = P.alloc s.plat (Mcheap.add64 n c.H))
    (hw : ∀ p, (P.alloc s.plat (Mcheap.add64 n c.H)).map Prod.snd = some p → p ≠ 0 →
      Mcheap.add64 p c.H ≠ 0) :
    heaps_realloc_ c P s 0 n file line =
      (heaps_alloc_ c P s n file line).map fun r =>
        if r.2 = 0 then
          ({ r.1 with errors :=
              { msg := "allocation via heaps_realloc() failed", file := file, line := line } ::
                r.1.errors.tail }, 0)
        else r := by
  unfold heaps_realloc_ heaps_alloc_ realloc_ alloc_
  cases hch : check_heap c P s file line with
  | none => rfl
  | some s1 =>
    obtain ⟨es, rfl, _⟩ := check_heap_cases c P s s1 file line hch
    simp only [Option.some_bind, decide_True, if_true]
    rw [hP]
    cases hA : P.alloc s.plat (Mcheap.add64 n c.H) with
    | none => rfl
    | some a =>
      simp only [Option.map_some', Option.some_bind]
      by_cases ha : a.2 = 0
      · simp [error_handler, ha]
      · have hne : (link_allocation c { s with plat := a.1, errors := es ++ s.errors } a.2 n
            file line).2 ≠ 0 := hw a.2 (by rw [hA]; rfl) ha
        simp only [if_neg ha, if_pos hne, Option.map_map]
        refine congrArg (fun f => Option.map f _) ?_
        funext s3
        simp only [Function.comp, if_neg hne]

/-- Witness of C25 (amended): 10 bytes on `st0`, where both calls return 4144. -/
theorem realloc_null_is_alloc_witness :
    heaps_realloc_ cfgTest P16 st0 0 10 "a.c" 1 =
      (heaps_alloc_ cfgTest P16 st0 10 "a.c" 1).map fun r =>
        if r.2 = 0 then
          ({ r.1 with errors :=
              { msg := "allocation via heaps_realloc() failed", file := "a.c", line := 1 } ::
                r.1.errors.tail }, 0)
        else r :=
  realloc_null_is_alloc cfgTest P16 st0 10 "a.c" 1 rfl (by
    intro p hp _
    have e : (P16.alloc st0.plat (Mcheap.add64 10 cfgTest.H)).map Prod.snd = some 4112 := by
      decide!
    rw [e] at hp
    simp only [Option.some.injEq] at hp
    rw [← hp]
    decide)

end Heaps
namespace Heaps

/-- C26: let `read` give the bytes of the memory of the host, with `memset`
storing its value at every address of its range. When `qty * size` is a
`size_t` value and `heaps_calloc_(qty, size, file, line)` returns a pointer `p`,
the `qty * size` bytes from `p` are all zero, and the list is the list before
the call with a new record in front whose content is `p`, whose `size` is
`qty * size` and whose file and line are those of the caller. -/
theorem calloc_zeroes_and_links {σ : Type} (c : Cfg) (P : Platform σ) (read : σ → Nat → Nat)
    (hset : ∀ x p v n a, p ≤ a → a < p + n → read (P.memset x p v n) a = v % 256)
    (s s1 : State σ) (qty size p : Nat) (file : String) (line : Int)
    (hfit : qty * size < 2 ^ 64)
    (h : heaps_calloc_ c P s qty size file line = some (s1, p)) (hp : p ≠ 0) :
    (∀ a, p ≤ a → a < p + qty * size → read s1.plat a = 0) ∧
    ∃ meta_ptr, s1.head =
        { addr := meta_ptr, size := qty * size, file := file, line := line } :: s.head ∧
      p = Mcheap.add64 meta_ptr c.H := by
  unfold heaps_calloc_ calloc_ at h
  simp only [Option.bind_eq_some] at h
  obtain ⟨s0, h0, a, _, h2⟩ := h
  obtain ⟨es, rfl, _⟩ := check_heap_cases c P s s0 file line h0
  have hsz : size * qty % 2 ^ 64 = qty * size := by
    rw [Nat.mul_comm, Nat.mod_eq_of_lt hfit]
  by_cases ha : a.2 = 0
  · rw [if_pos ha] at h2
    simp only [Option.some.injEq, Prod.mk.injEq] at h2
    exact absurd h2.2.symm hp
  · rw [if_neg ha, Option.map_eq_some'] at h2
    obtain ⟨s3, h3, h4⟩ := h2
    simp only [Prod.mk.injEq] at h4
    obtain ⟨rfl, rfl⟩ := h4
    unfold track_headroom at h3
    rw [Option.map_eq_some'] at h3
    obtain ⟨lf, _, rfl⟩ := h3
    rw [hsz]
    refine ⟨?_, a.2, ?_, rfl⟩
    · intro x hx1 hx2
      have := hset a.1 (Mcheap.add64 a.2 c.H) 0 (qty * size) x hx1 hx2
      split
      · exact this
      · exact this
    · split
      · rfl
      · rfl

/-- Witness of C26: `heaps_calloc_(100, 2, "c.c", 3)` on `st0` over MCHEAP
returns 4144. -/
theorem calloc_zeroes_and_links_witness :
    (∀ a, 4144 ≤ a → a < 4144 + 100 * 2 →
      (stateOf (heaps_calloc_ cfgTest P16 st0 100 2 "c.c" 3)).plat.mem a = 0) ∧
    ∃ meta_ptr, (stateOf (heaps_calloc_ cfgTest P16 st0 100 2 "c.c" 3)).head =
        { addr := meta_ptr, size := 100 * 2, file := "c.c", line := 3 } :: st0.head ∧
      4144 = Mcheap.add64 meta_ptr cfgTest.H :=
  calloc_zeroes_and_links cfgTest P16 (fun h a => h.mem a)
    (by
      intro x p v n a h1 h2
      simp only [P16, mcheapPlatform]
      rw [if_pos ⟨h1, h2⟩])
    st0 (stateOf (heaps_calloc_ cfgTest P16 st0 100 2 "c.c" 3)) 100 2 4144 "c.c" 3
    (by decide) rfl (by decide)

end Heaps
namespace Heaps

/-! ### The peak of the allocation count -/

theorem peak_kept {σ : Type} (c : Cfg) :
    Kept c (fun t : State σ => t.counts.head? = some t.allocation_count ∧
      t.allocation_count_peak ∈ t.counts ∧ ∀ v ∈ t.counts, v ≤ t.allocation_count_peak) := by
  refine ⟨fun s _ _ _ h => h, ?_, ?_, fun s _ h => h, fun s _ _ h => h⟩
  · intro s meta_ptr size file line h
    obtain ⟨h1, h2, h3⟩ := h
    simp only [link_allocation]
    refine ⟨rfl, ?_, ?_⟩
    · by_cases hlt : s.allocation_count_peak < s.allocation_count + 1
      · rw [if_pos hlt]; exact List.mem_cons_self _ _
      · rw [if_neg hlt]; exact List.mem_cons_of_mem _ h2
    · intro v hv
      rcases List.mem_cons.mp hv with rfl | hv
      · by_cases hlt : s.allocation_count_peak < s.allocation_count + 1
        · rw [if_pos hlt]
        · rw [if_neg hlt]; omega
      · have := h3 v hv
        by_cases hlt : s.allocation_count_peak < s.allocation_count + 1
        · rw [if_pos hlt]; omega
        · rw [if_neg hlt]; exact this
  · intro s ptr h
    obtain ⟨h1, h2, h3⟩ := h
    unfold unlink_allocation
    cases hw : unlink_walk c ptr s.head with
    | none => exact ⟨h1, h2, h3⟩
    | some x =>
      have hc : s.allocation_count ∈ s.counts := List.mem_of_mem_head? h1
      have := h3 _ hc
      refine ⟨rfl, List.mem_cons_of_mem _ h2, ?_⟩
      intro v hv
      rcases List.mem_cons.mp hv with rfl | hv
      · show s.allocation_count - 1 ≤ s.allocation_count_peak
        omega
      · exact h3 v hv

theorem peak_mono_kept {σ : Type} (c : Cfg) (n : Int) :
    Kept c (fun t : State σ => n ≤ t.allocation_count_peak) := by
  refine ⟨fun s _ _ _ h => h, ?_, ?_, fun s _ h => h, fun s _ _ h => h⟩
  · intro s meta_ptr size file line h
    simp only [link_allocation]
    by_cases hlt : s.allocation_count_peak < s.allocation_count + 1
    · rw [if_pos hlt]; omega
    · rw [if_neg hlt]; exact h
  · intro s ptr h
    unfold unlink_allocation
    cases hw : unlink_walk c ptr s.head with
    | none => exact h
    | some x => exact h

/-- C27: after every sequence of calls of the public interface from the
initial values of the variables, over any platform, `allocation_count_peak` is
the highest of the values `allocation_count` has held from the start (the
history `counts`, whose first entry is the current value): it is one of them
and none is above it. So `allocation_count` is at most the peak, and no call,
a free included, lowers the peak. -/
theorem peak_is_highest_count {σ : Type} (c : Cfg) (P : Platform σ) (p : σ)
    (ks : List Call) (s : State σ) (h : runCalls c P (State.init p) ks = some s) :
    s.counts.head? = some (heaps_get_allocation_count s) ∧
    heaps_get_allocation_count_peak s ∈ s.counts ∧
    (∀ v ∈ s.counts, v ≤ heaps_get_allocation_count_peak s) ∧
    heaps_get_allocation_count s ≤ heaps_get_allocation_count_peak s ∧
    ∀ k s1, Call.run c P s k = some s1 →
      heaps_get_allocation_count_peak s ≤ heaps_get_allocation_count_peak s1 := by
  have h0 : (fun t : State σ => t.counts.head? = some t.allocation_count ∧
      t.allocation_count_peak ∈ t.counts ∧ ∀ v ∈ t.counts, v ≤ t.allocation_count_peak)
      (State.init p) := by
    refine ⟨rfl, ?_, ?_⟩
    · simp [State.init]
    · intro v hv
      simp only [State.init, List.mem_singleton] at hv
      simp [State.init, hv]
  obtain ⟨h1, h2, h3⟩ := runCalls_inv c P _ (peak_kept c) ks _ s h h0
  refine ⟨h1, h2, h3, h3 _ (List.mem_of_mem_head? h1), ?_⟩
  intro k s1 hk
  exact call_inv c P _ (peak_mono_kept c s.allocation_count_peak) s s1 k hk (le_refl _)

/-- Witness of C27: two allocations and the release of the first over MCHEAP:
the count is 1 and the peak is 2. -/
theorem peak_is_highest_count_witness :
    ∃ s, runCalls cfgTest P16 st0
        [Call.alloc 10 "a.c" 1, Call.alloc 10 "b.c" 2, Call.free 4144 "a.c" 3] = some s ∧
      heaps_get_allocation_count s = 1 ∧ heaps_get_allocation_count_peak s = 2 ∧
      heaps_get_allocation_count_peak s ∈ s.counts ∧
      ∀ v ∈ s.counts, v ≤ heaps_get_allocation_count_peak s := by
  obtain ⟨s, hs⟩ := Option.isSome_iff_exists.mp
    (show (runCalls cfgTest P16 st0
        [Call.alloc 10 "a.c" 1, Call.alloc 10 "b.c" 2, Call.free 4144 "a.c" 3]).isSome = true
      by decide!)
  have h1 : (runCalls cfgTest P16 st0
      [Call.alloc 10 "a.c" 1, Call.alloc 10 "b.c" 2, Call.free 4144 "a.c" 3]).map
        (fun s => s.allocation_count) = some 1 := by decide!
  have h2 : (runCalls cfgTest P16 st0
      [Call.alloc 10 "a.c" 1, Call.alloc 10 "b.c" 2, Call.free 4144 "a.c" 3]).map
        (fun s => s.allocation_count_peak) = some 2 := by decide!
  rw [hs] at h1 h2
  simp only [Option.map_some', Option.some.injEq] at h1 h2
  have h3 := peak_is_highest_count cfgTest P16 Mcheap.heap0 _ s hs
  exact ⟨s, hs, h1, h2, h3.2.1, h3.2.2.1⟩

end Heaps
namespace Heaps

/-! ### The headroom -/

theorem headroom_kept {σ : Type} (c : Cfg) (n : Nat) :
    Kept c (fun t : State σ => t.headroom ≤ n) := by
  refine ⟨fun s _ _ _ h => h, fun s _ _ _ _ h => h, ?_, fun s _ h => h, ?_⟩
  · intro s ptr h
    unfold unlink_allocation
    cases hw : unlink_walk c ptr s.head with
    | none => exact h
    | some x => exact h
  · intro s v hv h
    exact le_trans (Nat.le_of_lt hv) h

theorem unlink_allocation_headroom {σ : Type} (c : Cfg) (s : State σ) (ptr : Nat) :
    (unlink_allocation c s ptr).1.headroom = s.headroom := by
  unfold unlink_allocation
  cases hw : unlink_walk c ptr s.head with
  | none => rfl
  | some x => rfl

theorem track_headroom_min {σ : Type} (P : Platform σ) (t s3 : State σ)
    (h : track_headroom P t = some s3) :
    ∃ lf, P.largest_free s3.plat = some lf ∧ s3.headroom = min t.headroom lf := by
  unfold track_headroom at h
  rw [Option.map_eq_some'] at h
  obtain ⟨lf, hlf, rfl⟩ := h
  refine ⟨lf, ?_, ?_⟩
  · by_cases h1 : lf < t.headroom
    · rw [if_pos h1]; exact hlf
    · rw [if_neg h1]; exact hlf
  · by_cases h1 : lf < t.headroom
    · rw [if_pos h1]
      exact (Nat.min_eq_right (Nat.le_of_lt h1)).symm
    · rw [if_neg h1]
      exact (Nat.min_eq_left (Nat.le_of_not_lt h1)).symm

theorem free_headroom {σ : Type} (c : Cfg) (P : Platform σ) (s : State σ) (ptr : Nat)
    (file : String) (line : Int) (r : State σ × Nat) (h : free_ c P s ptr file line = some r) :
    r.1.headroom = s.headroom := by
  unfold free_ at h
  simp only [Option.bind_eq_some] at h
  obtain ⟨s1, h1, h2⟩ := h
  obtain ⟨es, rfl, _⟩ := check_heap_cases c P s s1 file line h1
  by_cases hp : ptr ≠ 0
  · rw [if_pos hp] at h2
    by_cases hu : (unlink_allocation c { s with errors := es ++ s.errors } ptr).2 = 0
    · rw [if_pos hu] at h2
      cases h2
      exact unlink_allocation_headroom c _ ptr
    · rw [if_neg hu, Option.map_eq_some'] at h2
      obtain ⟨p, _, h3⟩ := h2
      subst h3
      exact unlink_allocation_headroom c _ ptr
  · rw [if_neg hp] at h2
    cases h2
    rfl

theorem alloc_headroom {σ : Type} (c : Cfg) (P : Platform σ) (s : State σ) (size : Nat)
    (file : String) (line : Int) (r : State σ × Nat)
    (h : alloc_ c P s size file line = some r) :
    ((P.alloc s.plat (Mcheap.add64 size c.H)).map Prod.snd = some 0 →
      r.1.headroom = s.headroom) ∧
    (r.2 ≠ 0 → ∃ lf, P.largest_free r.1.plat = some lf ∧ r.1.headroom = min s.headroom lf) := by
  unfold alloc_ at h
  simp only [Option.bind_eq_some] at h
  obtain ⟨s1, h1, a, hA, h2⟩ := h
  obtain ⟨es, rfl, _⟩ := check_heap_cases c P s s1 file line h1
  have hA2 : P.alloc s.plat (Mcheap.add64 size c.H) = some a := hA
  by_cases ha : a.2 = 0
  · rw [if_pos ha] at h2
    cases h2
    exact ⟨fun _ => rfl, fun hr => absurd rfl hr⟩
  · rw [if_neg ha, Option.map_eq_some'] at h2
    obtain ⟨s3, h3, h4⟩ := h2
    subst h4
    have hm := track_headroom_min P _ s3 h3
    refine ⟨?_, fun _ => hm⟩
    intro h0
    rw [hA2] at h0
    simp only [Option.map_some', Option.some.injEq] at h0
    exact absurd h0 ha

theorem calloc_headroom {σ : Type} (c : Cfg) (P : Platform σ) (s : State σ) (qty size : Nat)
    (file : String) (line : Int) (r : State σ × Nat)
    (h : calloc_ c P s qty size file line = some r) :
    ((if c.HAS_PLATFORM_ALLOC = true
        then P.alloc s.plat (Mcheap.add64 ((size * qty) % 2 ^ 64) c.H)
        else P.realloc s.plat 0 (Mcheap.add64 ((size * qty) % 2 ^ 64) c.H)).map Prod.snd
          = some 0 → r.1.headroom = s.headroom) ∧
    (r.2 ≠ 0 → ∃ lf, P.largest_free r.1.plat = some lf ∧ r.1.headroom = min s.headroom lf) := by
  unfold calloc_ at h
  simp only [Option.bind_eq_some] at h
  obtain ⟨s1, h1, a, hA, h2⟩ := h
  obtain ⟨es, rfl, _⟩ := check_heap_cases c P s s1 file line h1
  have hA2 : (if c.HAS_PLATFORM_ALLOC = true
        then P.alloc s.plat (Mcheap.add64 ((size * qty) % 2 ^ 64) c.H)
        else P.realloc s.plat 0 (Mcheap.add64 ((size * qty) % 2 ^ 64) c.H)) = some a := hA
  by_cases ha : a.2 = 0
  · rw [if_pos ha] at h2
    cases h2
    exact ⟨fun _ => rfl, fun hr => absurd rfl hr⟩
  · rw [if_neg ha, Option.map_eq_some'] at h2
    obtain ⟨s3, h3, h4⟩ := h2
    subst h4
    have hm := track_headroom_min P _ s3 h3
    refine ⟨?_, fun _ => hm⟩
    intro h0
    rw [hA2] at h0
    simp only [Option.map_some', Option.some.injEq] at h0
    exact absurd h0 ha

theorem realloc_zero_null {σ : Type} (c : Cfg) (P : Platform σ) (depth : Nat) (s : State σ)
    (ptr : Nat) (file : String) (line : Int) (r : State σ × Nat)
    (hf : c.REALLOC_ZERO_DOESNT_FREE = false) (hp : ptr ≠ 0)
    (h : realloc_ c P depth s ptr 0 file line = some r) : r.2 = 0 := by
  cases depth with
  | zero => simp [realloc_] at h
  | succ d =>
    unfold realloc_ at h
    simp only [Option.bind_eq_some, hf] at h
    obtain ⟨s1, _, out, hout, hfin⟩ := h
    rw [if_neg (by simp [hp]), if_pos (by simp [hp])] at hout
    have ho : out.2 = 0 := by
      by_cases hu : (unlink_allocation c s1 ptr).2 = 0
      · rw [if_pos hu] at hout
        cases hout
        rfl
      · rw [if_neg hu, Option.map_eq_some'] at hout
        obtain ⟨a, _, h3⟩ := hout
        subst h3
        rfl
    rw [if_neg (by simp [ho])] at hfin
    cases hfin
    exact ho

theorem realloc_headroom {σ : Type} (c : Cfg) (P : Platform σ) :
    ∀ (depth : Nat) (s : State σ) (ptr size : Nat) (file : String) (line : Int)
      (r : State σ × Nat), realloc_ c P depth s ptr size file line = some r →
      (r.2 = 0 → r.1.headroom = s.headroom) ∧
      (r.2 ≠ 0 → ∃ lf, P.largest_free r.1.plat = some lf ∧
        r.1.headroom = min s.headroom lf) := by
  intro depth
  induction depth with
  | zero => intro s ptr size file line r h; simp [realloc_] at h
  | succ d ih =>
    intro s ptr size file line r h
    unfold realloc_ at h
    simp only [Option.bind_eq_some] at h
    obtain ⟨s1, h1, out, hout, hfin⟩ := h
    obtain ⟨es, rfl, _⟩ := check_heap_cases c P s s1 file line h1
    have tout : out.1.headroom = s.headroom := by
      generalize decide (ptr = 0) = al at hout
      generalize hfr : (if c.REALLOC_ZERO_DOESNT_FREE = true then false
        else decide (ptr ≠ 0 ∧ size = 0)) = fr at hout
      generalize (if c.REALLOC_ZERO_DOESNT_FREE = true then decide (ptr ≠ 0)
        else decide (ptr ≠ 0 ∧ 0 < size)) = re at hout
      cases al
      · rw [if_neg (by decide)] at hout
        cases fr
        · rw [if_neg (by decide)] at hout
          cases re
          · rw [if_neg (by decide)] at hout
            cases hout
            rfl
          · rw [if_pos rfl, Option.map_eq_some'] at hout
            obtain ⟨a, _, h2⟩ := hout
            subst h2
            by_cases ha : a.2 = 0
            · rw [if_pos ha]
              exact unlink_allocation_headroom c _ ptr
            · rw [if_neg ha]
              exact unlink_allocation_headroom c _ ptr
        · rw [if_pos rfl] at hout
          by_cases hu : (unlink_allocation c { s with errors := es ++ s.errors } ptr).2 = 0
          · rw [if_pos hu] at hout
            cases hout
            exact unlink_allocation_headroom c _ ptr
          · rw [if_neg hu, Option.map_eq_some'] at hout
            obtain ⟨a, h2, h3⟩ := hout
            subst h3
            have hflag : c.REALLOC_ZERO_DOESNT_FREE = false := by
              cases hc : c.REALLOC_ZERO_DOESNT_FREE with
              | false => rfl
              | true => rw [hc] at hfr; simp at hfr
            have ha := realloc_zero_null c P d _ _ _ _ a hflag hu h2
            have := (ih _ _ _ _ _ a h2).1 ha
            show a.1.headroom = s.headroom
            rw [this]
            exact unlink_allocation_headroom c _ ptr
      · rw [if_pos rfl, Option.map_eq_some'] at hout
        obtain ⟨a, _, h2⟩ := hout
        subst h2
        by_cases ha : a.2 = 0
        · rw [if_pos ha]; rfl
        · rw [if_neg ha]; rfl
    by_cases ho : out.2 ≠ 0
    · rw [if_pos ho, Option.map_eq_some'] at hfin
      obtain ⟨s3, h3, h4⟩ := hfin
      subst h4
      refine ⟨fun h0 => absurd h0 ho, fun _ => ?_⟩
      rw [← tout]
      have hm := track_headroom_min P _ s3 h3
      exact hm
    · rw [if_neg ho] at hfin
      cases hfin
      exact ⟨fun _ => tout, fun h0 => absurd h0 ho⟩

/-- C28: over any platform and from any state, no call of the public interface
raises `headroom`. `heaps_free_` leaves it unchanged whatever the pointer; so do
`heaps_alloc_` and `heaps_calloc_` when the platform allocator returns the null
pointer, and `heaps_realloc_` when it returns the null pointer. When
`heaps_alloc_`, `heaps_calloc_` or `heaps_realloc_` returns a pointer, `headroom`
is the lower of its value before the call and the value
`heaps_platform_largest_free()` has in the state after the call. -/
theorem headroom_only_falls {σ : Type} (c : Cfg) (P : Platform σ) (s : State σ) :
    (∀ k s1, Call.run c P s k = some s1 → heaps_get_headroom s1 ≤ heaps_get_headroom s) ∧
    (∀ ptr file line r, heaps_free_ c P s ptr file line = some r →
      heaps_get_headroom r.1 = heaps_get_headroom s) ∧
    (∀ size file line r, heaps_alloc_ c P s size file line = some r →
      ((P.alloc s.plat (Mcheap.add64 size c.H)).map Prod.snd = some 0 →
        heaps_get_headroom r.1 = heaps_get_headroom s) ∧
      (r.2 ≠ 0 → ∃ lf, P.largest_free r.1.plat = some lf ∧
        heaps_get_headroom r.1 = min (heaps_get_headroom s) lf)) ∧
    (∀ qty size file line r, heaps_calloc_ c P s qty size file line = some r →
      ((if c.HAS_PLATFORM_ALLOC = true
          then P.alloc s.plat (Mcheap.add64 ((size * qty) % 2 ^ 64) c.H)
          else P.realloc s.plat 0 (Mcheap.add64 ((size * qty) % 2 ^ 64) c.H)).map Prod.snd
            = some 0 → heaps_get_headroom r.1 = heaps_get_headroom s) ∧
      (r.2 ≠ 0 → ∃ lf, P.largest_free r.1.plat = some lf ∧
        heaps_get_headroom r.1 = min (heaps_get_headroom s) lf)) ∧
    (∀ ptr size file line r, heaps_realloc_ c P s ptr size file line = some r →
      (r.2 = 0 → heaps_get_headroom r.1 = heaps_get_headroom s) ∧
      (r.2 ≠ 0 → ∃ lf, P.largest_free r.1.plat = some lf ∧
        heaps_get_headroom r.1 = min (heaps_get_headroom s) lf)) := by
  refine ⟨?_, ?_, ?_, ?_, ?_⟩
  · intro k s1 hk
    exact call_inv c P _ (headroom_kept c s.headroom) s s1 k hk (le_refl _)
  · intro ptr file line r h
    exact free_headroom c P s ptr file line r h
  · intro size file line r h
    exact alloc_headroom c P s size file line r h
  · intro qty size file line r h
    exact calloc_headroom c P s qty size file line r h
  · intro ptr size file line r h
    exact realloc_headroom c P _ s ptr size file line r h

/-- Witness of C28: the allocation of `st1` from `st0` over MCHEAP lowers
`headroom` to the 920 bytes that are the largest free block after it. -/
theorem headroom_only_falls_witness :
    heaps_get_headroom st1 ≤ heaps_get_headroom st0 ∧
    ∃ lf, P16.largest_free st1.plat = some lf ∧
      heaps_get_headroom st1 = min (heaps_get_headroom st0) lf :=
  ⟨(headroom_only_falls cfgTest P16 st0).1 (Call.alloc 10 "a.c" 1) st1 rfl,
   ((headroom_only_falls cfgTest P16 st0).2.2.1 10 "a.c" 1 (st1, 4144) rfl).2 (by decide)⟩

end Heaps
namespace Heaps

/-- C29 (defect of the code): at program start over MCHEAP, `heaps_free_(NULL)`
leaves the region uninitialised, where `mcheap_largest_free()` returns 0; the
allocation of 10 bytes that follows succeeds and sets `headroom` to 920. The
values of `mcheap_largest_free()` after the two calls are 0 and 920, so
`headroom` is not their minimum. -/
theorem headroom_misses_uninitialised_region :
    (runCalls cfgTest P16 stStart [Call.free 0 "f.c" 1, Call.alloc 10 "a.c" 2]).map
        heaps_get_headroom = some 920 ∧
    (runCalls cfgTest P16 stStart [Call.free 0 "f.c" 1, Call.alloc 10 "a.c" 2]).map
        heaps_get_allocation_count = some 1 ∧
    observed cfgTest P16 stStart [Call.free 0 "f.c" 1, Call.alloc 10 "a.c" 2] = some [0, 920] ∧
    lowest [0, 920] = 0 := by
  refine ⟨by decide!, by decide!, by decide!, by decide⟩

/-! ### The largest allocation -/

theorem largestSize_le (L : List heaps_t) (m : Nat) (h : ∀ x ∈ L, x.size ≤ m) :
    largestSize L ≤ m := by
  induction L with
  | nil => exact Nat.zero_le _
  | cons x L ih =>
    have h1 := h x (List.mem_cons_self _ _)
    have h2 := ih (fun y hy => h y (List.mem_cons_of_mem _ hy))
    show max x.size (largestSize L) ≤ m
    exact max_le h1 h2

theorem le_largestSize (L : List heaps_t) (r : heaps_t) (h : r ∈ L) : r.size ≤ largestSize L := by
  induction L with
  | nil => cases h
  | cons x L ih =>
    show r.size ≤ max x.size (largestSize L)
    rcases List.mem_cons.mp h with rfl | h
    · exact le_max_left _ _
    · exact le_trans (ih h) (le_max_right _ _)

theorem largest_kept {σ : Type} (c : Cfg) :
    Kept c (fun t : State σ => (∀ x ∈ t.linked, x.size ≤ t.largest_allocation.size) ∧
      (t.largest_allocation = { file := "", line := 0, count := 0, size := 0 } ∨
        ∃ newer r older, t.linked = newer ++ r :: older ∧ (∀ x ∈ older, x.size < r.size) ∧
          r.size = t.largest_allocation.size ∧ t.largest_allocation.file = r.file ∧
          t.largest_allocation.line = r.line ∧ 0 < r.size)) := by
  refine ⟨fun s _ _ _ h => h, ?_, ?_, fun s _ h => h, fun s _ _ h => h⟩
  · intro s meta_ptr size file line h
    obtain ⟨h1, h2⟩ := h
    simp only [link_allocation]
    by_cases hlt : s.largest_allocation.size < size
    · rw [if_pos hlt]
      refine ⟨?_, Or.inr ⟨[], _, s.linked, rfl, ?_, rfl, rfl, rfl, ?_⟩⟩
      · intro x hx
        rcases List.mem_cons.mp hx with rfl | hx
        · exact le_refl _
        · exact le_trans (h1 x hx) (Nat.le_of_lt hlt)
      · intro x hx
        exact lt_of_le_of_lt (h1 x hx) hlt
      · exact lt_of_le_of_lt (Nat.zero_le _) hlt
    · rw [if_neg hlt]
      refine ⟨?_, ?_⟩
      · intro x hx
        rcases List.mem_cons.mp hx with rfl | hx
        · exact Nat.le_of_not_lt hlt
        · exact h1 x hx
      · rcases h2 with h2 | ⟨newer, r, older, e1, e2, e3, e4, e5, e6⟩
        · exact Or.inl h2
        · refine Or.inr ⟨{ addr := meta_ptr, size := size, file := file, line := line } :: newer,
            r, older, ?_, e2, e3, e4, e5, e6⟩
          rw [e1]
          rfl
  · intro s ptr h
    unfold unlink_allocation
    cases hw : unlink_walk c ptr s.head with
    | none => exact h
    | some x => exact h

theorem largest_step_kept {σ : Type} (c : Cfg) (s : State σ) :
    Kept c (fun t : State σ => s.largest_allocation.size ≤ t.largest_allocation.size ∧
      ∃ new, t.linked = new ++ s.linked ∧ (new = [] → t.largest_allocation = s.largest_allocation))
    := by
  refine ⟨fun s _ _ _ h => h, ?_, ?_, fun s _ h => h, fun s _ _ h => h⟩
  · intro t meta_ptr size file line h
    obtain ⟨h1, new, h2, _⟩ := h
    simp only [link_allocation]
    refine ⟨?_, { addr := meta_ptr, size := size, file := file, line := line } :: new,
      by rw [h2]; rfl, fun hn => by cases hn⟩
    by_cases hlt : t.largest_allocation.size < size
    · rw [if_pos hlt]
      exact le_trans h1 (Nat.le_of_lt hlt)
    · rw [if_neg hlt]
      exact h1
  · intro t ptr h
    unfold unlink_allocation
    cases hw : unlink_walk c ptr t.head with
    | none => exact h
    | some x => exact h

/-- C30 (counterexample): `heaps_alloc_(0, "a.c", 1)` on `st0` succeeds and
links a record of size 0, the first allocation to reach the maximum 0 of the
sizes linked so far, yet `largest_allocation` keeps its initial value, with no
file and line 0. -/
theorem largest_allocation_skips_empty_request :
    (heaps_alloc_ cfgTest P16 st0 0 "a.c" 1).map (fun r => r.2) = some 4144 ∧
    (heaps_alloc_ cfgTest P16 st0 0 "a.c" 1).map (fun r => r.1.linked) =
      some [{ addr := 4112, size := 0, file := "a.c", line := 1 }] ∧
    (heaps_alloc_ cfgTest P16 st0 0 "a.c" 1).map (fun r => heaps_get_largest_allocation r.1) =
      some { file := "", line := 0, count := 0, size := 0 } := by
  refine ⟨by decide!, by decide!, by decide!⟩

/-- C30 (amended): after every sequence of calls of the public interface from
the initial values of the variables, over any platform, `largest_allocation.size`
is the largest size among the records linked so far (the history `linked`,
most recent first; 0 when there is none). When that size is above 0, the file
and line are those of the earliest linked record that has it; when it is 0,
`largest_allocation` still has its initial value. No call lowers the size, and
a call that links no record leaves `largest_allocation` as it was. -/
theorem largest_allocation_is_first_highest {σ : Type} (c : Cfg) (P : Platform σ) (p : σ)
    (ks : List Call) (s : State σ) (h : runCalls c P (State.init p) ks = some s) :
    (heaps_get_largest_allocation s).size = largestSize s.linked ∧
    (largestSize s.linked = 0 →
      heaps_get_largest_allocation s = { file := "", line := 0, count := 0, size := 0 }) ∧
    (0 < largestSize s.linked →
      ∃ newer r older, s.linked = newer ++ r :: older ∧ (∀ x ∈ older, x.size < r.size) ∧
        r.size = largestSize s.linked ∧ (heaps_get_largest_allocation s).file = r.file ∧
        (heaps_get_largest_allocation s).line = r.line) ∧
    (∀ k s1, Call.run c P s k = some s1 →
      (heaps_get_largest_allocation s).size ≤ (heaps_get_largest_allocation s1).size ∧
      (s1.linked = s.linked → heaps_get_largest_allocation s1 = heaps_get_largest_allocation s))
    := by
  have h0 : (fun t : State σ => (∀ x ∈ t.linked, x.size ≤ t.largest_allocation.size) ∧
      (t.largest_allocation = { file := "", line := 0, count := 0, size := 0 } ∨
        ∃ newer r older, t.linked = newer ++ r :: older ∧ (∀ x ∈ older, x.size < r.size) ∧
          r.size = t.largest_allocation.size ∧ t.largest_allocation.file = r.file ∧
          t.largest_allocation.line = r.line ∧ 0 < r.size)) (State.init p) := by
    refine ⟨?_, Or.inl rfl⟩
    intro x hx
    simp [State.init] at hx
  obtain ⟨h1, h2⟩ := runCalls_inv c P _ (largest_kept c) ks _ s h h0
  have hsz : s.largest_allocation.size = largestSize s.linked := by
    apply le_antisymm
    · rcases h2 with h2 | ⟨newer, r, older, e1, _, e3, _, _, _⟩
      · rw [h2]; exact Nat.zero_le _
      · rw [← e3]
        exact le_largestSize _ r (by rw [e1]; simp)
    · exact largestSize_le _ _ h1
  refine ⟨hsz, ?_, ?_, ?_⟩
  · intro hz
    rcases h2 with h2 | ⟨newer, r, older, _, _, e3, _, _, e6⟩
    · exact h2
    · rw [e3, hsz, hz] at e6
      exact absurd e6 (Nat.lt_irrefl 0)
  · intro hpos
    rcases h2 with h2 | ⟨newer, r, older, e1, e2, e3, e4, e5, _⟩
    · rw [← hsz, h2] at hpos
      exact absurd hpos (Nat.lt_irrefl 0)
    · exact ⟨newer, r, older, e1, e2, by rw [e3, hsz], e4, e5⟩
  · intro k s1 hk
    obtain ⟨k1, new, k2, k3⟩ := call_inv c P _ (largest_step_kept c s) s s1 k hk
      ⟨le_refl _, [], rfl, fun _ => rfl⟩
    refine ⟨k1, ?_⟩
    intro he
    apply k3
    rw [he] at k2
    have hl := congrArg List.length k2
    simp only [List.length_append] at hl
    exact List.length_eq_zero.mp (by omega)

/-- Witness of C30 (amended): allocations of 10, 20 and 20 bytes from the call
sites "a.c":1, "b.c":2 and "c.c":3 over MCHEAP: the largest allocation is the
one of "b.c":2. -/
theorem largest_allocation_is_first_highest_witness :
    ∃ s, runCalls cfgTest P16 st0
        [Call.alloc 10 "a.c" 1, Call.alloc 20 "b.c" 2, Call.alloc 20 "c.c" 3] = some s ∧
      (heaps_get_largest_allocation s).size = largestSize s.linked ∧
      heaps_get_largest_allocation s = { file := "b.c", line := 2, count := 0, size := 20 } := by
  obtain ⟨s, hs⟩ := Option.isSome_iff_exists.mp
    (show (runCalls cfgTest P16 st0
        [Call.alloc 10 "a.c" 1, Call.alloc 20 "b.c" 2, Call.alloc 20 "c.c" 3]).isSome = true
      by decide!)
  have h1 : (runCalls cfgTest P16 st0
      [Call.alloc 10 "a.c" 1, Call.alloc 20 "b.c" 2, Call.alloc 20 "c.c" 3]).map
        heaps_get_largest_allocation =
      some { file := "b.c", line := 2, count := 0, size := 20 } := by decide!
  rw [hs] at h1
  simp only [Option.map_some', Option.some.injEq] at h1
  exact ⟨s, hs, (largest_allocation_is_first_highest cfgTest P16 Mcheap.heap0 _ s hs).1, h1⟩

end Heaps

namespace Mcheap

/-! ### The walk of the free list -/

theorem free_list_loop_spec (c : Cfg) (m : Mem) (xs : List Sec) :
    ∀ fuel nf a e, 0 < a → xs.length < fuel → Seg c m a nf xs e 0 →
      free_list_loop m fuel nf = some (freeAddrs a xs) := by
  induction xs with
  | nil =>
    intro fuel nf a e _ hf hs
    simp only [Seg] at hs
    obtain ⟨f, rfl⟩ : ∃ f, fuel = f + 1 := ⟨fuel - 1, by simp only [List.length_nil] at hf; omega⟩
    simp only [free_list_loop, freeAddrs]
    rw [if_neg (by omega)]
  | cons s r ih =>
    intro fuel nf a e ha hf hs
    obtain ⟨f, rfl⟩ : ∃ f, fuel = f + 1 := ⟨fuel - 1, by simp only [List.length_cons] at hf; omega⟩
    simp only [List.length_cons] at hf
    cases s with
    | free fp =>
      simp only [Seg] at hs
      obtain ⟨_, h2, _, h4⟩ := hs
      subst h2
      simp only [free_list_loop, freeAddrs]
      rw [if_pos (by omega), ih f _ (nf + fp) e (by omega) (by omega) h4]
      rfl
    | used fp =>
      simp only [Seg] at hs
      simp only [freeAddrs]
      exact ih (f + 1) nf (a + fp) e (by omega) (by omega) hs.2.2
    | loose fp =>
      simp only [Seg] at hs
      simp only [freeAddrs]
      exact ih (f + 1) nf (a + fp) e (by omega) (by omega) hs.2.2

theorem free_list_spec (c : Cfg) (hc : c.Valid) (h : Heap) (secs : List Sec)
    (ht : Tiled c h secs) : free_list c h = some (freeAddrs c.base secs) := by
  have hlen := (Tiled_len c hc h _ [] (by rw [List.append_nil]; exact ht)).1
  exact free_list_loop_spec c h.mem _ c.fuel h.first_free c.base _ hc.2.2.2.2.2.1 hlen ht

theorem freeAddrs_ge (xs : List Sec) : ∀ a x, x ∈ freeAddrs a xs → a ≤ x := by
  induction xs with
  | nil => intro a x hx; cases hx
  | cons s r ih =>
    intro a x hx
    cases s with
    | free fp =>
      simp only [freeAddrs, List.mem_cons] at hx
      rcases hx with rfl | hx
      · exact le_refl _
      · have := ih _ _ hx; omega
    | used fp =>
      simp only [freeAddrs] at hx
      have := ih _ _ hx; omega
    | loose fp =>
      simp only [freeAddrs] at hx
      have := ih _ _ hx; omega

theorem freeAddrs_ascending (xs : List Sec) (hpos : ∀ s ∈ xs, 0 < s.fp) :
    ∀ a, (freeAddrs a xs).Pairwise (fun x y => x < y) := by
  induction xs with
  | nil => intro a; exact List.Pairwise.nil
  | cons s r ih =>
    intro a
    have hr := ih (fun t ht => hpos t (List.mem_cons_of_mem _ ht))
    have hs := hpos s (List.mem_cons_self _ _)
    cases s with
    | free fp =>
      simp only [freeAddrs]
      refine List.Pairwise.cons ?_ (hr _)
      intro y hy
      have := freeAddrs_ge r _ y hy
      simp only [Sec.fp] at hs
      omega
    | used fp => simp only [freeAddrs]; exact hr _
    | loose fp => simp only [freeAddrs]; exact hr _

theorem freeAddrs_starts (xs : List Sec) : ∀ a x, x ∈ freeAddrs a xs → x ∈ starts a xs := by
  induction xs with
  | nil => intro a x hx; cases hx
  | cons s r ih =>
    intro a x hx
    cases s with
    | free fp =>
      simp only [freeAddrs, List.mem_cons] at hx
      simp only [starts, List.mem_cons]
      rcases hx with rfl | hx
      · exact Or.inl rfl
      · exact Or.inr (ih _ _ hx)
    | used fp =>
      simp only [freeAddrs] at hx
      simp only [starts, List.mem_cons]
      exact Or.inr (ih _ _ hx)
    | loose fp =>
      simp only [freeAddrs] at hx
      simp only [starts, List.mem_cons]
      exact Or.inr (ih _ _ hx)

theorem starts_cases (xs : List Sec) (hnl : NoLoose xs) (hpos : ∀ s ∈ xs, 0 < s.fp) :
    ∀ a x, x ∈ starts a xs → (x ∈ freeAddrs a xs ↔ ¬ ∃ fp, (x, fp) ∈ usedSecs a xs) := by
  induction xs with
  | nil => intro a x hx; cases hx
  | cons s r ih =>
    intro a x hx
    have hr := ih ((NoLoose_cons s r).mp hnl).2 (fun t ht => hpos t (List.mem_cons_of_mem _ ht))
    have hs := hpos s (List.mem_cons_self _ _)
    simp only [starts, List.mem_cons] at hx
    cases s with
    | free fp =>
      simp only [Sec.fp] at hs hx
      simp only [freeAddrs, usedSecs, List.mem_cons]
      rcases hx with rfl | hx
      · constructor
        · intro _ hex
          obtain ⟨g, hg⟩ := hex
          have := (usedSecs_bounds r _ _ hg).1
          simp only at this
          omega
        · intro _; exact Or.inl rfl
      · have hge := starts_ge r _ x hx
        rw [← hr _ x hx]
        constructor
        · intro h
          rcases h with rfl | h
          · omega
          · exact h
        · intro h; exact Or.inr h
    | used fp =>
      simp only [Sec.fp] at hs hx
      simp only [freeAddrs, usedSecs, List.mem_cons]
      rcases hx with rfl | hx
      · constructor
        · intro h
          have := freeAddrs_ge r _ _ h
          omega
        · intro h
          exact absurd ⟨fp, Or.inl rfl⟩ h
      · have hge := starts_ge r _ x hx
        rw [hr _ x hx]
        constructor
        · intro h hex
          obtain ⟨g, hg⟩ := hex
          rcases hg with hg | hg
          · simp only [Prod.mk.injEq] at hg
            omega
          · exact h ⟨g, hg⟩
        · intro h hex
          obtain ⟨g, hg⟩ := hex
          exact h ⟨g, Or.inr hg⟩
    | loose fp =>
      exact absurd rfl (((NoLoose_cons _ r).mp hnl).1 fp)

theorem live_iff_used (c : Cfg) (s : Sys) (secs : List Sec) (hI : Inv c s secs) (x : Nat) :
    x + c.U ∈ s.live ↔ ∃ fp, (x, fp) ∈ usedSecs c.base secs := by
  rw [hI.2.2.2.2 (x + c.U), usedPtrs_mem]
  constructor
  · intro h
    obtain ⟨y, hy, he⟩ := h
    have : y.1 = x := by omega
    exact ⟨y.2, by rw [← this]; exact hy⟩
  · intro h
    obtain ⟨fp, hfp⟩ := h
    exact ⟨(x, fp), hfp, rfl⟩

/-- C31: in every state reached from an initialised region by calls of the
public interface on live pointers, the region is tiled by sections, and the
walk of the list rooted at `first_free` ends and visits strictly ascending
addresses; every address it visits is the start of a section of the tiling, a
section of the tiling is visited exactly when it is not the section of a live
allocation, and `in_free_list` finds exactly the visited sections. -/
theorem free_list_ascending_and_exact (c : Cfg) (hc : c.Valid) (s : Sys) (hr : Reach c s) :
    ∃ secs L, Tiled c s.heap secs ∧ free_list c s.heap = some L ∧
      L.Pairwise (fun x y => x < y) ∧
      (∀ q ∈ L, q ∈ starts c.base secs) ∧
      (∀ x ∈ starts c.base secs, (x ∈ L ↔ x + c.U ∉ s.live)) ∧
      ∀ q, in_free_list c s.heap q = some (decide (q ∈ L)) := by
  obtain ⟨secs, hI⟩ := reach_inv c hc s hr
  have ht := hI.2.1
  have hpos := Tiled_pos c hc s.heap secs ht
  refine ⟨secs, freeAddrs c.base secs, ht, free_list_spec c hc s.heap secs ht,
    freeAddrs_ascending secs hpos c.base, fun q hq => freeAddrs_starts secs _ q hq, ?_,
    fun q => in_free_list_mem c hc s.heap secs ht q⟩
  intro x hx
  rw [live_iff_used c s secs hI x]
  exact starts_cases secs hI.2.2.1 hpos c.base x hx

/-- Witness of C31: the state `heapC`, with a free hole below the live block
at 4240 and the free tail above it. -/
theorem free_list_ascending_and_exact_witness :
    ∃ secs L, Tiled cfg16 heapC secs ∧ free_list cfg16 heapC = some L ∧
      L.Pairwise (fun x y => x < y) ∧
      (∀ q ∈ L, q ∈ starts cfg16.base secs) ∧
      (∀ x ∈ starts cfg16.base secs, (x ∈ L ↔ x + cfg16.U ∉ [4240])) ∧
      ∀ q, in_free_list cfg16 heapC q = some (decide (q ∈ L)) :=
  free_list_ascending_and_exact cfg16 (by decide) { heap := heapC, live := [4240] } reach_heapC

end Mcheap

namespace Mcheap

/-! ### First fit -/

theorem firstFit_none (need : Nat) (xs : List Sec) :
    ∀ a, 0 < a → firstFit need a xs = 0 → ∀ y ∈ freeSecs a xs, y.2 < need := by
  induction xs with
  | nil => intro a _ _ y hy; cases hy
  | cons s r ih =>
    intro a ha h y hy
    cases s with
    | free fp =>
      simp only [firstFit] at h
      simp only [freeSecs, List.mem_cons] at hy
      by_cases hlt : fp < need
      · rw [if_pos hlt] at h
        rcases hy with rfl | hy
        · exact hlt
        · exact ih _ (by omega) h y hy
      · rw [if_neg hlt] at h
        omega
    | used fp =>
      simp only [firstFit] at h
      simp only [freeSecs] at hy
      exact ih _ (by omega) h y hy
    | loose fp =>
      simp only [firstFit] at h
      simp only [freeSecs] at hy
      exact ih _ (by omega) h y hy

theorem firstFit_ge (need : Nat) (xs : List Sec) (a : Nat) :
    firstFit need a xs = 0 ∨ a ≤ firstFit need a xs := by
  rcases firstFit_split need xs a with h | ⟨pre, fp, post, _, h, _⟩
  · exact Or.inl h
  · exact Or.inr (by omega)

theorem firstFit_at (need : Nat) (pre : List Sec) :
    ∀ a fp post, 0 < a → 0 < fp → (∀ s ∈ pre, 0 < s.fp) →
      firstFit need a (pre ++ Sec.free fp :: post) = a + span pre →
      (∀ y ∈ freeSecs a pre, y.2 < need) ∧ need ≤ fp := by
  induction pre with
  | nil =>
    intro a fp post ha hfp _ h
    simp only [List.nil_append, firstFit, span, Nat.add_zero] at h
    refine ⟨fun y hy => (by cases hy), ?_⟩
    by_cases hlt : fp < need
    · rw [if_pos hlt] at h
      rcases firstFit_ge need post (a + fp) with h0 | h0
      · omega
      · omega
    · omega
  | cons s r ih =>
    intro a fp post ha hfp hpos h
    have hs := hpos s (List.mem_cons_self _ _)
    have hr : ∀ t ∈ r, 0 < t.fp := fun t ht => hpos t (List.mem_cons_of_mem _ ht)
    cases s with
    | free g =>
      simp only [Sec.fp] at hs
      have h : firstFit need a (Sec.free g :: (r ++ Sec.free fp :: post)) = a + (g + span r) := h
      simp only [firstFit] at h
      by_cases hlt : g < need
      · rw [if_pos hlt] at h
        obtain ⟨h1, h2⟩ := ih (a + g) fp post (by omega) hfp hr (by omega)
        refine ⟨?_, h2⟩
        intro y hy
        simp only [freeSecs, List.mem_cons] at hy
        rcases hy with rfl | hy
        · exact hlt
        · exact h1 y hy
      · rw [if_neg hlt] at h
        omega
    | used g =>
      have h : firstFit need (a + g) (r ++ Sec.free fp :: post) = a + (g + span r) := h
      obtain ⟨h1, h2⟩ := ih (a + g) fp post (by omega) hfp hr (by omega)
      exact ⟨fun y hy => h1 y (by simpa only [freeSecs] using hy), h2⟩
    | loose g =>
      have h : firstFit need (a + g) (r ++ Sec.free fp :: post) = a + (g + span r) := h
      obtain ⟨h1, h2⟩ := ih (a + g) fp post (by omega) hfp hr (by omega)
      exact ⟨fun y hy => h1 y (by simpa only [freeSecs] using hy), h2⟩

theorem free_section_at (c : Cfg) (hc : c.Valid) (h : Heap) (secs : List Sec)
    (ht : Tiled c h secs) (y : Nat × Nat) (hy : y ∈ freeSecs c.base secs) :
    in_free_list c h y.1 = some true ∧ c.F + size_of h.mem y.1 = y.2 := by
  obtain ⟨pre, post, e1, e2⟩ := freeSecs_split secs c.base y hy
  subst e1
  have hb := (Tiled_bounds c h pre _ post ht).1
  simp only [Sec.fp] at hb
  have hs := (Tiled_free_at c hc h pre post y.2 ht).1
  refine ⟨?_, ?_⟩
  · rw [in_free_list_mem c hc h _ ht, freeAddrs_eq]
    simp only [Option.some.injEq, decide_eq_true_eq, List.mem_map]
    exact ⟨y, hy, rfl⟩
  · rw [e2, hs]
    omega

theorem free_list_section (c : Cfg) (hc : c.Valid) (h : Heap) (secs : List Sec)
    (ht : Tiled c h secs) (f : Nat) (hf : in_free_list c h f = some true) :
    ∃ g, (f, g) ∈ freeSecs c.base secs ∧ c.F + size_of h.mem f = g := by
  rw [in_free_list_mem c hc h _ ht, freeAddrs_eq] at hf
  simp only [Option.some.injEq, decide_eq_true_eq, List.mem_map] at hf
  obtain ⟨y, hy, rfl⟩ := hf
  exact ⟨y.2, hy, (free_section_at c hc h secs ht y hy).2⟩

/-- C32: in a reachable state, with `N` the size `enforce_minimum_allocation_size`
gives for the request, `mcheap_allocate` returns. It returns the null pointer
exactly when no section of the free list has
`sizeof(used_struct) + N <= sizeof(free_struct) + size`. Otherwise the section
of the returned payload was on the free list and satisfies that inequality, no
section of the list below it does, it is off the list afterwards, the state
with the new pointer live is reachable, and every section of the list below it
is still on the list with its size field unchanged. -/
theorem allocate_is_first_fit (c : Cfg) (hc : c.Valid) (s : Sys) (hr : Reach c s)
    (size : Nat) (hsz : size < 2 ^ 64) :
    ∃ h1 q, mcheap_allocate c s.heap size = some (h1, q) ∧
      Reach c { heap := h1, live := if q = 0 then s.live else q :: s.live } ∧
      (q = 0 ↔ ∀ f, in_free_list c s.heap f = some true →
        ¬ (c.U + enforce_minimum_allocation_size c size ≤ c.F + size_of s.heap.mem f)) ∧
      (q ≠ 0 →
        in_free_list c s.heap (q - c.U) = some true ∧
        c.U + enforce_minimum_allocation_size c size ≤ c.F + size_of s.heap.mem (q - c.U) ∧
        in_free_list c h1 (q - c.U) = some false ∧
        ∀ f, in_free_list c s.heap f = some true → f < q - c.U →
          ¬ (c.U + enforce_minimum_allocation_size c size ≤ c.F + size_of s.heap.mem f) ∧
          in_free_list c h1 f = some true ∧ size_of h1.mem f = size_of s.heap.mem f) := by
  obtain ⟨secs, hI⟩ := reach_inv c hc s hr
  obtain ⟨hinit, ht, hnl, hna, _⟩ := hI
  obtain ⟨h1, q, secs1, ha, _, ht1, hnl1, _, hcase⟩ :=
    allocate_spec c hc s.heap secs hinit ht hnl hna size hsz
  have hreach : Reach c { heap := h1, live := if q = 0 then s.live else q :: s.live } := by
    refine Reach.step s _ (Op.allocate size) hr hsz ?_
    simp only [Op.step, Op.call, mcheap_allocate, ha, Option.map_some', liveAfter]
  have hbase : 0 < c.base := hc.2.2.2.2.2.1
  refine ⟨h1, q, ha, hreach, ?_, ?_⟩
  · constructor
    · intro hq f hf
      rcases hcase with ⟨_, _, _, hff⟩ | ⟨p, fpu, e1, hp, _⟩
      · obtain ⟨g, hg, hsize⟩ := free_list_section c hc s.heap secs ht f hf
        have := firstFit_none _ secs c.base hbase hff (f, g) hg
        simp only at this
        omega
      · have hU := hc.2.1
        omega
    · intro hall
      rcases hcase with ⟨hq, _⟩ | ⟨p, fpu, e1, hp, _, _, pre, fp, post, e2, e3, e4, _⟩
      · exact hq
      · exfalso
        subst e2
        have hfp := (Tiled_bounds c s.heap pre _ post ht).1
        simp only [Sec.fp] at hfp
        have hF := hc.2.2.1
        have hpos := Tiled_pos c hc s.heap _ ht
        rw [e3] at e4
        have hfit := (firstFit_at _ pre c.base fp post hbase (by omega)
          (fun t h => hpos t (List.mem_append_left _ h)) e4).2
        have hy := freeSecs_mem pre post c.base fp
        obtain ⟨hin, hsize⟩ := free_section_at c hc s.heap _ ht _ hy
        rw [← e3] at hin hsize
        exact hall p hin (by simp only at hsize; omega)
  · intro hq
    rcases hcase with ⟨hq0, _⟩ | ⟨p, fpu, e1, hp, _, _, pre, fp, post, e2, e3, e4, e5⟩
    · exact absurd hq0 hq
    · subst e2
      have hqp : q - c.U = p := by omega
      rw [hqp]
      have hfp := (Tiled_bounds c s.heap pre _ post ht).1
      simp only [Sec.fp] at hfp
      have hF := hc.2.2.1
      have hpos := Tiled_pos c hc s.heap _ ht
      have hpre : ∀ t ∈ pre, 0 < t.fp := fun t h => hpos t (List.mem_append_left _ h)
      rw [e3] at e4
      obtain ⟨hlow, hfit⟩ := firstFit_at _ pre c.base fp post hbase (by omega) hpre e4
      have hy := freeSecs_mem pre post c.base fp
      obtain ⟨hin, hsize⟩ := free_section_at c hc s.heap _ ht _ hy
      rw [← e3] at hin hsize
      simp only at hsize
      obtain ⟨fpu2, rest, e6, _, _, _, hnlr, _⟩ := shrinkHead_eq c fp
        (enforce_minimum_allocation_size c size) post
      rw [e6] at e5
      subst e5
      have hpos1 := Tiled_pos c hc h1 _ ht1
      refine ⟨hin, by omega, ?_, ?_⟩
      · rw [in_free_list_mem c hc h1 _ ht1]
        have hst : p ∈ starts c.base (pre ++ Sec.used fpu2 :: rest) := by
          rw [e3]; exact starts_mem_mid pre _ rest c.base
        have := (starts_cases _ hnl1 hpos1 c.base p hst).mp
        simp only [Option.some.injEq, decide_eq_false_iff_not]
        intro hmem
        exact this hmem ⟨fpu2, by rw [e3]; exact usedSecs_mem pre rest c.base fpu2⟩
      · intro f hf hlt
        obtain ⟨g, hg, hgs⟩ := free_list_section c hc s.heap _ ht f hf
        rw [freeSecs_append] at hg
        rcases List.mem_append.mp hg with hg | hg
        · have hg1 : (f, g) ∈ freeSecs c.base (pre ++ Sec.used fpu2 :: rest) := by
            rw [freeSecs_append]
            exact List.mem_append_left _ hg
          obtain ⟨hin1, hsize1⟩ := free_section_at c hc h1 _ ht1 _ hg1
          simp only at hin1 hsize1
          have := hlow (f, g) hg
          simp only at this
          refine ⟨by omega, hin1, by omega⟩
        · have := (freeSecs_bounds _ _ _ hg).1
          simp only at this
          omega

/-- Witness of C32: a request of 50 bytes in `heapC`, where the hole at 4096
is the first section of the free list with room for it. -/
theorem allocate_is_first_fit_witness :
    ∃ h1 q, mcheap_allocate cfg16 heapC 50 = some (h1, q) ∧
      Reach cfg16 { heap := h1, live := if q = 0 then [4240] else q :: [4240] } ∧
      (q = 0 ↔ ∀ f, in_free_list cfg16 heapC f = some true →
        ¬ (cfg16.U + enforce_minimum_allocation_size cfg16 50 ≤
            cfg16.F + size_of heapC.mem f)) ∧
      (q ≠ 0 →
        in_free_list cfg16 heapC (q - cfg16.U) = some true ∧
        cfg16.U + enforce_minimum_allocation_size cfg16 50 ≤
          cfg16.F + size_of heapC.mem (q - cfg16.U) ∧
        in_free_list cfg16 h1 (q - cfg16.U) = some false ∧
        ∀ f, in_free_list cfg16 heapC f = some true → f < q - cfg16.U →
          ¬ (cfg16.U + enforce_minimum_allocation_size cfg16 50 ≤
              cfg16.F + size_of heapC.mem f) ∧
          in_free_list cfg16 h1 f = some true ∧ size_of h1.mem f = size_of heapC.mem f) :=
  allocate_is_first_fit cfg16 (by decide) { heap := heapC, live := [4240] } reach_heapC 50
    (by decide)

/-! ### A tiling is determined by its used sections -/

theorem span_pos_nil (xs : List Sec) (hpos : ∀ s ∈ xs, 0 < s.fp) (h : span xs = 0) : xs = [] := by
  cases xs with
  | nil => rfl
  | cons s r =>
    have := hpos s (List.mem_cons_self _ _)
    simp only [span] at h
    omega

theorem tiling_unique (xs : List Sec) :
    ∀ (ys : List Sec) (a : Nat), NoLoose xs → NoLoose ys → NoAdj xs → NoAdj ys →
      (∀ s ∈ xs, 0 < s.fp) → (∀ s ∈ ys, 0 < s.fp) → span xs = span ys →
      (∀ x, x ∈ usedSecs a xs ↔ x ∈ usedSecs a ys) → xs = ys := by
  induction xs with
  | nil =>
    intro ys a _ _ _ _ _ hpy hsp _
    simp only [span] at hsp
    exact (span_pos_nil ys hpy hsp.symm).symm
  | cons s r ih =>
    intro ys a hnlx hnly hnax hnay hpx hpy hsp hu
    have hs := hpx s (List.mem_cons_self _ _)
    have hpr : ∀ t ∈ r, 0 < t.fp := fun t ht => hpx t (List.mem_cons_of_mem _ ht)
    cases ys with
    | nil =>
      simp only [span] at hsp
      omega
    | cons t r2 =>
      have ht := hpy t (List.mem_cons_self _ _)
      have hpr2 : ∀ u ∈ r2, 0 < u.fp := fun u hu2 => hpy u (List.mem_cons_of_mem _ hu2)
      have hnlr := ((NoLoose_cons s r).mp hnlx).2
      have hnlr2 := ((NoLoose_cons t r2).mp hnly).2
      simp only [NoAdj] at hnax hnay
      simp only [span] at hsp
      cases s with
      | loose fp => exact absurd rfl (((NoLoose_cons _ r).mp hnlx).1 fp)
      | used fp =>
        simp only [Sec.fp] at hs hsp
        cases t with
        | loose g => exact absurd rfl (((NoLoose_cons _ r2).mp hnly).1 g)
        | used g =>
          simp only [Sec.fp] at ht hsp
          have h1 := (hu (a, fp)).mp (by simp only [usedSecs]; exact List.mem_cons_self _ _)
          simp only [usedSecs, List.mem_cons, Prod.mk.injEq, true_and] at h1
          have hfg : fp = g := by
            rcases h1 with h1 | h1
            · exact h1
            · have := (usedSecs_bounds r2 _ _ h1).1
              simp only at this
              omega
          subst hfg
          have hrec := ih r2 (a + fp) hnlr hnlr2 hnax.2 hnay.2 hpr hpr2 (by omega) (by
            intro x
            have hx := hu x
            simp only [usedSecs, List.mem_cons] at hx
            constructor
            · intro h
              have hb := (usedSecs_bounds r _ _ h).1
              rcases hx.mp (Or.inr h) with h2 | h2
              · rw [h2] at hb; simp only at hb; omega
              · exact h2
            · intro h
              have hb := (usedSecs_bounds r2 _ _ h).1
              rcases hx.mpr (Or.inr h) with h2 | h2
              · rw [h2] at hb; simp only at hb; omega
              · exact h2)
          rw [hrec]
        | free g =>
          exfalso
          have h1 := (hu (a, fp)).mp (by simp only [usedSecs]; exact List.mem_cons_self _ _)
          simp only [usedSecs] at h1
          have := (usedSecs_bounds r2 _ _ h1).1
          simp only [Sec.fp] at ht
          simp only at this
          omega
      | free fp =>
        simp only [Sec.fp] at hs hsp
        cases t with
        | loose g => exact absurd rfl (((NoLoose_cons _ r2).mp hnly).1 g)
        | used g =>
          exfalso
          have h1 := (hu (a, g)).mpr (by simp only [usedSecs]; exact List.mem_cons_self _ _)
          simp only [usedSecs] at h1
          have := (usedSecs_bounds r _ _ h1).1
          simp only at this
          omega
        | free g =>
          simp only [Sec.fp] at ht hsp
          simp only [usedSecs] at hu
          have hfg : fp = g := by
            rcases Nat.lt_trichotomy fp g with hlt | heq | hgt
            · exfalso
              cases r with
              | nil => simp only [span] at hsp; omega
              | cons s2 r3 =>
                cases s2 with
                | free k => simp [Sec.isFree, headFree] at hnax
                | loose k => exact absurd rfl (((NoLoose_cons _ r3).mp hnlr).1 k)
                | used k =>
                  have h1 := (hu (a + fp, k)).mp (by
                    simp only [usedSecs]; exact List.mem_cons_self _ _)
                  have := (usedSecs_bounds r2 _ _ h1).1
                  simp only at this
                  omega
            · exact heq
            · exfalso
              cases r2 with
              | nil => simp only [span] at hsp; omega
              | cons s2 r3 =>
                cases s2 with
                | free k => simp [Sec.isFree, headFree] at hnay
                | loose k => exact absurd rfl (((NoLoose_cons _ r3).mp hnlr2).1 k)
                | used k =>
                  have h1 := (hu (a + g, k)).mpr (by
                    simp only [usedSecs]; exact List.mem_cons_self _ _)
                  have := (usedSecs_bounds r _ _ h1).1
                  simp only at this
                  omega
          subst hfg
          have hrec := ih r2 (a + fp) hnlr hnlr2 hnax.2 hnay.2 hpr hpr2 (by omega) hu
          rw [hrec]

/-- C35: in a reachable state, when `mcheap_allocate(size)` returns a pointer
`p`, the call `mcheap_free(p)` that follows returns, and the list rooted at
`first_free` then visits the sections it visited before the allocation, at the
same addresses, in the same order and with the same size fields. -/
theorem allocate_free_restores_free_list (c : Cfg) (hc : c.Valid) (s : Sys) (hr : Reach c s)
    (size : Nat) (hsz : size < 2 ^ 64) :
    ∃ h1 p, mcheap_allocate c s.heap size = some (h1, p) ∧
      (p ≠ 0 → ∃ h2 L, mcheap_free c h1 p = some (h2, 0) ∧
        free_list c s.heap = some L ∧ free_list c h2 = some L ∧
        ∀ f ∈ L, size_of h2.mem f = size_of s.heap.mem f) := by
  obtain ⟨secs, hI⟩ := reach_inv c hc s hr
  obtain ⟨hinit, ht, hnl, hna, _⟩ := hI
  obtain ⟨h1, q, secs1, ha, hinit1, ht1, hnl1, hna1, hcase⟩ :=
    allocate_spec c hc s.heap secs hinit ht hnl hna size hsz
  refine ⟨h1, q, ha, ?_⟩
  intro hq
  rcases hcase with ⟨hq0, _⟩ | ⟨p, fpu, e1, hp, _, hused, pre, fp, post, e2, e3, _, _⟩
  · exact absurd hq0 hq
  · have hpu : (p, fpu) ∈ usedSecs c.base secs1 := (hused _).mpr (Or.inl rfl)
    obtain ⟨h2, secs2, hf, _, ht2, hnl2, hna2, hused2, _⟩ :=
      internal_free_spec c hc h1 secs1 p fpu hinit1 ht1 hnl1 hna1 hpu
    have hpos := Tiled_pos c hc s.heap _ ht
    have hpos2 := Tiled_pos c hc h2 _ ht2
    have hnot : ∀ x ∈ usedSecs c.base secs, x.1 ≠ p := by
      intro x hx
      rw [e2, usedSecs_append] at hx
      have hfp := hpos (Sec.free fp) (by rw [e2]; simp)
      simp only [Sec.fp] at hfp
      rcases List.mem_append.mp hx with hx | hx
      · have := (usedSecs_lt pre (fun t h => hpos t (by rw [e2]; exact List.mem_append_left _ h))
          c.base x hx).2
        omega
      · simp only [usedSecs] at hx
        have := (usedSecs_bounds post _ _ hx).1
        omega
    have hsame : ∀ x, x ∈ usedSecs c.base secs2 ↔ x ∈ usedSecs c.base secs := by
      intro x
      rw [hused2, hused]
      constructor
      · intro h
        rcases h.1 with h3 | h3
        · rw [h3] at h; exact absurd rfl h.2
        · exact h3
      · intro h
        exact ⟨Or.inr h, hnot x h⟩
    have hsp : span secs2 = span secs := by
      have e := Seg_end c _ _ _ _ _ _ ht
      have e' := Seg_end c _ _ _ _ _ _ ht2
      omega
    have heq : secs2 = secs :=
      tiling_unique secs2 secs c.base hnl2 hnl hna2 hna hpos2 hpos hsp hsame
    subst heq
    refine ⟨h2, freeAddrs c.base secs2, ?_, free_list_spec c hc s.heap _ ht,
      free_list_spec c hc h2 _ ht2, ?_⟩
    · rw [e1]; exact hf
    · intro f hf2
      rw [freeAddrs_eq] at hf2
      simp only [List.mem_map] at hf2
      obtain ⟨y, hy, rfl⟩ := hf2
      have a1 := (free_section_at c hc s.heap _ ht y hy).2
      have a2 := (free_section_at c hc h2 _ ht2 y hy).2
      omega

/-- Witness of C35: a request of 50 bytes in `heapC` returns 4112 (the hole at
4096 is split), and the release of 4112 gives back the free list 4096, 4304. -/
theorem allocate_free_restores_free_list_witness :
    ∃ h1 p, mcheap_allocate cfg16 heapC 50 = some (h1, p) ∧
      (p ≠ 0 → ∃ h2 L, mcheap_free cfg16 h1 p = some (h2, 0) ∧
        free_list cfg16 heapC = some L ∧ free_list cfg16 h2 = some L ∧
        ∀ f ∈ L, size_of h2.mem f = size_of heapC.mem f) :=
  allocate_free_restores_free_list cfg16 (by decide) { heap := heapC, live := [4240] }
    reach_heapC 50 (by decide)

end Mcheap
namespace Mcheap

/-- C33 (defect of the code): in the default build `MCHEAP_SIZE` is 1000 and
the alignment is 16. In the reachable state `heapB` the section at 4304 is on
the free list with the size field 776, and `mcheap_allocate(976)` on the
initialised region returns a used section with the size field 984; neither is a
multiple of 16. -/
theorem size_fields_not_aligned :
    Reach cfg16 { heap := heapB, live := [4240, 4112] } ∧
    in_free_list cfg16 heapB 4304 = some true ∧ size_of heapB.mem 4304 = 776 ∧
    776 % cfg16.ALIGN = 8 ∧
    (mcheap_allocate cfg16 heap0 976).map (fun r => (r.2, size_of r.1.mem (r.2 - cfg16.U))) =
      some (4112, 984) ∧
    984 % cfg16.ALIGN = 8 := by
  refine ⟨reach_heapB, by decide!, by decide!, by decide, by decide!, by decide⟩

theorem heap_test_loop_stuck :
    ∀ fuel, heap_test_loop cfg16 heapLoop.mem fuel 0 4096 true = none := by
  intro fuel
  induction fuel with
  | zero => rfl
  | succ n ih =>
    have h1 : add64 4096 (SECTION_SIZE_used cfg16 heapLoop.mem 4096) = 4096 := by decide!
    unfold heap_test_loop
    rw [if_pos ⟨rfl, by decide⟩]
    simp only [if_neg (show ¬ (4096 : Nat) = 0 by decide), h1]
    rw [if_neg (by decide)]
    exact ih

/-- C36 (defect of the code): in `heapLoop` the size field of the first section
is `2^64 - 16`, so that header plus size is 0 modulo `2^64`: every iteration of
the loop of `heap_test` leaves `section_ptr` at the start of the region, and no
iteration budget suffices for the function to return. -/
theorem heap_test_zero_step_never_returns :
    add64 cfg16.base (SECTION_SIZE_used cfg16 heapLoop.mem cfg16.base) = cfg16.base ∧
    ∀ fuel, heap_test cfg16 heapLoop fuel = none := by
  refine ⟨by decide!, ?_⟩
  intro fuel
  exact heap_test_loop_stuck fuel

end Mcheap

namespace Heaps

/-- C34 (defect of the code): at program start over MCHEAP in the default
build, `mcheap_is_intact()` returns false on the region no call has initialised
(the walk of `heap_test` over the zero-filled 1000 bytes steps by 16 and passes
the end), so the very first `heaps_alloc_(10, "a.c", 1)`, which returns 4144,
calls the error handler with "heap broken". -/
theorem first_call_reports_heap_broken :
    Mcheap.mcheap_is_intact Mcheap.cfg16 stStart.plat = some false ∧
    (heaps_alloc_ cfgTest P16 stStart 10 "a.c" 1).map (fun r => r.2) = some 4144 ∧
    (heaps_alloc_ cfgTest P16 stStart 10 "a.c" 1).map (fun r => r.1.errors) =
      some [{ msg := "heap broken", file := "a.c", line := 1 }] := by
  refine ⟨by decide!, by decide!, by decide!⟩

/-- C37 (defect of the code): `heaps_calloc_(2^63, 2, "c.c", 3)` on `st0`
returns the pointer 4144 although `2^63 * 2` is not a `size_t` value: the
product wraps to 0, 32 bytes are requested from the platform and the record has
size 0. Likewise `heaps_alloc_(2^64 - 1, "a.c", 1)` returns 4144 after a request
of 31 bytes, with a record of size `2^64 - 1`. -/
theorem calloc_wrapped_product_succeeds :
    Mcheap.add64 ((2 * 2 ^ 63) % 2 ^ 64) cfgTest.H = 32 ∧
    (heaps_calloc_ cfgTest P16 st0 (2 ^ 63) 2 "c.c" 3).map (fun r => r.2) = some 4144 ∧
    (heaps_calloc_ cfgTest P16 st0 (2 ^ 63) 2 "c.c" 3).map (fun r => r.1.head) =
      some [{ addr := 4112, size := 0, file := "c.c", line := 3 }] ∧
    (heaps_calloc_ cfgTest P16 st0 (2 ^ 63) 2 "c.c" 3).map
      (fun r => Mcheap.size_of r.1.plat.mem 4096) = some 32 ∧
    Mcheap.add64 (2 ^ 64 - 1) cfgTest.H = 31 ∧
    (heaps_alloc_ cfgTest P16 st0 (2 ^ 64 - 1) "a.c" 1).map (fun r => r.2) = some 4144 ∧
    (heaps_alloc_ cfgTest P16 st0 (2 ^ 64 - 1) "a.c" 1).map (fun r => r.1.head) =
      some [{ addr := 4112, size := 2 ^ 64 - 1, file := "a.c", line := 1 }] ∧
    (heaps_alloc_ cfgTest P16 st0 (2 ^ 64 - 1) "a.c" 1).map
      (fun r => Mcheap.size_of r.1.plat.mem 4096) = some 32 := by
  refine ⟨by decide, by decide!, by decide!, by decide!, by decide, by decide!, by decide!,
    by decide!⟩

end Heaps
namespace Mcheap

end Mcheap
namespace Mcheap

end Mcheap
namespace Mcheap

end Mcheap
